import Mathlib

/-!
# Shared-ownership handles (`snippets/SharedHandle.hpp`)

A shallow embedding of `SharedHeader`, `SharedHandleBase` and `SharedHandle`.

* A handle value is a natural number, `0` being the null handle.
* `std::shared_ptr<HeaderType>` is a reference to a numbered control block
  (`Option Nat`, `none` being the empty pointer).  A control block stores the
  use count and the managed `SharedHeader`; freed blocks stay in the table as
  `none`, and `std::make_shared` appends a new block, so block numbers are
  never reused.
* Every call of `deleter.destroy` is appended to a log.
* Objects of type `SharedHandle` that live in variables are numbered slots of
  a table; a slot holding `none` is raw storage (no object alive in it).
* Dereferencing an empty pointer or touching a freed block is a fault: the
  operation returns `none`.
-/

namespace SharedHandle

/-! ## Data model -/

/-- The two data members of `SharedHandleBase`. -/
structure Inst where
  m_control : Option Nat
  m_handle : Nat
deriving DecidableEq, Repr

/-- The struct `SharedHeader`: member `parent` exists only when the handle type
has a parent (the `NoParent` specialisation has just the deleter). -/
structure SharedHeader where
  parent : Option Inst
  deleter : Nat
deriving DecidableEq, Repr

/-- What `std::make_shared<HeaderType>` allocates: use count and managed object. -/
structure Block where
  useCount : Nat
  header : SharedHeader
deriving DecidableEq, Repr

/-- One call of `deleter.destroy`: `block` is the control block whose stored
deleter is called, `parent` is `some p` for `destroy(p, handle)` and `none`
for `destroy(handle)`. -/
structure Call where
  block : Nat
  deleter : Nat
  parent : Option Nat
  handle : Nat
deriving DecidableEq, Repr

/-- The heap of control blocks together with the log of deleter calls. -/
structure Mem where
  blocks : List (Option Block)
  log : List Call
deriving DecidableEq, Repr

/-- The heap, the log and the table of `SharedHandle` variables. -/
structure World where
  mem : Mem
  vars : List (Option Inst)
deriving DecidableEq, Repr

/-- The empty instance left by the default constructor, by `reset()` and in a
moved-from object. -/
def Inst.empty : Inst := ⟨none, 0⟩

/-- The live control block number `b`, if any. -/
def blockAt (m : Mem) (b : Nat) : Option Block :=
  match m.blocks[b]? with
  | some (some blk) => some blk
  | _ => none

/-- The call `shared_ptr::use_count()`: zero for the empty pointer. -/
def use_count (m : Mem) (c : Option Nat) : Nat :=
  match c with
  | none => 0
  | some b =>
    match blockAt m b with
    | some blk => blk.useCount
    | none => 0

/-- Deallocate control block `b`. -/
def freeBlock (m : Mem) (b : Nat) : Mem :=
  { m with blocks := m.blocks.set b none }

/-- Store use count `n` in control block `b`. -/
def setCount (m : Mem) (b : Nat) (blk : Block) (n : Nat) : Mem :=
  { m with blocks := m.blocks.set b (some { blk with useCount := n }) }

/-- Copying a `shared_ptr`: one more owner of its block. -/
def acquire (m : Mem) (c : Option Nat) : Option Mem :=
  match c with
  | none => some m
  | some b =>
    match blockAt m b with
    | none => none
    | some blk => some (setCount m b blk (blk.useCount + 1))

/-- The call `std::make_shared<HeaderType>(...)`: a new block with use count
one; returns the new heap and the number of the new block. -/
def make_shared (m : Mem) (hdr : SharedHeader) : Mem × Nat :=
  ({ m with blocks := m.blocks ++ [some ⟨1, hdr⟩] }, m.blocks.length)

/-! ## `SharedHandleBase` on instance values -/

/-- The two overloads of `internalDestroy()`:
`m_control->deleter.destroy( m_handle )` without a parent and
`m_control->deleter.destroy( getParent(), m_handle )` with one, where
`getParent()` is `m_control->parent.get()`. -/
def internalDestroy (m : Mem) (x : Inst) : Option Mem :=
  match x.m_control with
  | none => none
  | some b =>
    match blockAt m b with
    | none => none
    | some blk =>
      match blk.header.parent with
      | none => some { m with log := m.log ++ [⟨b, blk.header.deleter, none, x.m_handle⟩] }
      | some p =>
        some { m with log := m.log ++ [⟨b, blk.header.deleter, some p.m_handle, x.m_handle⟩] }

/-- The call `m_control.reset()` (and the destructor of `m_control`), given
the procedure `rel` that drops one owner of a block. -/
def shared_ptr_reset (rel : Mem → Nat → Option Mem) (m : Mem) (c : Option Nat) : Option Mem :=
  match c with
  | none => some m
  | some b => rel m b

/-- The body of `SharedHandleBase::reset()` on the instance value `x`; returns
the new heap and the new value of the instance. -/
def resetWith (rel : Mem → Nat → Option Mem) (m : Mem) (x : Inst) : Option (Mem × Inst) :=
  if x.m_handle = 0 then some (m, x)
  else
    let refs := use_count m x.m_control
    (if refs = 1 then internalDestroy m x else some m).bind fun m1 =>
    (shared_ptr_reset rel m1 x.m_control).bind fun m2 =>
    some (m2, ⟨none, 0⟩)

/-- The destructor `~SharedHandleBase()`: the body `reset();`, then the member
`m_control` is destroyed. -/
def dtorWith (rel : Mem → Nat → Option Mem) (m : Mem) (x : Inst) : Option Mem :=
  (resetWith rel m x).bind fun r => shared_ptr_reset rel r.1 r.2.m_control

/-- Dropping one owner of block `b`.  The last owner deallocates the block and
destroys the managed `SharedHeader`, whose member `parent` (when there is one)
runs `~SharedHandleBase()`; the first argument bounds the depth of that
cascade. -/
def releaseFuel : Nat → Mem → Nat → Option Mem
  | 0, _, _ => none
  | fuel + 1, m, b =>
    match blockAt m b with
    | none => none
    | some blk =>
      if blk.useCount = 1 then
        match blk.header.parent with
        | none => some (freeBlock m b)
        | some p => dtorWith (releaseFuel fuel) (freeBlock m b) p
      else some (setCount m b blk (blk.useCount - 1))

/-- Dropping one owner of block `b`; every level of the cascade frees a block,
so the number of blocks bounds its depth. -/
def release (m : Mem) (b : Nat) : Option Mem :=
  releaseFuel (m.blocks.length + 1) m b

/-! ## Variables -/

/-- The object alive in slot `i`, if any. -/
def World.var (w : World) (i : Nat) : Option Inst :=
  match w.vars[i]? with
  | some (some x) => some x
  | _ => none

/-- Overwrite the object in slot `i`. -/
def World.setVar (w : World) (i : Nat) (x : Inst) : World :=
  { w with vars := w.vars.set i (some x) }

/-- Raw storage for one more object; its slot number is the old table size. -/
def World.alloc (w : World) : World :=
  { w with vars := w.vars ++ [none] }

/-- The world with no block, no call and no variable. -/
def World.init : World := ⟨⟨[], []⟩, []⟩

/-- The call `get()`. -/
def get (w : World) (i : Nat) : Option Nat :=
  (w.var i).map Inst.m_handle

/-- The conversion `explicit operator bool()`. -/
def toBool (w : World) (i : Nat) : Option Bool :=
  (w.var i).map fun x => decide (x.m_handle ≠ 0)

/-- The call `getParent()`: `m_control->parent.get()`. -/
def getParent (w : World) (i : Nat) : Option Nat :=
  (w.var i).bind fun x =>
  x.m_control.bind fun b =>
  (blockAt w.mem b).bind fun blk =>
  blk.header.parent.map Inst.m_handle

/-! ## Constructors, run on the storage of slot `dst` -/

/-- The default constructor `SharedHandleBase() = default`. -/
def defaultCtorAt (w : World) (dst : Nat) : Option World :=
  some (w.setVar dst Inst.empty)

/-- The constructor `SharedHandle( handle, deleter )` of a type without parent
(`parent = none`) and `SharedHandle( handle, parent, deleter )` of a type with
one, where `parent = some t` names the variable holding the by-value parameter
`parent`; the parameter is moved into the new `SharedHeader`. -/
def constructAt (w : World) (dst : Nat) (handle : Nat) (parent : Option Nat) (deleter : Nat) :
    Option World :=
  match parent with
  | none =>
    let r := make_shared w.mem ⟨none, deleter⟩
    some ({ w with mem := r.1 }.setVar dst ⟨some r.2, handle⟩)
  | some t =>
    if t = dst then none
    else
      (w.var t).bind fun p =>
      let r := make_shared w.mem ⟨some p, deleter⟩
      some (({ w with mem := r.1 }.setVar t Inst.empty).setVar dst ⟨some r.2, handle⟩)

/-- The copy constructor: `m_handle( o.m_handle ), m_control( o.m_control )`. -/
def copyCtorAt (w : World) (dst o : Nat) : Option World :=
  (w.var o).bind fun x =>
  (acquire w.mem x.m_control).bind fun m1 =>
  some ({ w with mem := m1 }.setVar dst ⟨x.m_control, x.m_handle⟩)

/-- The move constructor: `m_handle( o.m_handle ), m_control( std::move(
o.m_control ) )`, then `o.m_handle = nullptr`. -/
def moveCtorAt (w : World) (dst o : Nat) : Option World :=
  if o = dst then none
  else
    (w.var o).bind fun x =>
    some ((w.setVar dst ⟨x.m_control, x.m_handle⟩).setVar o ⟨none, 0⟩)

/-! ## Public operations on variables -/

/-- A new variable, default constructed. -/
def defaultCtor (w : World) : Option World :=
  defaultCtorAt w.alloc w.vars.length

/-- A new variable built by `SharedHandle( handle [, parent], deleter )`. -/
def construct (w : World) (handle : Nat) (parent : Option Nat) (deleter : Nat) : Option World :=
  constructAt w.alloc w.vars.length handle parent deleter

/-- A new variable, copy constructed from variable `o`. -/
def copyCtor (w : World) (o : Nat) : Option World :=
  copyCtorAt w.alloc w.vars.length o

/-- A new variable, move constructed from variable `o`. -/
def moveCtor (w : World) (o : Nat) : Option World :=
  moveCtorAt w.alloc w.vars.length o

/-- The call `reset()` on variable `i`. -/
def reset (w : World) (i : Nat) : Option World :=
  (w.var i).bind fun x =>
  (resetWith release w.mem x).bind fun r =>
  some { mem := r.1, vars := w.vars.set i (some r.2) }

/-- The end of the lifetime of variable `i`: `~SharedHandleBase()` runs
`reset()`, then the member `m_control` is destroyed and the slot is raw storage
again. -/
def destroy (w : World) (i : Nat) : Option World :=
  (reset w i).bind fun w1 =>
  (w1.var i).bind fun x =>
  (shared_ptr_reset release w1.mem x.m_control).bind fun m2 =>
  some { mem := m2, vars := w1.vars.set i none }

/-- Copy assignment `a = o`:
`reset(); m_handle = o.m_handle; m_control = o.m_control;`.  The source is read
after `reset()`, so `a` and `o` may be the same variable.  Copy assignment of
`shared_ptr` first takes a share of the source block and then drops the share
the target had. -/
def copyAssign (w : World) (a o : Nat) : Option World :=
  (reset w a).bind fun w1 =>
  (w1.var a).bind fun xa =>
  (w1.var o).bind fun xo =>
  (acquire w1.mem xo.m_control).bind fun m2 =>
  (shared_ptr_reset release m2 xa.m_control).bind fun m3 =>
  some { mem := m3, vars := w1.vars.set a (some ⟨xo.m_control, xo.m_handle⟩) }

/-- Move assignment `a = std::move( o )`:
`reset(); m_handle = o.m_handle; m_control = std::move( o.m_control );
o.m_handle = nullptr;`.  Every member is read when its statement runs, so `a`
and `o` may be the same variable.  Move assignment of `shared_ptr` empties the
source pointer, gives its old value to the target and drops the share the
target had at that moment. -/
def moveAssign (w : World) (a o : Nat) : Option World :=
  (reset w a).bind fun w1 =>
  (w1.var a).bind fun xa =>
  (w1.var o).bind fun xo =>
  -- m_handle = o.m_handle
  let w2 := w1.setVar a ⟨xa.m_control, xo.m_handle⟩
  -- m_control = std::move( o.m_control )
  (w2.var o).bind fun yo =>
  let w3 := w2.setVar o ⟨none, yo.m_handle⟩
  (w3.var a).bind fun ya =>
  let w4 := w3.setVar a ⟨xo.m_control, ya.m_handle⟩
  (shared_ptr_reset release w4.mem ya.m_control).bind fun m5 =>
  -- o.m_handle = nullptr
  ({ w4 with mem := m5 }.var o).bind fun zo =>
  some ({ w4 with mem := m5 }.setVar o ⟨zo.m_control, 0⟩)

/-- The call `put( [parent,] deleter )` on variable `i`:
`reset(); m_control = std::make_shared<HeaderType>( ... );`.  With
`parent = some t` the by-value parameter `parent`, held in variable `t`, is
moved into the new `SharedHeader`.  The returned reference is the member
`m_handle` of variable `i`. -/
def put (w : World) (i : Nat) (parent : Option Nat) (deleter : Nat) : Option World :=
  (reset w i).bind fun w1 =>
  (w1.var i).bind fun x =>
  match parent with
  | none =>
    let r := make_shared w1.mem ⟨none, deleter⟩
    (shared_ptr_reset release r.1 x.m_control).bind fun m3 =>
    some { mem := m3, vars := w1.vars.set i (some ⟨some r.2, x.m_handle⟩) }
  | some t =>
    if t = i then none
    else
      (w1.var t).bind fun p =>
      let r := make_shared w1.mem ⟨some p, deleter⟩
      (shared_ptr_reset release r.1 x.m_control).bind fun m3 =>
      some { mem := m3,
             vars := (w1.vars.set t (some Inst.empty)).set i (some ⟨some r.2, x.m_handle⟩) }

/-- The call `put_native( ... )`: the reference returned by `put`, seen through
`reinterpret_cast` as a reference to the native handle type. -/
def put_native (w : World) (i : Nat) (parent : Option Nat) (deleter : Nat) : Option World :=
  put w i parent deleter

/-- The caller stores `v` through the reference to `m_handle` that `put` (or
`put_native`) returned for variable `i`.  The reference is a plain
`HandleType &`: the store is made in whatever state the variable is. -/
def fill (w : World) (i : Nat) (v : Nat) : Option World :=
  (w.var i).bind fun x => some (w.setVar i ⟨x.m_control, v⟩)

/-- The caller stores `v` through the pointer `&m_handle` that the non-const
`operator->()` of variable `i` returned. -/
def arrowStore (w : World) (i : Nat) (v : Nat) : Option World :=
  (w.var i).bind fun x => some (w.setVar i ⟨x.m_control, v⟩)

/-- The call `getParentHandle()` on variable `i`; the returned copy of
`m_control->parent` becomes a new variable. -/
def getParentHandle (w : World) (i : Nat) : Option World :=
  (w.var i).bind fun x =>
  x.m_control.bind fun b =>
  (blockAt w.mem b).bind fun blk =>
  blk.header.parent.bind fun p =>
  (acquire w.mem p.m_control).bind fun m1 =>
  some ({ w.alloc with mem := m1 }.setVar w.vars.length ⟨p.m_control, p.m_handle⟩)

/-- The function `sharedToRaw`: a buffer of the size of `handles`, filled by
`std::transform` with `handle.get()` of every element, in order. -/
def sharedToRaw (handles : List Inst) : List Nat :=
  handles.map fun handle => handle.m_handle

/-- The loop of `std::transform( handles.begin(), handles.end(),
newBuffer.begin(), op )` in `sharedToRaw`, where `op` is `handle.get()`: the
elements still to be read are the variables in the first list, the result of
`op` is stored at position `pos` of `newBuffer`.  The elements are read through
`const` references, so the world is passed along as it is. -/
def transform (w : World) : List Nat → List Nat → Nat → Option (List Nat × World)
  | [], newBuffer, _ => some (newBuffer, w)
  | i :: rest, newBuffer, pos =>
    (get w i).bind fun v => transform w rest (newBuffer.set pos v) (pos + 1)

/-- The call `sharedToRaw( handles )` on a vector whose elements are the
variables `handles`: `newBuffer( handles.size() )` holds null handles, is
filled by `std::transform` and returned. -/
def sharedToRawOn (w : World) (handles : List Nat) : Option (List Nat × World) :=
  transform w handles (List.replicate handles.length 0) 0

/-! ## Traces of public operations -/

/-- The public operations that change the state. -/
inductive Op where
  | defaultCtor
  | construct (handle : Nat) (parent : Option Nat) (deleter : Nat)
  | copyCtor (o : Nat)
  | moveCtor (o : Nat)
  | copyAssign (a o : Nat)
  | moveAssign (a o : Nat)
  | reset (i : Nat)
  | put (i : Nat) (parent : Option Nat) (deleter : Nat)
  | fill (i : Nat) (v : Nat)
  | arrowStore (i : Nat) (v : Nat)
  | destroy (i : Nat)
  | getParentHandle (i : Nat)
deriving DecidableEq, Repr

/-- One public operation. -/
def step (w : World) : Op → Option World
  | .defaultCtor => defaultCtor w
  | .construct h p d => construct w h p d
  | .copyCtor o => copyCtor w o
  | .moveCtor o => moveCtor w o
  | .copyAssign a o => copyAssign w a o
  | .moveAssign a o => moveAssign w a o
  | .reset i => reset w i
  | .put i p d => put w i p d
  | .fill i v => fill w i v
  | .arrowStore i v => arrowStore w i v
  | .destroy i => destroy w i
  | .getParentHandle i => getParentHandle w i

/-- A sequence of public operations, left to right. -/
def run (w : World) : List Op → Option World
  | [] => some w
  | op :: ops => (step w op).bind fun w1 => run w1 ops

/-! ## Reference counting invariant -/

/-- The control block an optional instance points to. -/
def ctlOf : Option Inst → Option Nat
  | some x => x.m_control
  | none => none

/-- The member `parent` of the header in a heap cell, if any. -/
def parentOf : Option Block → Option Inst
  | some blk => blk.header.parent
  | none => none

/-- How many of the instances `ext` (variables and temporaries) point to block `b`. -/
def extRefs (ext : List (Option Inst)) (b : Nat) : Nat :=
  ext.countP fun o => decide (ctlOf o = some b)

/-- How many live headers hold a parent that points to block `b`. -/
def heapRefs (m : Mem) (b : Nat) : Nat :=
  m.blocks.countP fun o => decide (ctlOf (parentOf o) = some b)

/-- The heap is consistent with the instances `ext` that exist outside of it:
no pointer dangles, a parent block is older than its child, and every use
count is positive and is the number of pointers to the block. -/
structure Inv (m : Mem) (ext : List (Option Inst)) : Prop where
  ext_live : ∀ o ∈ ext, ∀ b, ctlOf o = some b → blockAt m b ≠ none
  parent_lt : ∀ c blk b, blockAt m c = some blk → ctlOf blk.header.parent = some b →
    b < c ∧ blockAt m b ≠ none
  count_eq : ∀ b blk, blockAt m b = some blk → blk.useCount = extRefs ext b + heapRefs m b
  pos : ∀ b blk, blockAt m b = some blk → 0 < blk.useCount

/-- The call that the deleter of block `b` with header `hdr` receives for handle `h`. -/
def callOf (b : Nat) (hdr : SharedHeader) (h : Nat) : Call :=
  ⟨b, hdr.deleter, hdr.parent.map Inst.m_handle, h⟩

/-- Instance `y` points to block `b` and is the instance `x` being destroyed or
the parent member of a live header. -/
def HeldRef (m : Mem) (x : Inst) (b : Nat) (y : Inst) : Prop :=
  y.m_control = some b ∧ (y = x ∨ ∃ c blk, blockAt m c = some blk ∧ blk.header.parent = some y)

/-- What destroying instance `x` in heap `m` does: it ends in heap `m'` after
the deleter calls `new`. -/
structure Cascade (m : Mem) (x : Inst) (m' : Mem) (new : List Call) : Prop where
  log_eq : m'.log = m.log ++ new
  len_eq : m'.blocks.length = m.blocks.length
  mono : ∀ b blk', blockAt m' b = some blk' →
    ∃ blk, blockAt m b = some blk ∧ blk'.header = blk.header
  entry : ∀ e ∈ new, e.handle ≠ 0 ∧ blockAt m' e.block = none ∧
    ∃ blk, blockAt m e.block = some blk ∧ e = callOf e.block blk.header e.handle ∧
      ∃ y, HeldRef m x e.block y ∧ y.m_handle = e.handle
  nodup : (new.map Call.block).Nodup
  freed : ∀ b, blockAt m b ≠ none → blockAt m' b = none →
    (∃ e ∈ new, e.block = b) ∨ ∃ y, HeldRef m x b y ∧ y.m_handle = 0
  order : ∀ (j : Nat) (e : Call), new[j]? = some e → ∀ c blk, blockAt m c = some blk →
    ctlOf blk.header.parent = some e.block →
    (∃ (i : Nat) (e' : Call), i < j ∧ new[i]? = some e' ∧ e'.block = c) ∨
      ∃ y, HeldRef m x c y ∧ y.m_handle = 0
  own : ∀ b, x.m_control = some b → use_count m' (some b) + 1 = use_count m (some b)
  first : ∀ b blk, x.m_control = some b → blockAt m b = some blk → x.m_handle ≠ 0 →
    blk.useCount = 1 → ∃ rest, new = callOf b blk.header x.m_handle :: rest
  quiet : ∀ b blk, x.m_control = some b → blockAt m b = some blk → blk.useCount ≠ 1 →
    new = [] ∧ m' = setCount m b blk (blk.useCount - 1)
  noctl : x.m_control = none → new = [] ∧ m' = m

/-! ## Well-formed worlds and the effect of one operation -/

/-- The header of the live control block number `b`, if any. -/
def headerAt (m : Mem) (b : Nat) : Option SharedHeader :=
  (blockAt m b).map Block.header

/-- A well-formed world: the use counts are exact for the variables, and every
logged call was made for a non-null handle by a block that is freed. -/
structure WF (w : World) : Prop where
  inv : Inv w.mem w.vars
  log_ok : ∀ e ∈ w.mem.log,
    blockAt w.mem e.block = none ∧ e.block < w.mem.blocks.length ∧ e.handle ≠ 0

/-- Instance `y` points to block `b` and is the value of a variable or the
parent member of a live header. -/
def Holds (w : World) (b : Nat) (y : Inst) : Prop :=
  y.m_control = some b ∧
    (some y ∈ w.vars ∨ ∃ c hdr, headerAt w.mem c = some hdr ∧ hdr.parent = some y)

/-- Heap `m1` comes from heap `m` by changing use counts and allocating blocks
whose parent members are taken from the variables `vs`. -/
structure Grow (vs : List (Option Inst)) (m m1 : Mem) : Prop where
  log_eq : m1.log = m.log
  len_le : m.blocks.length ≤ m1.blocks.length
  old : ∀ b, b < m.blocks.length → headerAt m1 b = headerAt m b
  fresh : ∀ b hdr, m.blocks.length ≤ b → headerAt m1 b = some hdr →
    ∀ y, hdr.parent = some y → some y ∈ vs

/-- What one public operation does to a well-formed world `w`: it ends in `w'`
after the deleter calls `new`. -/
structure StepFacts (w w' : World) (new : List Call) : Prop where
  log_eq : w'.mem.log = w.mem.log ++ new
  len_le : w.mem.blocks.length ≤ w'.mem.blocks.length
  mono : ∀ b, b < w.mem.blocks.length →
    headerAt w'.mem b = none ∨ headerAt w'.mem b = headerAt w.mem b
  entry : ∀ e ∈ new, e.handle ≠ 0 ∧ headerAt w'.mem e.block = none ∧
    ∃ hdr, headerAt w.mem e.block = some hdr ∧ e = callOf e.block hdr e.handle ∧
      ∃ y, Holds w e.block y ∧ y.m_handle = e.handle
  nodup : (new.map Call.block).Nodup
  freed : ∀ b, headerAt w.mem b ≠ none → headerAt w'.mem b = none →
    (∃ e ∈ new, e.block = b) ∨ ∃ y, Holds w b y ∧ y.m_handle = 0
  order : ∀ (j : Nat) (e : Call), new[j]? = some e → ∀ c hdr, headerAt w.mem c = some hdr →
    ctlOf hdr.parent = some e.block →
    (∃ (i : Nat) (e' : Call), i < j ∧ new[i]? = some e' ∧ e'.block = c) ∨
      ∃ y, Holds w c y ∧ y.m_handle = 0
  refs : ∀ b y, Holds w' b y → b < w.mem.blocks.length →
    ∃ y0, Holds w b y0 ∧ (y0.m_handle = y.m_handle ∨ y0.m_handle = 0)

/-! ## Where the instances of a new world come from -/

/-- The value `o` of a variable after an operation on world `w` points, if it
points to a block of `w`, to the same block as an instance of `w` with the same
handle or with a null handle. -/
def SrcOK (w : World) (o : Option Inst) : Prop :=
  ∀ y, o = some y → ∀ b, y.m_control = some b → b < w.mem.blocks.length →
    ∃ y0, Holds w b y0 ∧ (y0.m_handle = y.m_handle ∨ y0.m_handle = 0)

/-! ## The life of one control block -/

/-- The calls that the deleter stored in control block `b` has received so far. -/
def callsOf (m : Mem) (b : Nat) : List Call :=
  m.log.filter fun e => decide (e.block = b)

/-- The state of the control block `C` that was built with header `hdr` for the
handle `h`: either it is alive, every instance pointing to it holds `h` and its
deleter was not called, or it is freed and its deleter was called once, for `h`. -/
def Fam (C : Nat) (hdr : SharedHeader) (h : Nat) (w : World) : Prop :=
  C < w.mem.blocks.length ∧
  ((headerAt w.mem C = some hdr ∧ (∀ y, Holds w C y → y.m_handle = h) ∧ callsOf w.mem C = []) ∨
   (headerAt w.mem C = none ∧ callsOf w.mem C = [callOf C hdr h]))

/-- The operations of the single-destruction example, run after
`SharedHandle( 42, deleter 100 )` was stored in variable 0. -/
def exFamilyOps : List Op :=
  [.copyCtor 0, .moveCtor 1, .copyAssign 1 2, .reset 0, .destroy 2, .moveAssign 0 1,
   .destroy 1, .reset 0]

/-- The world of the single-destruction example after the handle was built. -/
def exFamilyStart : World :=
  ⟨⟨[some ⟨1, ⟨none, 100⟩⟩], []⟩, [some ⟨some 0, 42⟩]⟩

/-- The world at the end of the single-destruction example. -/
def exFamilyEnd : World :=
  ⟨⟨[none], [⟨0, 100, none, 42⟩]⟩, [some ⟨none, 0⟩, none, none]⟩

/-- The world of the parent-and-child example after the child 42 was built in
variable 2 from the parameter in variable 1. -/
def exChildWorld : World :=
  ⟨⟨[some ⟨2, ⟨none, 100⟩⟩, some ⟨1, ⟨some ⟨some 0, 7⟩, 200⟩⟩], []⟩,
    [some ⟨some 0, 7⟩, some ⟨none, 0⟩, some ⟨some 1, 42⟩]⟩

/-- The cascade scenario: a parent with handle `p` and deleter `dP` in
variable 0, its copy passed as the by-value parameter in variable 1, and a child
with handle `c` and deleter `dC` built from it in variable 2; the parameter is
destroyed at the end of the constructor call. -/
def cascadeSetup (p c dP dC : Nat) : List Op :=
  [.construct p none dP, .copyCtor 0, .construct c (some 1) dC, .destroy 1]

/-- The world after `cascadeSetup`: block 0 of the parent is owned by the
variable `parent` and by the header of block 1 of the child. -/
def cascadeWorld (p c dP dC : Nat) : World :=
  ⟨⟨[some ⟨2, ⟨none, dP⟩⟩, some ⟨1, ⟨some ⟨some 0, p⟩, dC⟩⟩], []⟩,
   [some ⟨some 0, p⟩, none, some ⟨some 1, c⟩]⟩

/-- The world in which variable 2 was `put` with a parent and never filled:
it holds control block 1, whose header owns the parent block 0, and a null handle. -/
def exUnfilled : World :=
  ⟨⟨[some ⟨1, ⟨none, 100⟩⟩, some ⟨1, ⟨some ⟨some 0, 7⟩, 200⟩⟩], []⟩,
   [none, some ⟨none, 0⟩, some ⟨some 1, 0⟩]⟩

/-- Copy assignment as the specification words it: release the previous state
of `a` by `reset()`, then copy-construct `a` from `o`. -/
def specCopyAssign (w : World) (a o : Nat) : Option World :=
  (reset w a).bind fun w1 => copyCtorAt w1 a o

/-- Move assignment as the specification words it: release the previous state
of `a` by `reset()`, then move-construct `a` from `o`. -/
def specMoveAssign (w : World) (a o : Nat) : Option World :=
  (reset w a).bind fun w1 => moveCtorAt w1 a o

/-- The operations that lead to `exNullTarget`: two parents, a child `a` that is
`put` with the first parent and never filled, and a child `b` for handle 7 with
the second parent. -/
def exNullTargetOps : List Op :=
  [.construct 5 none 100, .construct 6 none 100, .defaultCtor, .put 2 (some 0) 200,
   .construct 7 (some 1) 300]

/-- The world in which variable 2 holds control block 2 with a null handle (it
was `put` and never filled) and variable 3 owns handle 7. -/
def exNullTarget : World :=
  ⟨⟨[some ⟨1, ⟨none, 100⟩⟩, some ⟨1, ⟨none, 100⟩⟩,
      some ⟨1, ⟨some ⟨some 0, 5⟩, 200⟩⟩, some ⟨1, ⟨some ⟨some 1, 6⟩, 300⟩⟩], []⟩,
   [some ⟨none, 0⟩, some ⟨none, 0⟩, some ⟨some 2, 0⟩, some ⟨some 3, 7⟩]⟩

/-- The world in which variable 0 owns the parent handle 7, variable 2 is the
sole owner of the child handle 42 built with that parent, and variable 3 is a
copy of the parent, to be passed to `put`. -/
def exPutWorld : World :=
  ⟨⟨[some ⟨3, ⟨none, 100⟩⟩, some ⟨1, ⟨some ⟨some 0, 7⟩, 200⟩⟩], []⟩,
   [some ⟨some 0, 7⟩, some ⟨none, 0⟩, some ⟨some 1, 42⟩, some ⟨some 0, 7⟩]⟩

/-- The world in which variables 0 and 1 share block 0 for the handle 42. -/
def exSharedWorld : World :=
  ⟨⟨[some ⟨2, ⟨none, 100⟩⟩], []⟩, [some ⟨some 0, 42⟩, some ⟨some 0, 42⟩]⟩

/-! ## Instances of a world and their origin -/

/-- Instance `y` is the value of a variable or the parent member of a live header. -/
def IsInst (w : World) (y : Inst) : Prop :=
  some y ∈ w.vars ∨ ∃ c hdr, headerAt w.mem c = some hdr ∧ hdr.parent = some y

/-- Heap `m'` has the size of heap `m` and every live header of `m'` is a live
header of `m`. -/
def HdrSub (m m' : Mem) : Prop :=
  m'.blocks.length = m.blocks.length ∧
    ∀ c hdr, headerAt m' c = some hdr → headerAt m c = some hdr

/-- The handle that an operation stores next to the control block it allocates. -/
def Op.freshHandle : Op → Option Nat
  | .construct handle _ _ => some handle
  | .put _ _ _ => some 0
  | _ => none

/-- The variable and the value of a store into a member `m_handle` from
outside the class, through the reference of `put` or the pointer of
`operator->()`. -/
def Op.store : Op → Option (Nat × Nat)
  | .fill i v => some (i, v)
  | .arrowStore i v => some (i, v)
  | _ => none

/-- In the run of the operations from `w`, every store into a handle from
outside the class satisfies `ok` in the world where it is made. -/
def storesOK (ok : World → Nat → Nat → Bool) : World → List Op → Bool
  | _, [] => true
  | w, op :: ops =>
    (match op.store with
      | some (i, v) => ok w i v
      | none => true) &&
    (match step w op with
      | some w1 => storesOK ok w1 ops
      | none => true)

/-- The store is made into a handle that is null. -/
def nullTarget (w : World) (i : Nat) (_ : Nat) : Bool :=
  decide (get w i = some 0)

/-- The store writes the null handle, or is made into a variable that holds a
control block. -/
def ownedTarget (w : World) (i : Nat) (v : Nat) : Bool :=
  decide (v = 0 ∨ (w.var i).bind Inst.m_control ≠ none)

/-- The store is made into a variable that shares its control block, if it has
one, with no other instance. -/
def soleTarget (w : World) (i : Nat) (_ : Nat) : Bool :=
  decide (use_count w.mem ((w.var i).bind Inst.m_control) ≤ 1)

/-- Every instance of `w'` is an instance of `w`, or is empty, or points to the
block that was allocated last and holds the handle `fresh`. -/
def Prov (w w' : World) (fresh : Option Nat) : Prop :=
  ∀ y, IsInst w' y → IsInst w y ∨ y = ⟨none, 0⟩ ∨
    ∃ hv, fresh = some hv ∧ y = ⟨some w.mem.blocks.length, hv⟩

/-! ## Agreement of the owners of a block -/

/-- All instances that point to the same control block hold the same handle. -/
def Agree (w : World) : Prop :=
  ∀ b y1 y2, Holds w b y1 → Holds w b y2 → y1.m_handle = y2.m_handle

/-! ## More example worlds -/

/-- The world after three handles were built and destroyed: one constructed
with a null handle, one `put` and never filled, one for the handle 42. -/
def exNullEnd : World :=
  ⟨⟨[none, none, none], [⟨2, 100, none, 42⟩]⟩, [none, none, none]⟩

/-- The world with one default-constructed variable. -/
def exEmptyVar : World :=
  ⟨⟨[], []⟩, [some ⟨none, 0⟩]⟩

/-! ## Lemmas -/

/-! ### Heap cells and reference counts -/

theorem countP_set_add {α : Type} (p : α → Bool) (l : List α) (i : Nat) (a : α) (h : i < l.length) :
    (l.set i a).countP p + (if p (l.get ⟨i, h⟩) then 1 else 0) = l.countP p + (if p a then 1 else 0) := by
  induction l generalizing i with
  | nil => simp at h
  | cons x xs ih =>
    cases i with
    | zero =>
      simp [List.countP_cons]
      omega
    | succ j =>
      have hj : j < xs.length := by simpa using h
      have := ih j hj
      simp [List.countP_cons] at this ⊢
      omega

theorem blockAt_lt {m : Mem} {b : Nat} (h : blockAt m b ≠ none) : b < m.blocks.length := by
  unfold blockAt at h
  by_contra hlt
  have : m.blocks[b]? = none := by simp at hlt; simpa using hlt
  simp [this] at h

theorem blockAt_eq_some {m : Mem} {b : Nat} {blk : Block} :
    blockAt m b = some blk ↔ m.blocks[b]? = some (some blk) := by
  unfold blockAt
  split
  · next x h => simp [h]
  · next h =>
    constructor
    · intro h'; simp at h'
    · intro h'; exact absurd h' (h blk)

theorem blockAt_freeBlock (m : Mem) (b c : Nat) :
    blockAt (freeBlock m b) c = if c = b then none else blockAt m c := by
  unfold blockAt freeBlock
  by_cases h : c = b
  · subst h
    by_cases hl : c < m.blocks.length <;> simp [List.getElem?_set, hl]
  · have : b ≠ c := fun e => h e.symm
    simp [List.getElem?_set, this, h]

theorem blockAt_setCount (m : Mem) (b c : Nat) (blk : Block) (n : Nat) (hb : blockAt m b ≠ none) :
    blockAt (setCount m b blk n) c = if c = b then some { blk with useCount := n } else blockAt m c := by
  have hl := blockAt_lt hb
  unfold blockAt setCount
  by_cases h : c = b
  · subst h
    simp [List.getElem?_set, hl]
  · have : b ≠ c := fun e => h e.symm
    simp [List.getElem?_set, this, h]

theorem get_of_blockAt {m : Mem} {b : Nat} {blk : Block} (h : blockAt m b = some blk)
    (hl : b < m.blocks.length) : m.blocks.get ⟨b, hl⟩ = some blk := by
  have := blockAt_eq_some.mp h
  rw [List.getElem?_eq_getElem hl] at this
  simpa using this

theorem heapRefs_freeBlock (m : Mem) (b b' : Nat) (blk : Block) (h : blockAt m b = some blk) :
    heapRefs (freeBlock m b) b' + (if ctlOf blk.header.parent = some b' then 1 else 0)
      = heapRefs m b' := by
  have hl : b < m.blocks.length := blockAt_lt (by simp [h])
  have := countP_set_add (fun o => decide (ctlOf (parentOf o) = some b')) m.blocks b none hl
  rw [get_of_blockAt h hl] at this
  simpa [heapRefs, freeBlock, parentOf, ctlOf] using this

theorem heapRefs_setCount (m : Mem) (b b' : Nat) (blk : Block) (n : Nat) (h : blockAt m b = some blk) :
    heapRefs (setCount m b blk n) b' = heapRefs m b' := by
  have hl : b < m.blocks.length := blockAt_lt (by simp [h])
  have := countP_set_add (fun o => decide (ctlOf (parentOf o) = some b')) m.blocks b
    (some { blk with useCount := n }) hl
  rw [get_of_blockAt h hl] at this
  simpa [heapRefs, setCount, parentOf] using this

theorem extRefs_cons (o : Option Inst) (ext : List (Option Inst)) (b : Nat) :
    extRefs (o :: ext) b = extRefs ext b + (if ctlOf o = some b then 1 else 0) := by
  simp [extRefs, List.countP_cons]

/-! ### The destruction cascade -/

theorem internalDestroy_eq {m : Mem} {x : Inst} {b : Nat} {blk : Block}
    (hx : x.m_control = some b) (hb : blockAt m b = some blk) :
    internalDestroy m x = some { m with log := m.log ++ [callOf b blk.header x.m_handle] } := by
  unfold internalDestroy
  simp only [hx, hb]
  cases hp : blk.header.parent <;> simp [callOf, hp]

theorem dtorWith_eq (rel : Mem → Nat → Option Mem) (m : Mem) (x : Inst) :
    dtorWith rel m x =
      match x.m_control with
      | none => some m
      | some b =>
        (if x.m_handle ≠ 0 ∧ use_count m (some b) = 1 then internalDestroy m x else some m).bind
          fun m1 => rel m1 b := by
  unfold dtorWith resetWith
  cases hc : x.m_control with
  | none =>
    by_cases hh : x.m_handle = 0
    · simp [hh, shared_ptr_reset, hc]
    · simp [hh, shared_ptr_reset, use_count]
  | some b =>
    by_cases hh : x.m_handle = 0
    · simp [hh, shared_ptr_reset, hc]
    · by_cases h1 : use_count m (some b) = 1
      · simp [hh, h1, shared_ptr_reset]
        cases internalDestroy m x with
        | none => simp
        | some m1 =>
          simp
          cases rel m1 b <;> simp
      · simp [hh, h1, shared_ptr_reset]
        cases rel m b <;> simp

theorem heapRefs_pos {m : Mem} {c b : Nat} {blk : Block} (hc : blockAt m c = some blk)
    (hp : ctlOf blk.header.parent = some b) : 0 < heapRefs m b := by
  unfold heapRefs
  rw [List.countP_pos_iff]
  refine ⟨some blk, ?_, ?_⟩
  · exact List.getElem?_mem (blockAt_eq_some.mp hc)
  · simpa [parentOf] using hp

theorem extRefs_zero_not_mem {ext : List (Option Inst)} {b : Nat} (h : extRefs ext b = 0)
    {o : Option Inst} (ho : o ∈ ext) : ctlOf o ≠ some b := by
  unfold extRefs at h
  rw [List.countP_eq_zero] at h
  simpa using h o ho

theorem Cascade.of_none {m : Mem} {x : Inst} (hx : x.m_control = none) : Cascade m x m [] where
  log_eq := by simp
  len_eq := rfl
  mono := fun b blk' h => ⟨blk', h, rfl⟩
  entry := by simp
  nodup := by simp
  freed := fun b h1 h2 => absurd h2 h1
  order := by simp
  own := by simp [hx]
  first := by simp [hx]
  quiet := by simp [hx]
  noctl := fun _ => ⟨rfl, rfl⟩

theorem Inv.drop {m : Mem} {o : Option Inst} {ext : List (Option Inst)} (h : Inv m (o :: ext))
    (ho : ctlOf o = none) : Inv m ext where
  ext_live := fun o' ho' b hb => h.ext_live o' (List.mem_cons_of_mem _ ho') b hb
  parent_lt := h.parent_lt
  count_eq := fun b blk hb => by
    have := h.count_eq b blk hb
    rw [extRefs_cons] at this
    simpa [ho] using this
  pos := h.pos

theorem Inv.with_log {m : Mem} {ext : List (Option Inst)} (h : Inv m ext) (l : List Call) :
    Inv { m with log := l } ext :=
  ⟨h.ext_live, h.parent_lt, h.count_eq, h.pos⟩

theorem Inv.own_block {m : Mem} {x : Inst} {ext : List (Option Inst)} {b : Nat}
    (h : Inv m (some x :: ext)) (hx : x.m_control = some b) :
    ∃ blk, blockAt m b = some blk ∧ blk.useCount = extRefs ext b + 1 + heapRefs m b := by
  have hl := h.ext_live (some x) (List.mem_cons_self _ _) b (by simpa [ctlOf] using hx)
  obtain ⟨blk, hb⟩ := Option.ne_none_iff_exists'.mp hl
  refine ⟨blk, hb, ?_⟩
  have := h.count_eq b blk hb
  rw [extRefs_cons] at this
  simpa [ctlOf, hx] using this

theorem Inv.free {m : Mem} {x : Inst} {ext : List (Option Inst)} {b : Nat} {blk : Block}
    (h : Inv m (some x :: ext)) (hx : x.m_control = some b) (hb : blockAt m b = some blk)
    (h1 : blk.useCount = 1) : Inv (freeBlock m b) (blk.header.parent :: ext) := by
  obtain ⟨blk0, hb0, hc0⟩ := h.own_block hx
  have hblk : blk0 = blk := by rw [hb] at hb0; exact (Option.some.inj hb0).symm
  subst hblk
  have he : extRefs ext b = 0 := by omega
  have hh : heapRefs m b = 0 := by omega
  refine ⟨?_, ?_, ?_, ?_⟩
  · intro o ho b' hb'
    rw [blockAt_freeBlock]
    rcases List.mem_cons.mp ho with rfl | ho
    · have := h.parent_lt b blk0 b' hb hb'
      have hne : b' ≠ b := by omega
      simpa [hne] using this.2
    · have hne : b' ≠ b := by
        rintro rfl
        exact extRefs_zero_not_mem he ho hb'
      simpa [hne] using h.ext_live o (List.mem_cons_of_mem _ ho) b' hb'
  · intro c blkc b' hc hp
    rw [blockAt_freeBlock] at hc
    by_cases hcb : c = b
    · simp [hcb] at hc
    · simp only [hcb, if_false] at hc
      have := h.parent_lt c blkc b' hc hp
      refine ⟨this.1, ?_⟩
      rw [blockAt_freeBlock]
      have hne : b' ≠ b := by
        rintro rfl
        have := heapRefs_pos hc hp
        omega
      simpa [hne] using this.2
  · intro b' blk' hb'
    rw [blockAt_freeBlock] at hb'
    by_cases hcb : b' = b
    · simp [hcb] at hb'
    · simp only [hcb, if_false] at hb'
      have hc := h.count_eq b' blk' hb'
      have hf := heapRefs_freeBlock m b b' blk0 hb
      rw [extRefs_cons] at hc ⊢
      have hxb : ctlOf (some x) ≠ some b' := by
        simp only [ctlOf, hx]
        intro e
        exact hcb (Option.some.inj e).symm
      simp only [hxb, if_false] at hc
      omega
  · intro b' blk' hb'
    rw [blockAt_freeBlock] at hb'
    by_cases hcb : b' = b
    · simp [hcb] at hb'
    · simp only [hcb, if_false] at hb'
      exact h.pos b' blk' hb'

theorem Inv.decr {m : Mem} {x : Inst} {ext : List (Option Inst)} {b : Nat} {blk : Block}
    (h : Inv m (some x :: ext)) (hx : x.m_control = some b) (hb : blockAt m b = some blk)
    (h1 : blk.useCount ≠ 1) :
    Inv (setCount m b blk (blk.useCount - 1)) ext := by
  obtain ⟨blk0, hb0, hc0⟩ := h.own_block hx
  have hblk : blk0 = blk := by rw [hb] at hb0; exact (Option.some.inj hb0).symm
  subst hblk
  have hlive : blockAt m b ≠ none := by simp [hb]
  refine ⟨?_, ?_, ?_, ?_⟩
  · intro o ho b' hb'
    rw [blockAt_setCount _ _ _ _ _ hlive]
    by_cases hne : b' = b
    · simp [hne]
    · simpa [hne] using h.ext_live o (List.mem_cons_of_mem _ ho) b' hb'
  · intro c blkc b' hc hp
    rw [blockAt_setCount _ _ _ _ _ hlive] at hc
    rw [blockAt_setCount _ _ _ _ _ hlive]
    have key : b' < c ∧ blockAt m b' ≠ none := by
      by_cases hcb : c = b
      · simp only [hcb, if_true] at hc
        have hc' := Option.some.inj hc
        subst hc'
        exact hcb ▸ h.parent_lt b blk0 b' hb hp
      · simp only [hcb, if_false] at hc
        exact h.parent_lt c blkc b' hc hp
    refine ⟨key.1, ?_⟩
    by_cases hne : b' = b
    · simp [hne]
    · simpa [hne] using key.2
  · intro b' blk' hb'
    rw [blockAt_setCount _ _ _ _ _ hlive] at hb'
    rw [heapRefs_setCount m b b' blk0 _ hb]
    by_cases hcb : b' = b
    · simp only [hcb, if_true] at hb'
      have hb'' := Option.some.inj hb'
      subst hb''
      subst hcb
      simp only
      omega
    · simp only [hcb, if_false] at hb'
      have hc := h.count_eq b' blk' hb'
      rw [extRefs_cons] at hc
      have hxb : ctlOf (some x) ≠ some b' := by
        simp only [ctlOf, hx]
        intro e
        exact hcb (Option.some.inj e).symm
      simp only [hxb, if_false] at hc
      omega
  · intro b' blk' hb'
    rw [blockAt_setCount _ _ _ _ _ hlive] at hb'
    by_cases hcb : b' = b
    · simp only [hcb, if_true] at hb'
      have hb'' := Option.some.inj hb'
      subst hb''
      simp only
      omega
    · simp only [hcb, if_false] at hb'
      exact h.pos b' blk' hb'

theorem use_count_some {m : Mem} {b : Nat} {blk : Block} (hb : blockAt m b = some blk) :
    use_count m (some b) = blk.useCount := by
  simp [use_count, hb]

theorem use_count_none {m : Mem} {b : Nat} (hb : blockAt m b = none) :
    use_count m (some b) = 0 := by
  simp [use_count, hb]

theorem Cascade.of_decr {m : Mem} {x : Inst} {b : Nat} {blk : Block}
    (hx : x.m_control = some b) (hb : blockAt m b = some blk) (h1 : blk.useCount ≠ 1)
    (hpos : 0 < blk.useCount) :
    Cascade m x (setCount m b blk (blk.useCount - 1)) [] := by
  have hlive : blockAt m b ≠ none := by simp [hb]
  refine ⟨by simp [setCount], by simp [setCount], ?_, by simp, by simp, ?_, by simp, ?_, ?_, ?_, ?_⟩
  · intro c blk' hc
    rw [blockAt_setCount _ _ _ _ _ hlive] at hc
    by_cases hcb : c = b
    · simp only [hcb, if_true] at hc
      have hc' := Option.some.inj hc
      subst hc'
      exact ⟨blk, hcb ▸ hb, rfl⟩
    · simp only [hcb, if_false] at hc
      exact ⟨blk', hc, rfl⟩
  · intro c hc hc'
    rw [blockAt_setCount _ _ _ _ _ hlive] at hc'
    by_cases hcb : c = b
    · simp [hcb] at hc'
    · simp only [hcb, if_false] at hc'
      exact absurd hc' hc
  · intro b' hb'
    have hbb : b' = b := by rw [hx] at hb'; exact (Option.some.inj hb').symm
    subst hbb
    have h2 : blockAt (setCount m b' blk (blk.useCount - 1)) b'
        = some { blk with useCount := blk.useCount - 1 } := by
      rw [blockAt_setCount _ _ _ _ _ hlive]; simp
    rw [use_count_some h2, use_count_some hb]
    simp only
    omega
  · intro b' blk' hb' hblk' _ h1'
    have hbb : b' = b := by rw [hx] at hb'; exact (Option.some.inj hb').symm
    subst hbb
    rw [hb] at hblk'
    have := Option.some.inj hblk'
    subst this
    exact absurd h1' h1
  · intro b' blk' hb' hblk' _
    have hbb : b' = b := by rw [hx] at hb'; exact (Option.some.inj hb').symm
    subst hbb
    rw [hb] at hblk'
    have := Option.some.inj hblk'
    subst this
    exact ⟨rfl, rfl⟩
  · intro h
    rw [hx] at h
    exact absurd h (by simp)

theorem HeldRef.of_free {m : Mem} {x p y : Inst} {b c : Nat} {blk : Block} (l : List Call)
    (hb : blockAt m b = some blk) (hp : blk.header.parent = some p ∨ p.m_control = none)
    (h : HeldRef (freeBlock { m with log := l } b) p c y) : HeldRef m x c y := by
  refine ⟨h.1, Or.inr ?_⟩
  rcases h.2 with rfl | ⟨c', blk', hc', hp'⟩
  · rcases hp with hp | hp
    · exact ⟨b, blk, hb, hp⟩
    · rw [h.1] at hp
      exact absurd hp (by simp)
  · rw [blockAt_freeBlock] at hc'
    by_cases hcb : c' = b
    · simp [hcb] at hc'
    · simp only [hcb, if_false] at hc'
      exact ⟨c', blk', hc', hp'⟩

theorem blockAt_free_log (m : Mem) (l : List Call) (b c : Nat) :
    blockAt (freeBlock { m with log := l } b) c = if c = b then none else blockAt m c :=
  blockAt_freeBlock { m with log := l } b c

theorem Cascade.step {m : Mem} {x q : Inst} {ext : List (Option Inst)} {b : Nat} {blk : Block}
    {m' : Mem} {new1 : List Call}
    (hinv : Inv m (some x :: ext)) (hx : x.m_control = some b) (hb : blockAt m b = some blk)
    (h1 : blk.useCount = 1) (pre : List Call)
    (hpre : pre = if x.m_handle = 0 then [] else [callOf b blk.header x.m_handle])
    (hq : blk.header.parent = some q ∨ q.m_control = none)
    (hc : Cascade (freeBlock { m with log := m.log ++ pre } b) q m' new1) :
    Cascade m x m' (pre ++ new1) := by
  obtain ⟨blk0, hb0, hc0⟩ := hinv.own_block hx
  have hblk : blk0 = blk := by rw [hb] at hb0; exact (Option.some.inj hb0).symm
  subst hblk
  have hh : heapRefs m b = 0 := by omega
  have hfree := blockAt_free_log m (m.log ++ pre) b
  have hdead : blockAt m' b = none := by
    cases hd : blockAt m' b with
    | none => rfl
    | some blk' =>
      obtain ⟨blk1, h1', _⟩ := hc.mono b blk' hd
      rw [hfree] at h1'
      simp at h1'
  have hxself : HeldRef m x b x := ⟨hx, Or.inl rfl⟩
  have hnew1 : ∀ e ∈ new1, e.block ≠ b := by
    intro e he hbe
    obtain ⟨_, _, blk1, h1', _⟩ := hc.entry e he
    rw [hfree, hbe] at h1'
    simp at h1'
  refine ⟨?_, ?_, ?_, ?_, ?_, ?_, ?_, ?_, ?_, ?_, ?_⟩
  · rw [hc.log_eq]
    simp [freeBlock, List.append_assoc]
  · rw [hc.len_eq]
    simp [freeBlock]
  · intro c blk' hcb
    obtain ⟨blk1, h1', he⟩ := hc.mono c blk' hcb
    rw [hfree] at h1'
    by_cases hcb' : c = b
    · simp [hcb'] at h1'
    · simp only [hcb', if_false] at h1'
      exact ⟨blk1, h1', he⟩
  · intro e he
    rcases List.mem_append.mp he with he | he
    · by_cases hz : x.m_handle = 0
      · simp [hpre, hz] at he
      · simp only [hpre, hz, if_false, List.mem_singleton] at he
        subst he
        exact ⟨hz, hdead, blk0, hb, rfl, x, hxself, rfl⟩
    · obtain ⟨hz, hd, blk1, h1', hcall, y, hy, hyh⟩ := hc.entry e he
      rw [hfree] at h1'
      by_cases hcb' : e.block = b
      · simp [hcb'] at h1'
      · simp only [hcb', if_false] at h1'
        exact ⟨hz, hd, blk1, h1', hcall, y, HeldRef.of_free _ hb hq hy, hyh⟩
  · rw [List.map_append, List.nodup_append]
    refine ⟨?_, hc.nodup, ?_⟩
    · by_cases hz : x.m_handle = 0 <;> simp [hpre, hz]
    · intro a ha ha'
      by_cases hz : x.m_handle = 0
      · simp [hpre, hz] at ha
      · simp only [hpre, hz, if_false, List.map_cons, List.map_nil, List.mem_singleton] at ha
        obtain ⟨e, he, hea⟩ := List.mem_map.mp ha'
        apply hnew1 e he
        rw [hea, ha]
        rfl
  · intro c hcl hcd
    by_cases hcb' : c = b
    · subst hcb'
      by_cases hz : x.m_handle = 0
      · exact Or.inr ⟨x, hxself, hz⟩
      · refine Or.inl ⟨callOf c blk0.header x.m_handle, ?_, rfl⟩
        simp [hpre, hz]
    · have hcl1 : blockAt (freeBlock { m with log := m.log ++ pre } b) c ≠ none := by
        rw [hfree]; simpa [hcb'] using hcl
      rcases hc.freed c hcl1 hcd with ⟨e, he, heb⟩ | ⟨y, hy, hyz⟩
      · exact Or.inl ⟨e, List.mem_append_right _ he, heb⟩
      · exact Or.inr ⟨y, HeldRef.of_free _ hb hq hy, hyz⟩
  · intro j e hj c blkc hcb hpc
    by_cases hz : x.m_handle = 0
    · have hp0 : pre = [] := by simp [hpre, hz]
      rw [hp0, List.nil_append] at hj ⊢
      by_cases hcb' : c = b
      · subst hcb'
        exact Or.inr ⟨x, hxself, hz⟩
      · have hcb1 : blockAt (freeBlock { m with log := m.log ++ pre } b) c = some blkc := by
          rw [hfree]; simpa [hcb'] using hcb
        rcases hc.order j e hj c blkc hcb1 hpc with h | ⟨y, hy, hyz⟩
        · exact Or.inl h
        · exact Or.inr ⟨y, HeldRef.of_free _ hb hq hy, hyz⟩
    · have hp1 : pre = [callOf b blk0.header x.m_handle] := by simp [hpre, hz]
      rw [hp1] at hj ⊢
      cases j with
      | zero =>
        simp at hj
        subst hj
        have := heapRefs_pos hcb hpc
        simp only [callOf] at this
        omega
      | succ j1 =>
        simp only [List.singleton_append, List.getElem?_cons_succ] at hj
        by_cases hcb' : c = b
        · subst hcb'
          exact Or.inl ⟨0, callOf c blk0.header x.m_handle, by omega, by simp, rfl⟩
        · have hcb1 : blockAt (freeBlock { m with log := m.log ++ pre } b) c = some blkc := by
            rw [hfree]; simpa [hcb'] using hcb
          rcases hc.order j1 e hj c blkc hcb1 hpc with ⟨i, e', hi, hie, hec⟩ | ⟨y, hy, hyz⟩
          · exact Or.inl ⟨i + 1, e', by omega, by simpa using hie, hec⟩
          · exact Or.inr ⟨y, HeldRef.of_free _ hb hq hy, hyz⟩
  · intro b' hb'
    have hbb : b' = b := by rw [hx] at hb'; exact (Option.some.inj hb').symm
    subst hbb
    rw [use_count_none hdead, use_count_some hb, h1]
  · intro b' blk' hb' hblk' hz _
    have hbb : b' = b := by rw [hx] at hb'; exact (Option.some.inj hb').symm
    subst hbb
    rw [hb] at hblk'
    have := Option.some.inj hblk'
    subst this
    exact ⟨new1, by simp [hpre, hz]⟩
  · intro b' blk' hb' hblk' hne
    have hbb : b' = b := by rw [hx] at hb'; exact (Option.some.inj hb').symm
    subst hbb
    rw [hb] at hblk'
    have := Option.some.inj hblk'
    subst this
    exact absurd h1 hne
  · intro h
    rw [hx] at h
    exact absurd h (by simp)

theorem releaseFuel_succ (k : Nat) (m : Mem) (b : Nat) (blk : Block) (hb : blockAt m b = some blk) :
    releaseFuel (k + 1) m b =
      if blk.useCount = 1 then
        match blk.header.parent with
        | none => some (freeBlock m b)
        | some p => dtorWith (releaseFuel k) (freeBlock m b) p
      else some (setCount m b blk (blk.useCount - 1)) := by
  rw [releaseFuel]
  simp only [hb]

theorem dtorWith_fuel_spec (n : Nat) : ∀ (m : Mem) (x : Inst) (ext : List (Option Inst)),
    (∀ b, x.m_control = some b → b < n) → Inv m (some x :: ext) →
    ∃ m' new, dtorWith (releaseFuel n) m x = some m' ∧ Inv m' ext ∧ Cascade m x m' new := by
  induction n with
  | zero =>
    intro m x ext hlt hinv
    cases hxc : x.m_control with
    | none =>
      refine ⟨m, [], ?_, hinv.drop (by simpa [ctlOf] using hxc), Cascade.of_none hxc⟩
      rw [dtorWith_eq]; simp [hxc]
    | some b => exact absurd (hlt b hxc) (by omega)
  | succ k ih =>
    intro m x ext hlt hinv
    cases hxc : x.m_control with
    | none =>
      refine ⟨m, [], ?_, hinv.drop (by simpa [ctlOf] using hxc), Cascade.of_none hxc⟩
      rw [dtorWith_eq]; simp [hxc]
    | some b =>
      obtain ⟨blk, hb, hcnt⟩ := hinv.own_block hxc
      rw [dtorWith_eq]
      simp only [hxc, use_count_some hb]
      by_cases h1 : blk.useCount = 1
      · -- the last owner
        let pre : List Call := if x.m_handle = 0 then [] else [callOf b blk.header x.m_handle]
        have hm0 : (if x.m_handle ≠ 0 ∧ blk.useCount = 1 then internalDestroy m x else some m)
            = some { m with log := m.log ++ pre } := by
          by_cases hz : x.m_handle = 0
          · simp [hz, pre]
          · simp [hz, h1, pre, internalDestroy_eq hxc hb]
        rw [hm0]
        simp only [Option.some_bind]
        have hb' : blockAt { m with log := m.log ++ pre } b = some blk := hb
        rw [releaseFuel_succ k _ b blk hb']
        simp only [h1, if_true]
        have hinv1 := (hinv.with_log (m.log ++ pre)).free hxc hb' h1
        cases hp : blk.header.parent with
        | none =>
          simp only
          rw [hp] at hinv1
          refine ⟨_, pre ++ [], rfl, hinv1.drop rfl, ?_⟩
          exact Cascade.step hinv hxc hb h1 pre rfl (q := Inst.empty) (Or.inr rfl)
            (Cascade.of_none rfl)
        | some p =>
          simp only
          rw [hp] at hinv1
          have hplt : ∀ pb, p.m_control = some pb → pb < k := by
            intro pb hpb
            have := (hinv.parent_lt b blk pb hb (by simpa [hp, ctlOf] using hpb)).1
            have := hlt b hxc
            omega
          obtain ⟨m', new1, hrun, hinv', hcas⟩ := ih _ p ext hplt hinv1
          exact ⟨m', pre ++ new1, hrun, hinv', Cascade.step hinv hxc hb h1 pre rfl (Or.inl hp) hcas⟩
      · have hm0 : (if x.m_handle ≠ 0 ∧ blk.useCount = 1 then internalDestroy m x else some m)
            = some m := by simp [h1]
        rw [hm0]
        simp only [Option.some_bind]
        rw [releaseFuel_succ k _ b blk hb]
        simp only [h1, if_false]
        exact ⟨_, [], rfl, hinv.decr hxc hb h1, Cascade.of_decr hxc hb h1 (by omega)⟩

theorem internalDestroy_blocks {m m1 : Mem} {x : Inst} (hd : internalDestroy m x = some m1) :
    m1.blocks = m.blocks := by
  unfold internalDestroy at hd
  cases hxc : x.m_control with
  | none => simp [hxc] at hd
  | some b =>
    simp only [hxc] at hd
    cases hb : blockAt m b with
    | none => simp [hb] at hd
    | some blk =>
      simp only [hb] at hd
      cases hp : blk.header.parent <;> simp [hp] at hd <;> rw [← hd]

theorem dtorWith_release (m : Mem) (x : Inst) :
    dtorWith release m x = dtorWith (releaseFuel (m.blocks.length + 1)) m x := by
  rw [dtorWith_eq, dtorWith_eq]
  cases hxc : x.m_control with
  | none => rfl
  | some b =>
    simp only
    have key : ∀ o : Option Mem, (∀ m1, o = some m1 → m1.blocks = m.blocks) →
        (o.bind fun m1 => release m1 b) = o.bind fun m1 => releaseFuel (m.blocks.length + 1) m1 b := by
      intro o ho
      cases o with
      | none => rfl
      | some m1 => simp [release, ho m1 rfl]
    apply key
    intro m1 hm1
    split at hm1
    · exact internalDestroy_blocks hm1
    · rw [← Option.some.inj hm1]

/-- The destructor of a pending instance, in a heap whose counts are exact. -/

theorem dtor_spec {m : Mem} {x : Inst} {ext : List (Option Inst)} (hinv : Inv m (some x :: ext)) :
    ∃ m' new, dtorWith release m x = some m' ∧ Inv m' ext ∧ Cascade m x m' new := by
  rw [dtorWith_release]
  apply dtorWith_fuel_spec _ m x ext _ hinv
  intro b hb
  have := hinv.ext_live (some x) (List.mem_cons_self _ _) b (by simpa [ctlOf] using hb)
  have := blockAt_lt this
  omega

/-! ### Variables -/

theorem extRefs_pos_iff {ext : List (Option Inst)} {b : Nat} :
    0 < extRefs ext b ↔ ∃ o ∈ ext, ctlOf o = some b := by
  unfold extRefs
  rw [List.countP_pos_iff]
  simp

theorem Inv.congr {m : Mem} {ext ext' : List (Option Inst)} (h : Inv m ext)
    (he : ∀ b, extRefs ext' b = extRefs ext b) : Inv m ext' where
  ext_live := fun o ho b hb => by
    have h1 : 0 < extRefs ext' b := extRefs_pos_iff.mpr ⟨o, ho, hb⟩
    rw [he] at h1
    obtain ⟨o', ho', hb'⟩ := extRefs_pos_iff.mp h1
    exact h.ext_live o' ho' b hb'
  parent_lt := h.parent_lt
  count_eq := fun b blk hb => by rw [he]; exact h.count_eq b blk hb
  pos := h.pos

theorem extRefs_append (ext : List (Option Inst)) (o : Option Inst) (b : Nat) :
    extRefs (ext ++ [o]) b = extRefs ext b + (if ctlOf o = some b then 1 else 0) := by
  simp [extRefs, List.countP_append, List.countP_cons]

theorem extRefs_set (ext : List (Option Inst)) (i : Nat) (o o' : Option Inst) (b : Nat)
    (h : ext[i]? = some o) :
    extRefs (ext.set i o') b + (if ctlOf o = some b then 1 else 0)
      = extRefs ext b + (if ctlOf o' = some b then 1 else 0) := by
  have hl : i < ext.length := by
    by_contra hn
    have : ext[i]? = none := by simp at hn; simpa using hn
    rw [this] at h
    exact absurd h (by simp)
  have := countP_set_add (fun o => decide (ctlOf o = some b)) ext i o' hl
  have hg : ext.get ⟨i, hl⟩ = o := by
    rw [List.getElem?_eq_getElem hl] at h
    simpa using h
  rw [hg] at this
  simpa [extRefs] using this

theorem var_eq_some {w : World} {i : Nat} {x : Inst} :
    w.var i = some x ↔ w.vars[i]? = some (some x) := by
  unfold World.var
  split
  · next y h => simp [h]
  · next h =>
    constructor
    · intro h'; simp at h'
    · intro h'; exact absurd h' (h x)

theorem set_append_length {α : Type} (l : List α) (a c : α) :
    (l ++ [a]).set l.length c = l ++ [c] := by
  induction l with
  | nil => rfl
  | cons x xs ih => simp [ih]

theorem set_eq_self {α : Type} (l : List α) (i : Nat) (a : α) (h : l[i]? = some a) :
    l.set i a = l := by
  induction l generalizing i with
  | nil => rfl
  | cons x xs ih =>
    cases i with
    | zero => simp at h; simp [h]
    | succ j => simp at h; simp [ih j h]

theorem var_lt {w : World} {i : Nat} {x : Inst} (h : w.var i = some x) : i < w.vars.length := by
  have := var_eq_some.mp h
  by_contra hn
  have h2 : w.vars[i]? = none := by simp at hn; simpa using hn
  rw [h2] at this
  exact absurd this (by simp)

theorem reset_null_handle (w : World) (i : Nat) (x : Inst) (hx : w.var i = some x)
    (h0 : x.m_handle = 0) : reset w i = some w := by
  unfold reset
  simp only [hx, Option.some_bind, resetWith, h0, if_true]
  rw [set_eq_self _ _ _ (var_eq_some.mp hx)]

theorem var_setVar (w : World) (i j : Nat) (x : Inst) (hi : i < w.vars.length) :
    (w.setVar i x).var j = if j = i then some x else w.var j := by
  unfold World.var World.setVar
  by_cases h : j = i
  · subst h
    simp [List.getElem?_set, hi]
  · have : i ≠ j := fun e => h e.symm
    simp [List.getElem?_set, this, h]

theorem var_alloc (w : World) (j : Nat) : w.alloc.var j = w.var j := by
  unfold World.var World.alloc
  by_cases h : j < w.vars.length
  · simp [List.getElem?_append_left h]
  · by_cases h2 : j = w.vars.length
    · subst h2; simp
    · have h3 : w.vars.length + 1 ≤ j := by omega
      have : (w.vars ++ [none])[j]? = none := by simp; omega
      have h4 : w.vars[j]? = none := by simp; omega
      simp [this, h4]

/-! ### One operation on a well-formed world -/

theorem headerAt_eq_some {m : Mem} {b : Nat} {hdr : SharedHeader} :
    headerAt m b = some hdr ↔ ∃ blk, blockAt m b = some blk ∧ blk.header = hdr := by
  simp [headerAt]

theorem headerAt_eq_none {m : Mem} {b : Nat} : headerAt m b = none ↔ blockAt m b = none := by
  simp [headerAt]

theorem headerAt_lt {m : Mem} {b : Nat} (h : headerAt m b ≠ none) : b < m.blocks.length :=
  blockAt_lt (fun e => h (headerAt_eq_none.mpr e))

theorem Grow.refl (vs : List (Option Inst)) (m : Mem) : Grow vs m m where
  log_eq := rfl
  len_le := le_refl _
  old := fun _ _ => rfl
  fresh := fun b hdr hb h => absurd (headerAt_lt (m := m) (b := b) (by simp [h])) (by omega)

theorem Holds.of_header {w : World} {m : Mem} {y : Inst} {b c : Nat} {hdr : SharedHeader}
    (hg : Grow w.vars w.mem m) (hc : headerAt m c = some hdr) (hp : hdr.parent = some y)
    (hy : y.m_control = some b) : Holds w b y := by
  refine ⟨hy, ?_⟩
  by_cases hlt : c < w.mem.blocks.length
  · right
    refine ⟨c, hdr, ?_, hp⟩
    rw [← hg.old c hlt]
    exact hc
  · left
    exact hg.fresh c hdr (by omega) hc y hp

theorem Holds.of_held {w : World} {m : Mem} {x y : Inst} {b : Nat}
    (hg : Grow w.vars w.mem m) (hx : x.m_control = none ∨ some x ∈ w.vars)
    (h : HeldRef m x b y) : Holds w b y := by
  rcases h.2 with rfl | ⟨c, blk, hc, hp⟩
  · refine ⟨h.1, ?_⟩
    rcases hx with hx | hx
    · rw [h.1] at hx; exact absurd hx (by simp)
    · exact Or.inl hx
  · exact Holds.of_header hg (headerAt_eq_some.mpr ⟨blk, hc, rfl⟩) hp h.1

theorem generic_step {w : World} (hwf : WF w) {m_pre m' m'' : Mem} {x : Inst}
    {vars' : List (Option Inst)} {new : List Call}
    (hg1 : Grow w.vars w.mem m_pre)
    (hx : x.m_control = none ∨ some x ∈ w.vars)
    (hcas : Cascade m_pre x m' new)
    (hg2 : Grow w.vars m' m'')
    (hinv : Inv m'' vars')
    (hsurv : ∀ b, w.mem.blocks.length ≤ b → blockAt m_pre b ≠ none → blockAt m' b ≠ none)
    (hsrc : ∀ y, some y ∈ vars' → ∀ b, y.m_control = some b → b < w.mem.blocks.length →
      ∃ y0, Holds w b y0 ∧ (y0.m_handle = y.m_handle ∨ y0.m_handle = 0)) :
    WF ⟨m'', vars'⟩ ∧ StepFacts w ⟨m'', vars'⟩ new := by
  have hlen1 : w.mem.blocks.length ≤ m'.blocks.length := by
    rw [hcas.len_eq]; exact hg1.len_le
  -- headers of old blocks at the end
  have hold : ∀ b, b < w.mem.blocks.length →
      headerAt m'' b = none ∨ headerAt m'' b = headerAt w.mem b := by
    intro b hb
    rw [hg2.old b (by omega)]
    cases hh : headerAt m' b with
    | none => exact Or.inl rfl
    | some hdr =>
      right
      obtain ⟨blk', hb', he'⟩ := headerAt_eq_some.mp hh
      obtain ⟨blk, hb1, he1⟩ := hcas.mono b blk' hb'
      rw [← hg1.old b hb]
      exact (headerAt_eq_some.mpr ⟨blk, hb1, by rw [← he1, he']⟩).symm
  have hentry : ∀ e ∈ new, e.handle ≠ 0 ∧ headerAt m'' e.block = none ∧
      e.block < w.mem.blocks.length ∧
      ∃ hdr, headerAt w.mem e.block = some hdr ∧ e = callOf e.block hdr e.handle ∧
        ∃ y, Holds w e.block y ∧ y.m_handle = e.handle := by
    intro e he
    obtain ⟨hz, hd, blk, hb, hcall, y, hy, hyh⟩ := hcas.entry e he
    have hlt : e.block < w.mem.blocks.length := by
      by_contra hn
      exact hsurv e.block (by omega) (by simp [hb]) hd
    refine ⟨hz, ?_, hlt, blk.header, ?_, hcall, y, Holds.of_held hg1 hx hy, hyh⟩
    · rw [hg2.old e.block (by omega)]
      exact headerAt_eq_none.mpr hd
    · rw [← hg1.old e.block hlt]
      exact headerAt_eq_some.mpr ⟨blk, hb, rfl⟩
  constructor
  · refine ⟨hinv, ?_⟩
    intro e he
    have hlog : m''.log = w.mem.log ++ new := by
      rw [hg2.log_eq, hcas.log_eq, hg1.log_eq]
    simp only at he
    rw [hlog] at he
    rcases List.mem_append.mp he with he | he
    · obtain ⟨hd, hlt, hz⟩ := hwf.log_ok e he
      refine ⟨?_, ?_, hz⟩
      · rcases hold e.block hlt with h | h
        · exact headerAt_eq_none.mp h
        · rw [headerAt_eq_none.mpr hd] at h
          exact headerAt_eq_none.mp h
      · have := hg2.len_le
        show e.block < m''.blocks.length
        omega
    · obtain ⟨hz, hd, hlt, _⟩ := hentry e he
      refine ⟨headerAt_eq_none.mp hd, ?_, hz⟩
      have := hg2.len_le
      show e.block < m''.blocks.length
      omega
  · refine ⟨?_, ?_, hold, ?_, hcas.nodup, ?_, ?_, ?_⟩
    · show m''.log = w.mem.log ++ new
      rw [hg2.log_eq, hcas.log_eq, hg1.log_eq]
    · have := hg2.len_le
      show w.mem.blocks.length ≤ m''.blocks.length
      omega
    · intro e he
      obtain ⟨hz, hd, _, rest⟩ := hentry e he
      exact ⟨hz, hd, rest⟩
    · intro b hb hd
      have hlt := headerAt_lt hb
      have hd' : blockAt m' b = none := by
        have : headerAt m'' b = none := hd
        rw [hg2.old b (by omega)] at this
        exact headerAt_eq_none.mp this
      have hl' : blockAt m_pre b ≠ none := by
        intro e
        apply hb
        rw [← hg1.old b hlt]
        exact headerAt_eq_none.mpr e
      rcases hcas.freed b hl' hd' with h | ⟨y, hy, hyz⟩
      · exact Or.inl h
      · exact Or.inr ⟨y, Holds.of_held hg1 hx hy, hyz⟩
    · intro j e hj c hdr hc hp
      have hlt := headerAt_lt (by simp [hc] : headerAt w.mem c ≠ none)
      rw [← hg1.old c hlt] at hc
      obtain ⟨blk, hb, hbh⟩ := headerAt_eq_some.mp hc
      rcases hcas.order j e hj c blk hb (by rw [hbh]; exact hp) with h | ⟨y, hy, hyz⟩
      · exact Or.inl h
      · exact Or.inr ⟨y, Holds.of_held hg1 hx hy, hyz⟩
    · intro b y hy hb
      rcases hy.2 with hv | ⟨c, hdr, hc, hp⟩
      · exact hsrc y hv b hy.1 hb
      · have hc : headerAt m'' c = some hdr := hc
        refine ⟨y, ?_, Or.inl rfl⟩
        by_cases hlt : c < m'.blocks.length
        · rw [hg2.old c hlt] at hc
          obtain ⟨blk', hb', he'⟩ := headerAt_eq_some.mp hc
          obtain ⟨blk, hb1, he1⟩ := hcas.mono c blk' hb'
          exact Holds.of_header hg1 (headerAt_eq_some.mpr ⟨blk, hb1, by rw [← he1, he']⟩) hp hy.1
        · exact ⟨hy.1, Or.inl (hg2.fresh c hdr (by omega) hc y hp)⟩

/-! ### Allocation and sharing -/

theorem blockAt_make_shared (m : Mem) (hdr : SharedHeader) (b : Nat) :
    blockAt (make_shared m hdr).1 b =
      if b = m.blocks.length then some ⟨1, hdr⟩ else blockAt m b := by
  unfold blockAt make_shared
  by_cases h : b < m.blocks.length
  · have hne : b ≠ m.blocks.length := by omega
    simp [List.getElem?_append_left h, hne]
  · by_cases h2 : b = m.blocks.length
    · subst h2; simp
    · have h3 : m.blocks.length + 1 ≤ b := by omega
      have h4 : (m.blocks ++ [some ⟨1, hdr⟩])[b]? = none := by simp; omega
      have h5 : m.blocks[b]? = none := by simp; omega
      simp [h4, h5, h2]

theorem heapRefs_make_shared (m : Mem) (hdr : SharedHeader) (b : Nat) :
    heapRefs (make_shared m hdr).1 b
      = heapRefs m b + (if ctlOf hdr.parent = some b then 1 else 0) := by
  simp [heapRefs, make_shared, List.countP_append, List.countP_cons, parentOf]

theorem heapRefs_eq_zero {m : Mem} {b : Nat}
    (h : ∀ c blk, blockAt m c = some blk → ctlOf blk.header.parent ≠ some b) :
    heapRefs m b = 0 := by
  unfold heapRefs
  rw [List.countP_eq_zero]
  intro o ho
  cases o with
  | none => simp [parentOf, ctlOf]
  | some blk =>
    obtain ⟨c, hc⟩ := List.mem_iff_getElem?.mp ho
    have := h c blk (blockAt_eq_some.mpr hc)
    simpa [parentOf] using this

theorem extRefs_eq_zero {ext : List (Option Inst)} {b : Nat}
    (h : ∀ o ∈ ext, ctlOf o ≠ some b) : extRefs ext b = 0 := by
  unfold extRefs
  rw [List.countP_eq_zero]
  intro o ho
  simpa using h o ho

theorem Inv.make_shared {m : Mem} {ext : List (Option Inst)} {H : SharedHeader}
    (h : Inv m (H.parent :: ext)) (hv : Nat) :
    Inv (make_shared m H).1 (some ⟨some m.blocks.length, hv⟩ :: ext) := by
  have hextlt : ∀ o ∈ ext, ∀ b, ctlOf o = some b → b < m.blocks.length := fun o ho b hb =>
    blockAt_lt (h.ext_live o (List.mem_cons_of_mem _ ho) b hb)
  have hparlt : ∀ b, ctlOf H.parent = some b → b < m.blocks.length := fun b hb =>
    blockAt_lt (h.ext_live _ (List.mem_cons_self _ _) b hb)
  refine ⟨?_, ?_, ?_, ?_⟩
  · intro o ho b hb
    rw [blockAt_make_shared]
    rcases List.mem_cons.mp ho with rfl | ho
    · simp only [ctlOf] at hb
      have := Option.some.inj hb
      simp [this]
    · have hlt := hextlt o ho b hb
      have hne : b ≠ m.blocks.length := by omega
      simpa [hne] using h.ext_live o (List.mem_cons_of_mem _ ho) b hb
  · intro c blk b hc hp
    rw [blockAt_make_shared] at hc
    rw [blockAt_make_shared]
    by_cases hcl : c = m.blocks.length
    · simp only [hcl, if_true] at hc
      have hc' := Option.some.inj hc
      subst hc'
      have hlt := hparlt b hp
      have hne : b ≠ m.blocks.length := by omega
      refine ⟨by omega, ?_⟩
      simpa [hne] using h.ext_live _ (List.mem_cons_self _ _) b hp
    · simp only [hcl, if_false] at hc
      have := h.parent_lt c blk b hc hp
      have hlt := blockAt_lt this.2
      have hne : b ≠ m.blocks.length := by omega
      refine ⟨this.1, ?_⟩
      simpa [hne] using this.2
  · intro b blk hb
    rw [blockAt_make_shared] at hb
    rw [heapRefs_make_shared, extRefs_cons]
    by_cases hbl : b = m.blocks.length
    · simp only [hbl, if_true] at hb
      have hb' := Option.some.inj hb
      subst hb'
      subst hbl
      have h1 : extRefs ext m.blocks.length = 0 := extRefs_eq_zero fun o ho e => by
        have := hextlt o ho _ e; omega
      have h2 : heapRefs m m.blocks.length = 0 := heapRefs_eq_zero fun c blk hc e => by
        have := blockAt_lt (h.parent_lt c blk _ hc e).2; omega
      have h3 : ctlOf H.parent ≠ some m.blocks.length := fun e => by
        have := hparlt _ e; omega
      rw [h1, h2, if_neg h3]
      simp [ctlOf]
    · simp only [hbl, if_false] at hb
      have hc := h.count_eq b blk hb
      rw [extRefs_cons] at hc
      have hne : ctlOf (some (⟨some m.blocks.length, hv⟩ : Inst)) ≠ some b := by
        simp only [ctlOf]
        intro e
        exact hbl (Option.some.inj e).symm
      simp only [hne, if_false]
      omega
  · intro b blk hb
    rw [blockAt_make_shared] at hb
    by_cases hbl : b = m.blocks.length
    · simp only [hbl, if_true] at hb
      rw [← Option.some.inj hb]
      exact Nat.one_pos
    · simp only [hbl, if_false] at hb
      exact h.pos b blk hb

theorem headerAt_setCount (m : Mem) (b c : Nat) (blk : Block) (n : Nat)
    (hb : blockAt m b = some blk) : headerAt (setCount m b blk n) c = headerAt m c := by
  unfold headerAt
  rw [blockAt_setCount _ _ _ _ _ (by simp [hb])]
  by_cases h : c = b
  · subst h; simp [hb]
  · simp [h]

theorem Grow.setCount (vs : List (Option Inst)) {m : Mem} {b : Nat} {blk : Block} (n : Nat)
    (hb : blockAt m b = some blk) : Grow vs m (setCount m b blk n) where
  log_eq := rfl
  len_le := by simp [SharedHandle.setCount]
  old := fun c _ => headerAt_setCount m b c blk n hb
  fresh := fun c hdr hc h => by
    rw [headerAt_setCount m b c blk n hb] at h
    exact absurd (headerAt_lt (m := m) (b := c) (by simp [h])) (by omega)

theorem Grow.of_make_shared {vs : List (Option Inst)} (m : Mem) {H : SharedHeader}
    (hp : ∀ y, H.parent = some y → some y ∈ vs) : Grow vs m (make_shared m H).1 where
  log_eq := rfl
  len_le := by simp [SharedHandle.make_shared]
  old := fun c hc => by
    unfold headerAt
    rw [blockAt_make_shared]
    have : c ≠ m.blocks.length := by omega
    simp [this]
  fresh := fun c hdr' hc h => by
    unfold headerAt at h
    rw [blockAt_make_shared] at h
    by_cases hcl : c = m.blocks.length
    · simp only [hcl, if_true, Option.map_some'] at h
      have := Option.some.inj h
      subst this
      exact hp
    · simp only [hcl, if_false] at h
      have h' : headerAt m c = some hdr' := h
      exact absurd (headerAt_lt (m := m) (b := c) (by simp [h'])) (by omega)

theorem Grow.trans {vs : List (Option Inst)} {m m1 m2 : Mem} (h1 : Grow vs m m1)
    (h2 : Grow vs m1 m2) : Grow vs m m2 where
  log_eq := by rw [h2.log_eq, h1.log_eq]
  len_le := le_trans h1.len_le h2.len_le
  old := fun b hb => by
    rw [h2.old b (lt_of_lt_of_le hb h1.len_le), h1.old b hb]
  fresh := fun b hdr hb h => by
    by_cases hlt : b < m1.blocks.length
    · rw [h2.old b hlt] at h
      exact h1.fresh b hdr hb h
    · exact h2.fresh b hdr (by omega) h

/-- Copying a pointer to a live block (or the empty pointer). -/

theorem acquire_spec {m : Mem} {ext : List (Option Inst)} (h : Inv m ext) (c : Option Nat)
    (hc : ∀ b, c = some b → blockAt m b ≠ none) (hv : Nat) (vs : List (Option Inst)) :
    ∃ m1, acquire m c = some m1 ∧ Inv m1 (some ⟨c, hv⟩ :: ext) ∧ Grow vs m m1 ∧
      m1.blocks.length = m.blocks.length ∧ use_count m1 c = if c = none then 0 else use_count m c + 1 := by
  cases c with
  | none =>
    refine ⟨m, rfl, ?_, Grow.refl _ _, rfl, by simp [use_count]⟩
    refine ⟨?_, h.parent_lt, ?_, h.pos⟩
    · intro o ho b hb
      rcases List.mem_cons.mp ho with rfl | ho
      · simp [ctlOf] at hb
      · exact h.ext_live o ho b hb
    · intro b blk hb
      rw [extRefs_cons]
      simpa [ctlOf] using h.count_eq b blk hb
  | some b =>
    obtain ⟨blk, hb⟩ := Option.ne_none_iff_exists'.mp (hc b rfl)
    have hlive : blockAt m b ≠ none := by simp [hb]
    refine ⟨setCount m b blk (blk.useCount + 1), by simp [acquire, hb], ?_, Grow.setCount _ _ hb,
      by simp [setCount], ?_⟩
    · refine ⟨?_, ?_, ?_, ?_⟩
      · intro o ho b' hb'
        rw [blockAt_setCount _ _ _ _ _ hlive]
        by_cases hne : b' = b
        · simp [hne]
        · rcases List.mem_cons.mp ho with rfl | ho
          · simp only [ctlOf] at hb'
            exact absurd (Option.some.inj hb').symm hne
          · simpa [hne] using h.ext_live o ho b' hb'
      · intro c blkc b' hcb hp
        rw [blockAt_setCount _ _ _ _ _ hlive] at hcb
        rw [blockAt_setCount _ _ _ _ _ hlive]
        have key : b' < c ∧ blockAt m b' ≠ none := by
          by_cases hcb' : c = b
          · simp only [hcb', if_true] at hcb
            have hc' := Option.some.inj hcb
            subst hc'
            exact hcb' ▸ h.parent_lt b blk b' hb hp
          · simp only [hcb', if_false] at hcb
            exact h.parent_lt c blkc b' hcb hp
        refine ⟨key.1, ?_⟩
        by_cases hne : b' = b
        · simp [hne]
        · simpa [hne] using key.2
      · intro b' blk' hb'
        rw [blockAt_setCount _ _ _ _ _ hlive] at hb'
        rw [heapRefs_setCount m b b' blk _ hb, extRefs_cons]
        by_cases hcb : b' = b
        · simp only [hcb, if_true] at hb'
          have hb'' := Option.some.inj hb'
          subst hb''
          subst hcb
          have := h.count_eq b' blk hb
          simp only [ctlOf, if_true]
          omega
        · simp only [hcb, if_false] at hb'
          have hc := h.count_eq b' blk' hb'
          have hxb : ctlOf (some (⟨some b, hv⟩ : Inst)) ≠ some b' := by
            simp only [ctlOf]
            intro e
            exact hcb (Option.some.inj e).symm
          simp only [hxb, if_false]
          omega
      · intro b' blk' hb'
        rw [blockAt_setCount _ _ _ _ _ hlive] at hb'
        by_cases hcb : b' = b
        · simp only [hcb, if_true] at hb'
          rw [← Option.some.inj hb']
          exact Nat.succ_pos _
        · simp only [hcb, if_false] at hb'
          exact h.pos b' blk' hb'
    · have h2 : blockAt (setCount m b blk (blk.useCount + 1)) b
          = some { blk with useCount := blk.useCount + 1 } := by
        rw [blockAt_setCount _ _ _ _ _ hlive]; simp
      rw [use_count_some h2, use_count_some hb]
      simp

/-! ### Operations without destruction -/

theorem SrcOK.of_raw (w : World) : SrcOK w none := fun _ h => absurd h (by simp)

theorem SrcOK.of_mem {w : World} {o : Option Inst} (h : o ∈ w.vars) : SrcOK w o := by
  intro y hy b hb _
  subst hy
  exact ⟨y, ⟨hb, Or.inl h⟩, Or.inl rfl⟩

theorem SrcOK.of_noctl (w : World) {y : Inst} (h : y.m_control = none) : SrcOK w (some y) := by
  intro y' hy b hb _
  have := Option.some.inj hy
  subst this
  rw [h] at hb
  exact absurd hb (by simp)

theorem SrcOK.of_fresh (w : World) {b : Nat} (hv : Nat) (h : w.mem.blocks.length ≤ b) :
    SrcOK w (some ⟨some b, hv⟩) := by
  intro y' hy b' hb hlt
  have := Option.some.inj hy
  subst this
  have := Option.some.inj hb
  simp only at this
  omega

theorem SrcOK.of_set {w : World} {l : List (Option Inst)} {i : Nat} {o : Option Inst}
    (hl : ∀ o' ∈ l, SrcOK w o') (ho : SrcOK w o) : ∀ o' ∈ l.set i o, SrcOK w o' := by
  intro o' h
  rcases List.mem_or_eq_of_mem_set h with h | h
  · exact hl o' h
  · exact h ▸ ho

theorem SrcOK.of_append {w : World} {l : List (Option Inst)} {o : Option Inst}
    (hl : ∀ o' ∈ l, SrcOK w o') (ho : SrcOK w o) : ∀ o' ∈ l ++ [o], SrcOK w o' := by
  intro o' h
  rcases List.mem_append.mp h with h | h
  · exact hl o' h
  · rw [List.mem_singleton] at h
    exact h ▸ ho

theorem SrcOK.of_vars (w : World) : ∀ o ∈ w.vars, SrcOK w o := fun _ h => SrcOK.of_mem h

theorem mem_vars_of_var {w : World} {i : Nat} {x : Inst} (h : w.var i = some x) :
    some x ∈ w.vars :=
  List.getElem?_mem (var_eq_some.mp h)

theorem WF.var_live {w : World} (hwf : WF w) {i : Nat} {x : Inst} (h : w.var i = some x)
    {b : Nat} (hb : x.m_control = some b) : blockAt w.mem b ≠ none :=
  hwf.inv.ext_live (some x) (mem_vars_of_var h) b (by simpa [ctlOf] using hb)

/-- An operation without destruction. -/

theorem quiet_step {w : World} (hwf : WF w) {m'' : Mem} {v : List (Option Inst)}
    (hg : Grow w.vars w.mem m'') (hinv : Inv m'' v) (hsrc : ∀ o ∈ v, SrcOK w o) :
    WF ⟨m'', v⟩ ∧ StepFacts w ⟨m'', v⟩ [] :=
  generic_step hwf (Grow.refl _ _) (Or.inl rfl : Inst.empty.m_control = none ∨ _)
    (Cascade.of_none rfl) hg hinv (fun b hb hl => absurd (blockAt_lt hl) (by omega))
    (fun y hy => hsrc (some y) hy y rfl)

theorem defaultCtor_facts {w w' : World} (hwf : WF w) (h : defaultCtor w = some w') :
    WF w' ∧ ∃ new, StepFacts w w' new := by
  have he : w' = ⟨w.mem, w.vars ++ [some Inst.empty]⟩ := by
    simp only [defaultCtor, defaultCtorAt, World.setVar, World.alloc, set_append_length,
      Option.some.injEq] at h
    exact h.symm
  subst he
  have := quiet_step hwf (Grow.refl _ _) (v := w.vars ++ [some Inst.empty])
    (hwf.inv.congr fun b => by simp [extRefs_append, ctlOf, Inst.empty])
    (SrcOK.of_append (SrcOK.of_vars w) (SrcOK.of_noctl w rfl))
  exact ⟨this.1, [], this.2⟩

theorem set_append_lt {α : Type} (l : List α) (a c : α) (i : Nat) (h : i < l.length) :
    (l ++ [a]).set i c = l.set i c ++ [a] := by
  induction l generalizing i with
  | nil => simp at h
  | cons x xs ih =>
    cases i with
    | zero => rfl
    | succ j => simp [ih j (by simpa using h)]

theorem construct_eq (w : World) (hv : Nat) (parent : Option Nat) (d : Nat) :
    construct w hv parent d =
      match parent with
      | none => some ⟨(make_shared w.mem ⟨none, d⟩).1, w.vars ++ [some ⟨some w.mem.blocks.length, hv⟩]⟩
      | some t => (w.var t).bind fun p =>
          some ⟨(make_shared w.mem ⟨some p, d⟩).1,
            w.vars.set t (some Inst.empty) ++ [some ⟨some w.mem.blocks.length, hv⟩]⟩ := by
  cases parent with
  | none =>
    simp [construct, constructAt, World.setVar, World.alloc, set_append_length, make_shared]
  | some t =>
    simp only [construct, constructAt, var_alloc]
    cases hx : w.var t with
    | none =>
      by_cases ht : t = w.vars.length <;> simp [ht]
    | some p =>
      have hlt := var_lt hx
      have hne : t ≠ w.vars.length := by omega
      simp only [hne, if_false, Option.some_bind, World.setVar, World.alloc, make_shared]
      rw [set_append_lt _ _ _ _ hlt]
      have : (w.vars.set t (some Inst.empty)).length = w.vars.length := by simp
      rw [← this, set_append_length]

theorem Inv.cons_noctl {m : Mem} {ext : List (Option Inst)} (h : Inv m ext) {o : Option Inst}
    (ho : ctlOf o = none) : Inv m (o :: ext) where
  ext_live := fun o' ho' b hb => by
    rcases List.mem_cons.mp ho' with rfl | ho'
    · rw [ho] at hb; exact absurd hb (by simp)
    · exact h.ext_live o' ho' b hb
  parent_lt := h.parent_lt
  count_eq := fun b blk hb => by
    rw [extRefs_cons]
    simpa [ho] using h.count_eq b blk hb
  pos := h.pos

theorem Inv.swap {m : Mem} {vars : List (Option Inst)} {o o' : Option Inst} {i : Nat}
    (h : Inv m (o' :: vars)) (hi : vars[i]? = some o) : Inv m (o :: vars.set i o') :=
  h.congr fun b => by
    have := extRefs_set vars i o o' b hi
    rw [extRefs_cons, extRefs_cons]
    omega

theorem Inv.cons_to_append {m : Mem} {ext : List (Option Inst)} {o : Option Inst}
    (h : Inv m (o :: ext)) : Inv m (ext ++ [o]) :=
  h.congr fun b => by rw [extRefs_cons, extRefs_append]

theorem Inv.take_out {m : Mem} {vars : List (Option Inst)} {x : Inst} {i : Nat}
    (h : Inv m vars) (hi : vars[i]? = some (some x)) :
    Inv m (some x :: vars.set i (some Inst.empty)) :=
  (h.cons_noctl (o := some Inst.empty) rfl).swap hi

theorem SrcOK.of_eta {w : World} {x : Inst} (h : SrcOK w (some x)) :
    SrcOK w (some ⟨x.m_control, x.m_handle⟩) := h

theorem construct_facts {w w' : World} {hv : Nat} {parent : Option Nat} {d : Nat} (hwf : WF w)
    (h : construct w hv parent d = some w') : WF w' ∧ ∃ new, StepFacts w w' new := by
  rw [construct_eq] at h
  cases parent with
  | none =>
    simp only [Option.some.injEq] at h
    subst h
    have := quiet_step hwf (Grow.of_make_shared w.mem (H := ⟨none, d⟩) (by simp))
      (((hwf.inv.cons_noctl (o := none) rfl).make_shared hv).cons_to_append)
      (SrcOK.of_append (SrcOK.of_vars w) (SrcOK.of_fresh w hv (le_refl _)))
    exact ⟨this.1, [], this.2⟩
  | some t =>
    simp only at h
    cases hx : w.var t with
    | none => simp [hx] at h
    | some p =>
      simp only [hx, Option.some_bind, Option.some.injEq] at h
      subst h
      have hinv := hwf.inv.take_out (var_eq_some.mp hx)
      have := quiet_step hwf
        (Grow.of_make_shared w.mem (H := ⟨some p, d⟩) (fun y hy => by
          simp only [Option.some.injEq] at hy
          exact hy ▸ mem_vars_of_var hx))
        ((Inv.make_shared (H := ⟨some p, d⟩) hinv hv).cons_to_append)
        (SrcOK.of_append (SrcOK.of_set (SrcOK.of_vars w) (SrcOK.of_noctl w rfl))
          (SrcOK.of_fresh w hv (le_refl _)))
      exact ⟨this.1, [], this.2⟩

theorem copyCtor_eq (w : World) (o : Nat) :
    copyCtor w o = (w.var o).bind fun x => (acquire w.mem x.m_control).bind fun m1 =>
      some ⟨m1, w.vars ++ [some ⟨x.m_control, x.m_handle⟩]⟩ := by
  simp only [copyCtor, copyCtorAt, var_alloc]
  simp only [World.setVar, World.alloc, set_append_length]

theorem copyCtor_facts {w w' : World} {o : Nat} (hwf : WF w) (h : copyCtor w o = some w') :
    WF w' ∧ ∃ new, StepFacts w w' new := by
  rw [copyCtor_eq] at h
  cases hx : w.var o with
  | none => simp [hx] at h
  | some x =>
    obtain ⟨m1, hm1, hinv, hg, _⟩ := acquire_spec hwf.inv x.m_control
      (fun b hb => hwf.var_live hx hb) x.m_handle w.vars
    simp only [hx, hm1, Option.some_bind, Option.some.injEq] at h
    subst h
    have := quiet_step hwf hg hinv.cons_to_append
      (SrcOK.of_append (SrcOK.of_vars w) (SrcOK.of_eta (SrcOK.of_mem (mem_vars_of_var hx))))
    exact ⟨this.1, [], this.2⟩

theorem moveCtor_eq (w : World) (o : Nat) :
    moveCtor w o = (w.var o).bind fun x =>
      some ⟨w.mem, w.vars.set o (some Inst.empty) ++ [some ⟨x.m_control, x.m_handle⟩]⟩ := by
  simp only [moveCtor, moveCtorAt, var_alloc]
  cases hx : w.var o with
  | none => by_cases ht : o = w.vars.length <;> simp [ht]
  | some x =>
    have hlt := var_lt hx
    have hne : o ≠ w.vars.length := by omega
    simp only [hne, if_false, Option.some_bind, World.setVar, World.alloc, set_append_length]
    rw [set_append_lt _ _ _ _ hlt]
    rfl

theorem moveCtor_facts {w w' : World} {o : Nat} (hwf : WF w) (h : moveCtor w o = some w') :
    WF w' ∧ ∃ new, StepFacts w w' new := by
  rw [moveCtor_eq] at h
  cases hx : w.var o with
  | none => simp [hx] at h
  | some x =>
    simp only [hx, Option.some_bind, Option.some.injEq] at h
    subst h
    have := quiet_step hwf (Grow.refl _ _) (hwf.inv.take_out (var_eq_some.mp hx)).cons_to_append
      (SrcOK.of_append (SrcOK.of_set (SrcOK.of_vars w) (SrcOK.of_noctl w rfl))
        (SrcOK.of_eta (SrcOK.of_mem (mem_vars_of_var hx))))
    exact ⟨this.1, [], this.2⟩

/-- What a store into the handle of a variable changes: the handle of that
variable. -/
theorem fill_eq {w w' : World} {i v : Nat} (h : fill w i v = some w') :
    ∃ x, w.var i = some x ∧ w' = ⟨w.mem, w.vars.set i (some ⟨x.m_control, v⟩)⟩ := by
  unfold fill at h
  cases hx : w.var i with
  | none => simp [hx] at h
  | some x =>
    simp only [hx, Option.some_bind, Option.some.injEq] at h
    exact ⟨x, rfl, h.symm⟩

/-- The handle of a variable may be any value: well-formedness only concerns
the control blocks. -/
theorem WF.set_handle {w : World} (hwf : WF w) {i : Nat} {x : Inst} (hx : w.var i = some x)
    (hv : Nat) : WF (w.setVar i ⟨x.m_control, hv⟩) where
  inv := hwf.inv.congr fun b => by
    have := extRefs_set w.vars i (some x) (some ⟨x.m_control, hv⟩) b (var_eq_some.mp hx)
    simp only [ctlOf] at this
    show extRefs (w.vars.set i (some ⟨x.m_control, hv⟩)) b = extRefs w.vars b
    omega
  log_ok := hwf.log_ok

/-- A store into a handle that is null. -/
theorem fill_facts {w w' : World} {i v : Nat} (hwf : WF w) (h : fill w i v = some w')
    (hz : ∀ x, w.var i = some x → x.m_handle = 0) : WF w' ∧ ∃ new, StepFacts w w' new := by
  obtain ⟨x, hx, he⟩ := fill_eq h
  subst he
  have hinv : Inv w.mem (w.vars.set i (some ⟨x.m_control, v⟩)) := hwf.inv.congr fun b => by
    have := extRefs_set w.vars i (some x) (some ⟨x.m_control, v⟩) b (var_eq_some.mp hx)
    simp only [ctlOf] at this
    omega
  have hsrc : SrcOK w (some ⟨x.m_control, v⟩) := by
    intro y hy b hb _
    have := Option.some.inj hy
    subst this
    exact ⟨x, ⟨hb, Or.inl (mem_vars_of_var hx)⟩, Or.inr (hz x hx)⟩
  have := quiet_step hwf (Grow.refl _ _) hinv (SrcOK.of_set (SrcOK.of_vars w) hsrc)
  exact ⟨this.1, [], this.2⟩

theorem getParentHandle_facts {w w' : World} {i : Nat} (hwf : WF w)
    (h : getParentHandle w i = some w') : WF w' ∧ ∃ new, StepFacts w w' new := by
  unfold getParentHandle at h
  cases hx : w.var i with
  | none => simp [hx] at h
  | some x =>
    cases hc : x.m_control with
    | none => simp [hx, hc] at h
    | some b =>
      cases hb : blockAt w.mem b with
      | none => simp [hx, hc, hb] at h
      | some blk =>
        cases hp : blk.header.parent with
        | none => simp [hx, hc, hb, hp] at h
        | some p =>
          obtain ⟨m1, hm1, hinv, hg, _⟩ := acquire_spec hwf.inv p.m_control
            (fun b' hb' => (hwf.inv.parent_lt b blk b' hb (by simpa [hp, ctlOf] using hb')).2)
            p.m_handle w.vars
          simp only [hx, hc, hb, hp, hm1, Option.some_bind, Option.some.injEq, World.setVar,
            World.alloc, set_append_length] at h
          subst h
          have hsrc : SrcOK w (some ⟨p.m_control, p.m_handle⟩) := by
            intro y hy b' hb' _
            have := Option.some.inj hy
            subst this
            exact ⟨p, ⟨hb', Or.inr ⟨b, blk.header, headerAt_eq_some.mpr ⟨blk, hb, rfl⟩, hp⟩⟩,
              Or.inl rfl⟩
          have := quiet_step hwf hg hinv.cons_to_append (SrcOK.of_append (SrcOK.of_vars w) hsrc)
          exact ⟨this.1, [], this.2⟩

/-! ### Equations of the operations that destroy -/

theorem dtorWith_null {rel : Mem → Nat → Option Mem} {m : Mem} {x : Inst} (h : x.m_handle = 0) :
    dtorWith rel m x = shared_ptr_reset rel m x.m_control := by
  simp [dtorWith, resetWith, h]

theorem resetWith_eq {rel : Mem → Nat → Option Mem} {m : Mem} {x : Inst} (h : x.m_handle ≠ 0) :
    resetWith rel m x = (dtorWith rel m x).bind fun m' => some (m', Inst.empty) := by
  simp only [dtorWith, resetWith, h, if_false]
  cases (if use_count m x.m_control = 1 then internalDestroy m x else some m) with
  | none => rfl
  | some m1 =>
    simp only [Option.some_bind]
    cases shared_ptr_reset rel m1 x.m_control with
    | none => rfl
    | some m2 => simp [shared_ptr_reset, Inst.empty]

theorem reset_eq {w : World} {i : Nat} {x : Inst} (hx : w.var i = some x) :
    reset w i = if x.m_handle = 0 then some w
      else (dtorWith release w.mem x).bind fun m' =>
        some ⟨m', w.vars.set i (some Inst.empty)⟩ := by
  by_cases h : x.m_handle = 0
  · simp only [h, if_true]
    exact reset_null_handle w i x hx h
  · simp only [h, if_false, reset, hx, Option.some_bind, resetWith_eq h]
    cases dtorWith release w.mem x <;> rfl

theorem var_mk_set (m : Mem) (l : List (Option Inst)) (i j : Nat) (x : Inst)
    (hi : i < l.length) :
    (⟨m, l.set i (some x)⟩ : World).var j = if j = i then some x else (⟨m, l⟩ : World).var j :=
  var_setVar ⟨m, l⟩ i j x hi

theorem var_mem_irrel (m m' : Mem) (l : List (Option Inst)) (j : Nat) :
    (⟨m, l⟩ : World).var j = (⟨m', l⟩ : World).var j := rfl

theorem destroy_eq {w : World} {i : Nat} {x : Inst} (hx : w.var i = some x) :
    destroy w i = (dtorWith release w.mem x).bind fun m' =>
      some ⟨m', w.vars.set i none⟩ := by
  have hlt := var_lt hx
  unfold destroy
  rw [reset_eq hx]
  by_cases h : x.m_handle = 0
  · simp only [h, if_true, Option.some_bind, hx, dtorWith_null h]
  · simp only [h, if_false]
    cases dtorWith release w.mem x with
    | none => rfl
    | some m' =>
      simp only [Option.some_bind, var_mk_set _ _ _ _ _ hlt, if_true, Inst.empty,
        shared_ptr_reset, List.set_set]

theorem copyAssign_eq {w : World} {a : Nat} (o : Nat) {xa : Inst} (hx : w.var a = some xa) :
    copyAssign w a o =
      if xa.m_handle = 0 then
        (w.var o).bind fun xo => (acquire w.mem xo.m_control).bind fun m2 =>
          (dtorWith release m2 xa).bind fun m3 =>
            some ⟨m3, w.vars.set a (some ⟨xo.m_control, xo.m_handle⟩)⟩
      else
        (dtorWith release w.mem xa).bind fun m1 =>
          ((⟨m1, w.vars.set a (some Inst.empty)⟩ : World).var o).bind fun xo =>
            (acquire m1 xo.m_control).bind fun m2 =>
              some ⟨m2, w.vars.set a (some ⟨xo.m_control, xo.m_handle⟩)⟩ := by
  have hlt := var_lt hx
  unfold copyAssign
  rw [reset_eq hx]
  by_cases h : xa.m_handle = 0
  · simp only [h, if_true, Option.some_bind, hx, dtorWith_null h]
  · simp only [h, if_false]
    cases dtorWith release w.mem xa with
    | none => rfl
    | some m1 =>
      simp only [Option.some_bind, var_mk_set _ _ _ _ _ hlt, if_true, List.set_set]
      cases (if o = a then some Inst.empty else (⟨m1, w.vars⟩ : World).var o) with
      | none => rfl
      | some xo =>
        simp only [Option.some_bind]
        cases acquire m1 xo.m_control with
        | none => rfl
        | some m2 => simp [shared_ptr_reset, Inst.empty]

theorem var_mk_set' (m : Mem) (l : List (Option Inst)) (i j : Nat) (x : Inst) :
    (⟨m, l.set i (some x)⟩ : World).var j =
      if j = i then (if i < l.length then some x else none) else (⟨m, l⟩ : World).var j := by
  unfold World.var
  by_cases h : j = i
  · subst h
    by_cases hl : j < l.length <;> simp [List.getElem?_set, hl]
  · have : i ≠ j := fun e => h e.symm
    simp [List.getElem?_set, this, h]

theorem var_mk_vars (m : Mem) (w : World) (j : Nat) : (⟨m, w.vars⟩ : World).var j = w.var j :=
  rfl

theorem moveAssign_eq {w : World} {a : Nat} (o : Nat) {xa : Inst} (hx : w.var a = some xa) :
    moveAssign w a o =
      if o = a then reset w a
      else (w.var o).bind fun xo => (dtorWith release w.mem xa).bind fun m1 =>
        some ⟨m1, (w.vars.set a (some ⟨xo.m_control, xo.m_handle⟩)).set o (some Inst.empty)⟩ := by
  have hlt := var_lt hx
  unfold moveAssign
  rw [reset_eq hx]
  by_cases hoa : o = a
  · subst hoa
    simp only [if_true]
    by_cases h : xa.m_handle = 0
    · simp only [h, if_true, Option.some_bind, World.setVar, var_mk_set', List.length_set,
        var_mk_vars, hx, hlt, shared_ptr_reset, List.set_set]
      have : (⟨xa.m_control, 0⟩ : Inst) = xa := by rw [← h]
      rw [this, set_eq_self _ _ _ (var_eq_some.mp hx)]
    · simp only [h, if_false]
      cases dtorWith release w.mem xa with
      | none => rfl
      | some m1 =>
        simp only [Option.some_bind, World.setVar, var_mk_set', List.length_set,
          var_mk_vars, hx, hlt, shared_ptr_reset, List.set_set, if_true, Inst.empty]
  · simp only [hoa, if_false]
    have hao : a ≠ o := fun e => hoa e.symm
    cases hxo : w.var o with
    | none =>
      by_cases h : xa.m_handle = 0
      · simp [h, hx, hxo]
      · simp only [h, if_false, Option.none_bind]
        cases dtorWith release w.mem xa with
        | none => rfl
        | some m1 =>
          simp [var_mk_set', var_mk_vars, hoa, hxo, hx, hlt]
    | some xo =>
      have hlo := var_lt hxo
      by_cases h : xa.m_handle = 0
      · simp only [h, if_true, Option.some_bind, World.setVar, var_mk_set', List.length_set,
          var_mk_vars, hx, hxo, hlt, hlo, hoa, hao, if_false, shared_ptr_reset, dtorWith_null h]
        cases xa.m_control with
        | none =>
          simp only [Option.some_bind, World.setVar, var_mk_set', List.length_set,
            var_mk_vars, hx, hxo, hlt, hlo, hoa, hao, if_false, if_true, Inst.empty]
          rw [List.set_comm _ _ _ hao, List.set_set, List.set_comm _ _ _ hoa, List.set_set]
        | some ca =>
          simp only
          cases release w.mem ca with
          | none => rfl
          | some m5 =>
            simp only [Option.some_bind, World.setVar, var_mk_set', List.length_set,
              var_mk_vars, hx, hxo, hlt, hlo, hoa, hao, if_false, if_true, Inst.empty]
            rw [List.set_comm _ _ _ hao, List.set_set, List.set_comm _ _ _ hoa, List.set_set]
      · simp only [h, if_false, Option.some_bind]
        cases dtorWith release w.mem xa with
        | none => rfl
        | some m1 =>
          simp only [Option.some_bind, World.setVar, var_mk_set', List.length_set,
            var_mk_vars, hx, hxo, hlt, hlo, hoa, hao, if_false, if_true, shared_ptr_reset,
            Inst.empty, List.set_set]
          rw [List.set_comm _ _ _ hao, List.set_set, List.set_comm _ _ _ hoa, List.set_set]

theorem put_eq {w : World} {i : Nat} {x : Inst} (parent : Option Nat) (d : Nat)
    (hx : w.var i = some x) :
    put w i parent d =
      match parent with
      | none =>
        if x.m_handle = 0 then
          (dtorWith release (make_shared w.mem ⟨none, d⟩).1 x).bind fun m3 =>
            some ⟨m3, w.vars.set i (some ⟨some w.mem.blocks.length, 0⟩)⟩
        else
          (dtorWith release w.mem x).bind fun m1 =>
            some ⟨(make_shared m1 ⟨none, d⟩).1, w.vars.set i (some ⟨some m1.blocks.length, 0⟩)⟩
      | some t =>
        if t = i then none
        else (w.var t).bind fun p =>
          if x.m_handle = 0 then
            (dtorWith release (make_shared w.mem ⟨some p, d⟩).1 x).bind fun m3 =>
              some ⟨m3, (w.vars.set t (some Inst.empty)).set i
                (some ⟨some w.mem.blocks.length, 0⟩)⟩
          else
            (dtorWith release w.mem x).bind fun m1 =>
              some ⟨(make_shared m1 ⟨some p, d⟩).1,
                (w.vars.set t (some Inst.empty)).set i (some ⟨some m1.blocks.length, 0⟩)⟩ := by
  have hlt := var_lt hx
  unfold put
  rw [reset_eq hx]
  cases parent with
  | none =>
    by_cases h : x.m_handle = 0
    · simp only [h, if_true, Option.some_bind, hx, dtorWith_null h, make_shared]
    · simp only [h, if_false]
      cases dtorWith release w.mem x with
      | none => rfl
      | some m1 =>
        simp only [Option.some_bind, var_mk_set', var_mk_vars, hx, hlt, if_true, make_shared,
          shared_ptr_reset, Inst.empty, List.set_set]
  | some t =>
    by_cases hti : t = i
    · simp only [hti, if_true]
      by_cases h : x.m_handle = 0
      · simp [h, hx]
      · simp only [h, if_false]
        cases dtorWith release w.mem x with
        | none => rfl
        | some m1 => simp [var_mk_set', hlt]
    · have hit : i ≠ t := fun e => hti e.symm
      simp only [hti, if_false]
      cases hp : w.var t with
      | none =>
        by_cases h : x.m_handle = 0
        · simp [h, hx, hp]
        · simp only [h, if_false, Option.none_bind]
          cases dtorWith release w.mem x with
          | none => rfl
          | some m1 => simp [var_mk_set', var_mk_vars, hlt, hti, hp]
      | some p =>
        by_cases h : x.m_handle = 0
        · simp only [h, if_true, Option.some_bind, hx, hp, dtorWith_null h, make_shared]
        · simp only [h, if_false, Option.some_bind]
          cases dtorWith release w.mem x with
          | none => rfl
          | some m1 =>
            simp only [Option.some_bind, var_mk_set', var_mk_vars, hx, hp, hlt, hti, if_true,
              if_false, make_shared, shared_ptr_reset, Inst.empty]
            rw [List.set_comm _ _ _ hit, List.set_set]

/-! ### Operations that destroy -/

theorem Inv.set_noctl {m : Mem} {vars : List (Option Inst)} {i : Nat} {o p : Option Inst}
    (h : Inv m (vars.set i o)) (ho : ctlOf o = none) (ho' : ctlOf p = none) :
    Inv m (vars.set i p) := by
  by_cases hi : i < vars.length
  · have h1 : (vars.set i o)[i]? = some o := by simp [hi]
    have := (h.cons_noctl ho').swap h1
    rw [List.set_set] at this
    exact this.drop ho
  · have e1 : vars.set i o = vars := List.set_eq_of_length_le (by omega)
    have e2 : vars.set i p = vars := List.set_eq_of_length_le (by omega)
    rw [e2]; rw [e1] at h; exact h

/-- Destroying the value of a variable of a well-formed world. -/

theorem cascade_var {w : World} (hwf : WF w) {i : Nat} {x : Inst} (hx : w.var i = some x) :
    ∃ m' new, dtorWith release w.mem x = some m' ∧
      Inv m' (w.vars.set i (some Inst.empty)) ∧ Cascade w.mem x m' new :=
  dtor_spec (hwf.inv.take_out (var_eq_some.mp hx))

/-- An operation that destroys the value of a variable and then allocates or
shares blocks. -/

theorem cascade_step {w : World} (hwf : WF w) {x : Inst} (hx : some x ∈ w.vars) {m' m'' : Mem}
    {new : List Call} (hcas : Cascade w.mem x m' new) (hg : Grow w.vars m' m'')
    {vars' : List (Option Inst)}
    (hinv : Inv m'' vars') (hsrc : ∀ o ∈ vars', SrcOK w o) :
    WF ⟨m'', vars'⟩ ∧ StepFacts w ⟨m'', vars'⟩ new :=
  generic_step hwf (Grow.refl _ _) (Or.inr hx) hcas hg hinv
    (fun b hb hl => absurd (blockAt_lt hl) (by omega))
    (fun y hy => hsrc (some y) hy y rfl)

theorem WF.refl_facts {w : World} (hwf : WF w) : StepFacts w w [] :=
  (quiet_step hwf (Grow.refl _ _) hwf.inv (SrcOK.of_vars w)).2

theorem reset_ok {w : World} (hwf : WF w) {i : Nat} {x : Inst} (hx : w.var i = some x) :
    ∃ w' new, reset w i = some w' ∧ WF w' ∧ StepFacts w w' new ∧
      (x.m_handle = 0 → w' = w ∧ new = []) ∧
      (x.m_handle ≠ 0 → w'.vars = w.vars.set i (some Inst.empty) ∧
        Cascade w.mem x w'.mem new) := by
  rw [reset_eq hx]
  by_cases h : x.m_handle = 0
  · exact ⟨w, [], by simp [h], hwf, hwf.refl_facts, fun _ => ⟨rfl, rfl⟩, fun hn => absurd h hn⟩
  · obtain ⟨m', new, hrun, hinv, hcas⟩ := cascade_var hwf hx
    have := cascade_step hwf (mem_vars_of_var hx) hcas (Grow.refl _ _) hinv
      (SrcOK.of_set (SrcOK.of_vars w) (SrcOK.of_noctl w rfl))
    exact ⟨_, new, by simp [h, hrun], this.1, this.2, fun h0 => absurd h0 h, fun _ => ⟨rfl, hcas⟩⟩

theorem destroy_ok {w : World} (hwf : WF w) {i : Nat} {x : Inst} (hx : w.var i = some x) :
    ∃ w' new, destroy w i = some w' ∧ WF w' ∧ StepFacts w w' new ∧
      w'.vars = w.vars.set i none ∧ Cascade w.mem x w'.mem new := by
  rw [destroy_eq hx]
  obtain ⟨m', new, hrun, hinv, hcas⟩ := cascade_var hwf hx
  have := cascade_step hwf (mem_vars_of_var hx) hcas (Grow.refl _ _)
    (hinv.set_noctl (p := none) rfl rfl)
    (SrcOK.of_set (SrcOK.of_vars w) (SrcOK.of_raw w))
  exact ⟨_, new, by simp [hrun], this.1, this.2, rfl, hcas⟩

theorem acquire_length {m m1 : Mem} {c : Option Nat} (h : acquire m c = some m1) :
    m1.blocks.length = m.blocks.length := by
  unfold acquire at h
  cases c with
  | none => simp at h; rw [h]
  | some b =>
    simp only at h
    cases hb : blockAt m b with
    | none => simp [hb] at h
    | some blk =>
      simp only [hb, Option.some.injEq] at h
      rw [← h]; simp [setCount]

theorem copyAssign_ok {w : World} (hwf : WF w) {a o : Nat} {xa xo : Inst}
    (hx : w.var a = some xa) (hxo : w.var o = some xo) :
    ∃ w' new, copyAssign w a o = some w' ∧ WF w' ∧ StepFacts w w' new := by
  rw [copyAssign_eq o hx]
  have hlt := var_lt hx
  by_cases h : xa.m_handle = 0
  · obtain ⟨m2, hm2, hinv2, hg2, hlen2, _⟩ := acquire_spec hwf.inv xo.m_control
      (fun b hb => hwf.var_live hxo hb) xo.m_handle w.vars
    have hinv2' := hinv2.swap (var_eq_some.mp hx)
    obtain ⟨m3, new, hrun, hinv3, hcas⟩ := dtor_spec hinv2'
    have := generic_step hwf hg2 (Or.inr (mem_vars_of_var hx)) hcas (Grow.refl _ _) hinv3
      (fun b hb hl => absurd (blockAt_lt hl) (by omega))
      (fun y hy => (SrcOK.of_set (SrcOK.of_vars w)
        (SrcOK.of_eta (SrcOK.of_mem (mem_vars_of_var hxo)))) (some y) hy y rfl)
    exact ⟨_, new, by simp [h, hxo, hm2, hrun], this.1, this.2⟩
  · obtain ⟨m1, new, hrun, hinv1, hcas⟩ := cascade_var hwf hx
    -- the source is read after `reset()`
    have hsrc1 : ∀ o' ∈ w.vars.set a (some Inst.empty), SrcOK w o' :=
      SrcOK.of_set (SrcOK.of_vars w) (SrcOK.of_noctl w rfl)
    have hyo : ∃ yo, (⟨m1, w.vars.set a (some Inst.empty)⟩ : World).var o = some yo := by
      rw [var_mk_set', var_mk_vars]
      by_cases hoa : o = a
      · simp [hoa, hlt]
      · simp [hoa, hxo]
    obtain ⟨yo, hyo⟩ := hyo
    have hyomem : some yo ∈ w.vars.set a (some Inst.empty) := mem_vars_of_var hyo
    obtain ⟨m2, hm2, hinv2, hg2, _⟩ := acquire_spec hinv1 yo.m_control
      (fun b hb => hinv1.ext_live (some yo) hyomem b (by simpa [ctlOf] using hb))
      yo.m_handle w.vars
    have h1 : (w.vars.set a (some Inst.empty))[a]? = some (some Inst.empty) := by simp [hlt]
    have hinv2' := (hinv2.swap h1).drop rfl
    rw [List.set_set] at hinv2'
    have := cascade_step hwf (mem_vars_of_var hx) hcas hg2 hinv2'
      (SrcOK.of_set (SrcOK.of_vars w) (SrcOK.of_eta (hsrc1 _ hyomem)))
    exact ⟨_, new, by simp [h, hrun, hyo, hm2], this.1, this.2⟩

theorem moveAssign_ok {w : World} (hwf : WF w) {a o : Nat} {xa xo : Inst}
    (hx : w.var a = some xa) (hxo : w.var o = some xo) :
    ∃ w' new, moveAssign w a o = some w' ∧ WF w' ∧ StepFacts w w' new := by
  rw [moveAssign_eq o hx]
  by_cases hoa : o = a
  · obtain ⟨w', new, hr, hwf', hsf, _⟩ := reset_ok hwf hx
    exact ⟨w', new, by simp [hoa, hr], hwf', hsf⟩
  · obtain ⟨m1, new, hrun, hinv1, hcas⟩ := cascade_var hwf hx
    have hinv' : Inv m1 ((w.vars.set a (some ⟨xo.m_control, xo.m_handle⟩)).set o
        (some Inst.empty)) := hinv1.congr fun b => by
      have hao : a ≠ o := fun e => hoa e.symm
      have e1 := extRefs_set w.vars a (some xa) (some Inst.empty) b (var_eq_some.mp hx)
      have e2 := extRefs_set w.vars a (some xa) (some ⟨xo.m_control, xo.m_handle⟩) b
        (var_eq_some.mp hx)
      have h3 : (w.vars.set a (some ⟨xo.m_control, xo.m_handle⟩))[o]? = some (some xo) := by
        rw [List.getElem?_set_ne hao]; exact var_eq_some.mp hxo
      have e3 := extRefs_set _ o (some xo) (some Inst.empty) b h3
      simp only [ctlOf, Inst.empty] at e1 e2 e3
      simp only [Inst.empty]
      have hn : ¬ ((none : Option Nat) = some b) := by simp
      simp only [hn, if_false] at e1 e3
      omega
    have := cascade_step hwf (mem_vars_of_var hx) hcas (Grow.refl _ _) hinv'
      (SrcOK.of_set (SrcOK.of_set (SrcOK.of_vars w)
        (SrcOK.of_eta (SrcOK.of_mem (mem_vars_of_var hxo)))) (SrcOK.of_noctl w rfl))
    exact ⟨_, new, by simp [hoa, hxo, hrun], this.1, this.2⟩

theorem filter_block_eq_nil {l : List Call} {b : Nat} (h : ∀ e ∈ l, e.block ≠ b) :
    l.filter (fun e => decide (e.block = b)) = [] := by
  rw [List.filter_eq_nil_iff]
  intro e he
  simpa using h e he

theorem filter_block_eq_singleton {l : List Call} {e : Call}
    (hn : (l.map Call.block).Nodup) (he : e ∈ l) :
    l.filter (fun e' => decide (e'.block = e.block)) = [e] := by
  induction l with
  | nil => simp at he
  | cons x xs ih =>
    rw [List.map_cons, List.nodup_cons] at hn
    rcases List.mem_cons.mp he with rfl | he
    · have : ∀ e' ∈ xs, e'.block ≠ e.block := fun e' he' hb =>
        hn.1 (hb ▸ List.mem_map_of_mem _ he')
      simp [List.filter_cons, filter_block_eq_nil this]
    · have hx : x.block ≠ e.block := fun hb =>
        hn.1 (hb ▸ List.mem_map_of_mem _ he)
      simp [List.filter_cons, hx, ih hn.2 he]

/-- The calls that destroying instance `x` makes to the deleter of its own block. -/
theorem cascade_calls_own {m m' : Mem} {x : Inst} {ext : List (Option Inst)} {new : List Call}
    {b : Nat} {blk : Block} (hinv : Inv m (some x :: ext)) (hcas : Cascade m x m' new)
    (hx : x.m_control = some b) (hb : blockAt m b = some blk) :
    new.filter (fun e => decide (e.block = b)) =
      if x.m_handle ≠ 0 ∧ blk.useCount = 1 then [callOf b blk.header x.m_handle] else [] := by
  by_cases h1 : blk.useCount = 1
  · by_cases hz : x.m_handle = 0
    · simp only [hz, ne_eq, not_true_eq_false, false_and, if_false]
      apply filter_block_eq_nil
      intro e he heb
      obtain ⟨hnz, _, _, _, _, y, hy, hyh⟩ := hcas.entry e he
      obtain ⟨blk0, hb0, hc0⟩ := hinv.own_block hx
      rw [hb] at hb0
      have hblk := Option.some.inj hb0
      subst hblk
      rcases hy.2 with rfl | ⟨c, blkc, hc, hp⟩
      · exact hnz (hyh ▸ hz)
      · have := heapRefs_pos hc (by rw [hp]; simpa [ctlOf, heb] using hy.1 : ctlOf blkc.header.parent = some b)
        omega
    · obtain ⟨rest, hrest⟩ := hcas.first b blk hx hb hz h1
      simp only [hz, h1, ne_eq, not_false_eq_true, and_self, if_true]
      have hmem : callOf b blk.header x.m_handle ∈ new := by rw [hrest]; simp
      exact filter_block_eq_singleton hcas.nodup hmem
  · have := (hcas.quiet b blk hx hb h1).1
    simp [this, h1]

/-- A block with use count one that is only pointed to from outside the heap
is left alone by the destruction of an instance that does not point to it. -/
theorem cascade_keeps_fresh {m m' : Mem} {x : Inst} {ext : List (Option Inst)}
    {new : List Call} {N : Nat} {hdr : SharedHeader} (hinv : Inv m (some x :: ext))
    (hcas : Cascade m x m' new) (hinv' : Inv m' ext) (hN : blockAt m N = some ⟨1, hdr⟩)
    (hx : x.m_control ≠ some N) (href : 0 < extRefs ext N) :
    blockAt m' N = some ⟨1, hdr⟩ := by
  obtain ⟨o, ho, hoN⟩ := extRefs_pos_iff.mp href
  obtain ⟨blk', hb'⟩ := Option.ne_none_iff_exists'.mp (hinv'.ext_live o ho N hoN)
  obtain ⟨blk0, hb0, hbh⟩ := hcas.mono N blk' hb'
  rw [hN] at hb0
  have hblk0 := Option.some.inj hb0
  subst hblk0
  have h1 := hinv.count_eq N _ hN
  rw [extRefs_cons] at h1
  have hxn : ctlOf (some x) ≠ some N := by simpa [ctlOf] using hx
  simp only [hxn, if_false] at h1
  have h0 : heapRefs m' N = 0 := heapRefs_eq_zero fun c blk hc hp => by
    obtain ⟨blkc, hbc, hbch⟩ := hcas.mono c blk hc
    have := heapRefs_pos hbc (by rw [← hbch]; exact hp)
    omega
  have h2 := hinv'.count_eq N blk' hb'
  have hcnt : blk'.useCount = 1 := by omega
  rw [hb']
  cases blk' with
  | mk uc hd =>
    simp only at hcnt hbh
    rw [hcnt, hbh]

theorem mem_set_self {α : Type} (l : List α) (i : Nat) (a : α) (h : i < l.length) :
    a ∈ l.set i a :=
  List.getElem?_mem (l := l.set i a) (n := i) (by simp [h])

theorem put_ok {w : World} (hwf : WF w) {i : Nat} {x : Inst} (hx : w.var i = some x)
    (parent : Option Nat) (d : Nat)
    (hpar : ∀ t, parent = some t → t ≠ i ∧ ∃ p, w.var t = some p) :
    ∃ w' new, put w i parent d = some w' ∧ WF w' ∧ StepFacts w w' new ∧
      w'.var i = some ⟨some w.mem.blocks.length, 0⟩ ∧
      blockAt w'.mem w.mem.blocks.length = some ⟨1, ⟨parent.bind w.var, d⟩⟩ ∧
      (∀ b blk, x.m_control = some b → blockAt w.mem b = some blk →
        use_count w'.mem (some b) + 1 = use_count w.mem (some b) ∧
        new.filter (fun e => decide (e.block = b)) =
          if x.m_handle ≠ 0 ∧ blk.useCount = 1 then [callOf b blk.header x.m_handle] else []) ∧
      (x.m_control = none → new = []) := by
  rw [put_eq parent d hx]
  have hlt := var_lt hx
  have hxi := var_eq_some.mp hx
  -- the block that `x` points to is an old block
  have hold : ∀ b blk, x.m_control = some b → blockAt w.mem b = some blk →
      b ≠ w.mem.blocks.length := fun b blk _ hb => by
    have := blockAt_lt (m := w.mem) (b := b) (by simp [hb]); omega
  have hxN : x.m_control ≠ some w.mem.blocks.length := fun e => by
    have := blockAt_lt (hwf.var_live hx e); omega
  cases parent with
  | none =>
    simp only
    by_cases h : x.m_handle = 0
    · have hinv0 := ((hwf.inv.cons_noctl (o := none) rfl).make_shared (H := ⟨none, d⟩) 0).swap hxi
      obtain ⟨m3, new, hrun, hinv3, hcas⟩ := dtor_spec hinv0
      have hlive : blockAt m3 w.mem.blocks.length ≠ none :=
        hinv3.ext_live _ (mem_set_self _ _ _ hlt) _ rfl
      have := generic_step hwf (Grow.of_make_shared w.mem (H := ⟨none, d⟩) (by simp))
        (Or.inr (mem_vars_of_var hx)) hcas (Grow.refl _ _) hinv3
        (fun b hb hl => by
          rw [blockAt_make_shared] at hl
          by_cases hbl : b = w.mem.blocks.length
          · subst hbl
            exact hlive
          · simp only [hbl, if_false] at hl
            exact absurd (blockAt_lt hl) (by omega))
        (fun y hy => (SrcOK.of_set (SrcOK.of_vars w) (SrcOK.of_fresh w 0 (le_refl _)))
          (some y) hy y rfl)
      refine ⟨_, new, by simp [h, hrun], this.1, this.2, ?_, ?_, ?_, ?_⟩
      · rw [var_mk_set', var_mk_vars]; simp [hlt]
      · exact cascade_keeps_fresh hinv0 hcas hinv3 (by rw [blockAt_make_shared]; simp) hxN
          (extRefs_pos_iff.mpr ⟨_, mem_set_self _ _ _ hlt, rfl⟩)
      · intro b blk hxb hb
        have hb1 : blockAt (make_shared w.mem ⟨none, d⟩).1 b = some blk := by
          rw [blockAt_make_shared]; simp [hold b blk hxb hb, hb]
        refine ⟨?_, cascade_calls_own hinv0 hcas hxb hb1⟩
        have := hcas.own b hxb
        rw [use_count_some hb1] at this
        rw [use_count_some hb]
        exact this
      · intro hn
        exact (hcas.noctl hn).1
    · obtain ⟨m1, new, hrun, hinv1, hcas⟩ := cascade_var hwf hx
      have h1 : (w.vars.set i (some Inst.empty))[i]? = some (some Inst.empty) := by simp [hlt]
      have hinv' := ((((hinv1.cons_noctl (o := none) rfl).make_shared (H := ⟨none, d⟩) 0).swap
        h1).drop rfl)
      rw [List.set_set] at hinv'
      have := cascade_step hwf (mem_vars_of_var hx) hcas
        (Grow.of_make_shared m1 (H := ⟨none, d⟩) (by simp)) hinv'
        (SrcOK.of_set (SrcOK.of_vars w) (SrcOK.of_fresh w 0 (by rw [hcas.len_eq])))
      refine ⟨_, new, by simp [h, hrun], this.1, this.2, ?_, ?_, ?_, ?_⟩
      · rw [var_mk_set', var_mk_vars]; simp [hlt, hcas.len_eq]
      · show blockAt (make_shared m1 ⟨none, d⟩).1 w.mem.blocks.length = _
        rw [blockAt_make_shared, hcas.len_eq]; simp
      · intro b blk hxb hb
        refine ⟨?_, cascade_calls_own (hwf.inv.take_out hxi) hcas hxb hb⟩
        have := hcas.own b hxb
        have hne : b ≠ m1.blocks.length := by rw [hcas.len_eq]; exact hold b blk hxb hb
        have e : use_count (make_shared m1 ⟨none, d⟩).1 (some b) = use_count m1 (some b) := by
          simp [use_count, blockAt_make_shared, hne]
        show use_count (make_shared m1 ⟨none, d⟩).1 (some b) + 1 = _
        rw [e]; exact this
      · intro hn
        exact (hcas.noctl hn).1
  | some t =>
    obtain ⟨hti, p, hp⟩ := hpar t rfl
    have hit : i ≠ t := fun e => hti e.symm
    have hpt := var_eq_some.mp hp
    have hltt := var_lt hp
    simp only [hti, if_false, hp, Option.some_bind]
    have hpmem : ∀ y, (⟨some p, d⟩ : SharedHeader).parent = some y → some y ∈ w.vars := by
      intro y hy
      simp only [Option.some.injEq] at hy
      exact hy ▸ mem_vars_of_var hp
    by_cases h : x.m_handle = 0
    · have h2 : (w.vars.set t (some Inst.empty))[i]? = some (some x) := by
        rw [List.getElem?_set_ne hti]; exact hxi
      have hinv0 := ((hwf.inv.take_out hpt).make_shared (H := ⟨some p, d⟩) 0).swap h2
      obtain ⟨m3, new, hrun, hinv3, hcas⟩ := dtor_spec hinv0
      have hlive : blockAt m3 w.mem.blocks.length ≠ none :=
        hinv3.ext_live _ (mem_set_self _ _ _ (by simpa using hlt)) _ rfl
      have := generic_step hwf (Grow.of_make_shared w.mem (H := ⟨some p, d⟩) hpmem)
        (Or.inr (mem_vars_of_var hx)) hcas (Grow.refl _ _) hinv3
        (fun b hb hl => by
          rw [blockAt_make_shared] at hl
          by_cases hbl : b = w.mem.blocks.length
          · subst hbl
            exact hlive
          · simp only [hbl, if_false] at hl
            exact absurd (blockAt_lt hl) (by omega))
        (fun y hy => (SrcOK.of_set (SrcOK.of_set (SrcOK.of_vars w) (SrcOK.of_noctl w rfl))
          (SrcOK.of_fresh w 0 (le_refl _))) (some y) hy y rfl)
      refine ⟨_, new, by simp [h, hrun], this.1, this.2, ?_, ?_, ?_, ?_⟩
      · rw [var_mk_set']; simp [hlt]
      · exact cascade_keeps_fresh hinv0 hcas hinv3 (by rw [blockAt_make_shared]; simp [hp]) hxN
          (extRefs_pos_iff.mpr ⟨_, mem_set_self _ _ _ (by simpa using hlt), rfl⟩)
      · intro b blk hxb hb
        have hb1 : blockAt (make_shared w.mem ⟨some p, d⟩).1 b = some blk := by
          rw [blockAt_make_shared]; simp [hold b blk hxb hb, hb]
        refine ⟨?_, cascade_calls_own hinv0 hcas hxb hb1⟩
        have := hcas.own b hxb
        rw [use_count_some hb1] at this
        rw [use_count_some hb]
        exact this
      · intro hn
        exact (hcas.noctl hn).1
    · obtain ⟨m1, new, hrun, hinv1, hcas⟩ := cascade_var hwf hx
      have h1 : (w.vars.set i (some Inst.empty))[t]? = some (some p) := by
        rw [List.getElem?_set_ne hit]; exact hpt
      have h2 : ((w.vars.set i (some Inst.empty)).set t (some Inst.empty))[i]?
          = some (some Inst.empty) := by
        rw [List.getElem?_set_ne hti]; simp [hlt]
      have hinv' := ((((hinv1.take_out h1).make_shared (H := ⟨some p, d⟩) 0).swap h2).drop rfl)
      rw [List.set_comm _ _ _ hit, List.set_set] at hinv'
      have := cascade_step hwf (mem_vars_of_var hx) hcas
        (Grow.of_make_shared m1 (H := ⟨some p, d⟩) hpmem) hinv'
        (SrcOK.of_set (SrcOK.of_set (SrcOK.of_vars w) (SrcOK.of_noctl w rfl))
          (SrcOK.of_fresh w 0 (by rw [hcas.len_eq])))
      refine ⟨_, new, by simp [h, hrun], this.1, this.2, ?_, ?_, ?_, ?_⟩
      · rw [var_mk_set']; simp [hlt, hcas.len_eq]
      · show blockAt (make_shared m1 ⟨some p, d⟩).1 w.mem.blocks.length = _
        rw [blockAt_make_shared, hcas.len_eq]; simp [hp]
      · intro b blk hxb hb
        refine ⟨?_, cascade_calls_own (hwf.inv.take_out hxi) hcas hxb hb⟩
        have := hcas.own b hxb
        have hne : b ≠ m1.blocks.length := by rw [hcas.len_eq]; exact hold b blk hxb hb
        have e : use_count (make_shared m1 ⟨some p, d⟩).1 (some b) = use_count m1 (some b) := by
          simp [use_count, blockAt_make_shared, hne]
        show use_count (make_shared m1 ⟨some p, d⟩).1 (some b) + 1 = _
        rw [e]; exact this
      · intro hn
        exact (hcas.noctl hn).1

theorem bind_eq_some_elim {α β : Type} {o : Option α} {f : α → Option β} {b : β}
    (h : o.bind f = some b) : ∃ a, o = some a ∧ f a = some b := by
  cases o with
  | none => simp at h
  | some a => exact ⟨a, rfl, h⟩

/-- Every public operation keeps the world well formed. -/

theorem step_facts {w w' : World} {op : Op} (hwf : WF w) (h : step w op = some w')
    (hst : ∀ i v, op.store = some (i, v) → ∀ x, w.var i = some x → x.m_handle = 0) :
    WF w' ∧ ∃ new, StepFacts w w' new := by
  cases op with
  | defaultCtor => exact defaultCtor_facts hwf h
  | construct hv p d => exact construct_facts hwf h
  | copyCtor o => exact copyCtor_facts hwf h
  | moveCtor o => exact moveCtor_facts hwf h
  | copyAssign a o =>
    simp only [step] at h
    obtain ⟨w1, hr, h1⟩ := bind_eq_some_elim (by unfold copyAssign at h; exact h)
    obtain ⟨xa, hxa, _⟩ := bind_eq_some_elim (by unfold reset at hr; exact hr)
    cases hxo : w.var o with
    | none =>
      rw [copyAssign_eq o hxa] at h
      have hlt := var_lt hxa
      by_cases hz : xa.m_handle = 0
      · simp [hz, hxo] at h
      · simp only [hz, if_false] at h
        obtain ⟨m1, _, h2⟩ := bind_eq_some_elim h
        rw [var_mk_set', var_mk_vars] at h2
        by_cases hoa : o = a
        · rw [hoa, hxa] at hxo; exact absurd hxo (by simp)
        · simp [hoa, hxo] at h2
    | some xo =>
      obtain ⟨w'', new, hr', hwf', hsf⟩ := copyAssign_ok hwf hxa hxo
      rw [h] at hr'
      exact Option.some.inj hr' ▸ ⟨hwf', new, hsf⟩
  | moveAssign a o =>
    simp only [step] at h
    obtain ⟨w1, hr, h1⟩ := bind_eq_some_elim (by unfold moveAssign at h; exact h)
    obtain ⟨xa, hxa, _⟩ := bind_eq_some_elim (by unfold reset at hr; exact hr)
    cases hxo : w.var o with
    | none =>
      rw [moveAssign_eq o hxa] at h
      by_cases hoa : o = a
      · rw [hoa, hxa] at hxo; exact absurd hxo (by simp)
      · simp [hoa, hxo] at h
    | some xo =>
      obtain ⟨w'', new, hr', hwf', hsf⟩ := moveAssign_ok hwf hxa hxo
      rw [h] at hr'
      exact Option.some.inj hr' ▸ ⟨hwf', new, hsf⟩
  | reset i =>
    simp only [step] at h
    obtain ⟨x, hx, _⟩ := bind_eq_some_elim (by unfold reset at h; exact h)
    obtain ⟨w'', new, hr', hwf', hsf, _⟩ := reset_ok hwf hx
    rw [h] at hr'
    exact Option.some.inj hr' ▸ ⟨hwf', new, hsf⟩
  | put i parent d =>
    simp only [step] at h
    obtain ⟨w1, hr, h1⟩ := bind_eq_some_elim (by unfold put at h; exact h)
    obtain ⟨x, hx, _⟩ := bind_eq_some_elim (by unfold reset at hr; exact hr)
    have hpar : ∀ t, parent = some t → t ≠ i ∧ ∃ p, w.var t = some p := by
      intro t ht
      subst ht
      rw [put_eq (some t) d hx] at h
      simp only at h
      by_cases hti : t = i
      · simp [hti] at h
      · simp only [hti, if_false] at h
        obtain ⟨p, hp, _⟩ := bind_eq_some_elim h
        exact ⟨hti, p, hp⟩
    obtain ⟨w'', new, hr', hwf', hsf, _⟩ := put_ok hwf hx parent d hpar
    rw [h] at hr'
    exact Option.some.inj hr' ▸ ⟨hwf', new, hsf⟩
  | fill i v => exact fill_facts hwf h (hst i v rfl)
  | arrowStore i v => exact fill_facts hwf h (hst i v rfl)
  | destroy i =>
    simp only [step] at h
    obtain ⟨w1, hr, h1⟩ := bind_eq_some_elim (by unfold destroy at h; exact h)
    obtain ⟨x, hx, _⟩ := bind_eq_some_elim (by unfold reset at hr; exact hr)
    obtain ⟨w'', new, hr', hwf', hsf, _⟩ := destroy_ok hwf hx
    rw [h] at hr'
    exact Option.some.inj hr' ▸ ⟨hwf', new, hsf⟩
  | getParentHandle i => exact getParentHandle_facts hwf h

/-- A store into a handle leaves the heap as it is. -/
theorem store_mem {w w' : World} {op : Op} {i v : Nat} (hs : op.store = some (i, v))
    (h : step w op = some w') :
    ∃ x, w.var i = some x ∧ w' = ⟨w.mem, w.vars.set i (some ⟨x.m_control, v⟩)⟩ := by
  cases op
  case fill j u =>
    simp only [Op.store, Option.some.injEq, Prod.mk.injEq] at hs
    obtain ⟨rfl, rfl⟩ := hs
    exact fill_eq h
  case arrowStore j u =>
    simp only [Op.store, Option.some.injEq, Prod.mk.injEq] at hs
    obtain ⟨rfl, rfl⟩ := hs
    exact fill_eq h
  all_goals simp [Op.store] at hs

/-- Every public operation, stores into handles included, keeps the world well
formed. -/
theorem step_wf {w w' : World} {op : Op} (hwf : WF w) (h : step w op = some w') : WF w' := by
  cases hs : op.store with
  | none => exact (step_facts hwf h (fun i v e => by rw [hs] at e; exact absurd e (by simp))).1
  | some p =>
    obtain ⟨x, hx, he⟩ := store_mem (i := p.1) (v := p.2) hs h
    subst he
    exact hwf.set_handle hx p.2

/-- Every public operation keeps the headers of the blocks that stay alive. -/
theorem step_header_mono {w w' : World} {op : Op} (hwf : WF w) (h : step w op = some w') :
    w.mem.blocks.length ≤ w'.mem.blocks.length ∧ ∀ b, b < w.mem.blocks.length →
      headerAt w'.mem b = none ∨ headerAt w'.mem b = headerAt w.mem b := by
  cases hs : op.store with
  | none =>
    obtain ⟨_, new, hsf⟩ := step_facts hwf h (fun i v e => by rw [hs] at e; exact absurd e (by simp))
    exact ⟨hsf.len_le, hsf.mono⟩
  | some p =>
    obtain ⟨x, hx, he⟩ := store_mem (i := p.1) (v := p.2) hs h
    subst he
    exact ⟨le_refl _, fun b _ => Or.inr rfl⟩

/-- The first operation of a run whose stores satisfy `ok`. -/
theorem storesOK_cons {ok : World → Nat → Nat → Bool} {w w1 : World} {op : Op} {ops : List Op}
    (hst : storesOK ok w (op :: ops) = true) (h1 : step w op = some w1) :
    (∀ i v, op.store = some (i, v) → ok w i v = true) ∧ storesOK ok w1 ops = true := by
  simp only [storesOK, h1, Bool.and_eq_true] at hst
  refine ⟨fun i v hs => ?_, hst.2⟩
  have := hst.1
  rw [hs] at this
  exact this

theorem nullTarget_guard {w : World} {i v : Nat} (h : nullTarget w i v = true) :
    ∀ x, w.var i = some x → x.m_handle = 0 := by
  intro x hx
  simpa [nullTarget, get, hx] using h

theorem WF.init : WF World.init where
  inv := ⟨by simp [World.init], by simp [World.init, blockAt], by simp [World.init, blockAt],
    by simp [World.init, blockAt]⟩
  log_ok := by simp [World.init]

/-- Every world reached by public operations from a well-formed world is well formed. -/

theorem WF.run {ops : List Op} : ∀ {w w' : World}, WF w → run w ops = some w' → WF w' := by
  induction ops with
  | nil =>
    intro w w' hwf h
    simp only [SharedHandle.run, Option.some.injEq] at h
    exact h ▸ hwf
  | cons op ops ih =>
    intro w w' hwf h
    simp only [SharedHandle.run] at h
    obtain ⟨w1, h1, h2⟩ := bind_eq_some_elim h
    exact ih (step_wf hwf h1) h2

/-! ### The life of one control block along a run -/

theorem callsOf_append (m m' : Mem) (new : List Call) (b : Nat) (h : m'.log = m.log ++ new) :
    callsOf m' b = callsOf m b ++ new.filter fun e => decide (e.block = b) := by
  simp [callsOf, h]

theorem Holds.live {w : World} (hwf : WF w) {b : Nat} {y : Inst} (h : Holds w b y) :
    headerAt w.mem b ≠ none := by
  intro hn
  rcases h.2 with hv | ⟨c, hdr, hc, hp⟩
  · exact hwf.inv.ext_live (some y) hv b (by simpa [ctlOf] using h.1) (headerAt_eq_none.mp hn)
  · obtain ⟨blk, hb, hbh⟩ := headerAt_eq_some.mp hc
    exact (hwf.inv.parent_lt c blk b hb (by rw [hbh, hp]; simpa [ctlOf] using h.1)).2
      (headerAt_eq_none.mp hn)

theorem Holds.exists_of_live {w : World} (hwf : WF w) {b : Nat} (h : headerAt w.mem b ≠ none) :
    ∃ y, Holds w b y := by
  obtain ⟨hdr, hh⟩ := Option.ne_none_iff_exists'.mp h
  obtain ⟨blk, hb, _⟩ := headerAt_eq_some.mp hh
  have hpos := hwf.inv.pos b blk hb
  have hcnt := hwf.inv.count_eq b blk hb
  by_cases he : 0 < extRefs w.vars b
  · obtain ⟨o, ho, hob⟩ := extRefs_pos_iff.mp he
    cases o with
    | none => simp [ctlOf] at hob
    | some y => exact ⟨y, by simpa [ctlOf] using hob, Or.inl ho⟩
  · have hh' : 0 < heapRefs w.mem b := by omega
    unfold heapRefs at hh'
    rw [List.countP_pos_iff] at hh'
    obtain ⟨o, ho, hob⟩ := hh'
    cases o with
    | none => simp [parentOf, ctlOf] at hob
    | some blk' =>
      obtain ⟨c, hc⟩ := List.mem_iff_getElem?.mp ho
      cases hp : blk'.header.parent with
      | none => simp [parentOf, ctlOf, hp] at hob
      | some y =>
        refine ⟨y, by simpa [parentOf, ctlOf, hp] using hob, Or.inr ⟨c, blk'.header, ?_, hp⟩⟩
        exact headerAt_eq_some.mpr ⟨blk', blockAt_eq_some.mpr hc, rfl⟩

theorem Fam.step_fam {C : Nat} {hdr : SharedHeader} {h : Nat} {w w' : World} {new : List Call}
    (hf : Fam C hdr h w) (hh : h ≠ 0) (hs : StepFacts w w' new) : Fam C hdr h w' := by
  obtain ⟨hlt, hcase⟩ := hf
  refine ⟨lt_of_lt_of_le hlt hs.len_le, ?_⟩
  have hcalls := callsOf_append w.mem w'.mem new C hs.log_eq
  rcases hcase with ⟨hlive, hagree, hnone⟩ | ⟨hdead, hone⟩
  · rcases hs.mono C hlt with hd | hl
    · -- freed by this operation
      right
      refine ⟨hd, ?_⟩
      rcases hs.freed C (by simp [hlive]) hd with ⟨e, he, heb⟩ | ⟨y, hy, hy0⟩
      · obtain ⟨_, _, hdr', hh', hcall, y, hy, hyh⟩ := hs.entry e he
        rw [heb, hlive] at hh'
        have hhdr : hdr' = hdr := (Option.some.inj hh').symm
        have hhe : e.handle = h := by rw [← hyh]; exact hagree y (heb ▸ hy)
        have hec : e = callOf C hdr h := by rw [hcall, heb, hhdr, hhe]
        rw [hcalls, hnone, List.nil_append, ← heb, filter_block_eq_singleton hs.nodup he, hec]
        rfl
      · exact absurd (hagree y hy ▸ hy0) hh
    · left
      rw [hlive] at hl
      refine ⟨hl, ?_, ?_⟩
      · intro y hy
        obtain ⟨y0, hy0, hor⟩ := hs.refs C y hy hlt
        rcases hor with e | e
        · rw [← e]; exact hagree y0 hy0
        · exact absurd (hagree y0 hy0 ▸ e) hh
      · rw [hcalls, hnone, List.nil_append]
        apply filter_block_eq_nil
        intro e he heb
        obtain ⟨_, hd, _⟩ := hs.entry e he
        rw [heb, hl] at hd
        exact absurd hd (by simp)
  · right
    have hd' : headerAt w'.mem C = none := by
      rcases hs.mono C hlt with hd | hl
      · exact hd
      · rw [hl, hdead]
    refine ⟨hd', ?_⟩
    rw [hcalls, hone]
    have : new.filter (fun e => decide (e.block = C)) = [] := by
      apply filter_block_eq_nil
      intro e he heb
      obtain ⟨_, _, hdr', hh', _⟩ := hs.entry e he
      rw [heb, hdead] at hh'
      exact absurd hh' (by simp)
    rw [this, List.append_nil]

theorem Fam.run_fam {C : Nat} {hdr : SharedHeader} {h : Nat} (hh : h ≠ 0) {ops : List Op} :
    ∀ {w w' : World}, WF w → Fam C hdr h w → run w ops = some w' →
      storesOK nullTarget w ops = true → WF w' ∧ Fam C hdr h w' := by
  induction ops with
  | nil =>
    intro w w' hwf hf hr _
    simp only [SharedHandle.run, Option.some.injEq] at hr
    exact hr ▸ ⟨hwf, hf⟩
  | cons op ops ih =>
    intro w w' hwf hf hr hst
    simp only [SharedHandle.run] at hr
    obtain ⟨w1, h1, h2⟩ := bind_eq_some_elim hr
    obtain ⟨hok, hst1⟩ := storesOK_cons hst h1
    obtain ⟨hwf1, new, hs⟩ := step_facts hwf h1 (fun i v e => nullTarget_guard (hok i v e))
    exact ih hwf1 (hf.step_fam hh hs) h2 hst1

theorem Fam.init_construct {w0 w1 : World} {h : Nat} {parent : Option Nat} {d : Nat} (hwf : WF w0)
    (hc : construct w0 h parent d = some w1) :
    WF w1 ∧ Fam w0.mem.blocks.length ⟨parent.bind w0.var, d⟩ h w1 := by
  have hwf1 := (construct_facts hwf hc).1
  refine ⟨hwf1, ?_⟩
  rw [construct_eq] at hc
  -- the shape of the new world
  have hshape : ∃ varsT : List (Option Inst),
      w1 = ⟨(make_shared w0.mem ⟨parent.bind w0.var, d⟩).1,
        varsT ++ [some ⟨some w0.mem.blocks.length, h⟩]⟩ ∧
      ∀ o ∈ varsT, o ∈ w0.vars ∨ o = some Inst.empty := by
    cases parent with
    | none =>
      simp only [Option.some.injEq] at hc
      exact ⟨w0.vars, by rw [← hc]; rfl, fun o ho => Or.inl ho⟩
    | some t =>
      simp only at hc
      obtain ⟨p, hp, hc⟩ := bind_eq_some_elim hc
      simp only [Option.some.injEq] at hc
      refine ⟨w0.vars.set t (some Inst.empty), by rw [← hc]; simp [hp], fun o ho => ?_⟩
      exact List.mem_or_eq_of_mem_set ho
  obtain ⟨varsT, hw1, hT⟩ := hshape
  subst hw1
  have hblk : blockAt (make_shared w0.mem ⟨parent.bind w0.var, d⟩).1 w0.mem.blocks.length
      = some ⟨1, ⟨parent.bind w0.var, d⟩⟩ := by
    rw [blockAt_make_shared]; simp
  refine ⟨by simp [make_shared], Or.inl ⟨?_, ?_, ?_⟩⟩
  · exact headerAt_eq_some.mpr ⟨_, hblk, rfl⟩
  · intro y hy
    rcases hy.2 with hv | ⟨c, hdr', hc', hp'⟩
    · rcases List.mem_append.mp hv with hv | hv
      · rcases hT _ hv with hv | hv
        · have := blockAt_lt (hwf.inv.ext_live (some y) hv _ (by simpa [ctlOf] using hy.1))
          omega
        · rw [Option.some.inj hv] at hy
          exact absurd hy.1 (by simp [Inst.empty])
      · rw [List.mem_singleton] at hv
        rw [Option.some.inj hv]
    · obtain ⟨blk, hb, hbh⟩ := headerAt_eq_some.mp hc'
      have h1 := (hwf1.inv.parent_lt c blk w0.mem.blocks.length hb
        (by rw [hbh, hp']; simpa [ctlOf] using hy.1)).1
      have h2 := blockAt_lt (m := (make_shared w0.mem ⟨parent.bind w0.var, d⟩).1) (b := c)
        (by simp [hb])
      simp [make_shared] at h2
      omega
  · apply filter_block_eq_nil
    intro e he
    have := (hwf.log_ok e he).2.1
    omega

theorem setCount_comm (m : Mem) {b c : Nat} (hne : b ≠ c) (blk blk' : Block) (n k : Nat) :
    setCount (setCount m c blk' n) b blk k = setCount (setCount m b blk k) c blk' n := by
  simp only [setCount]
  rw [List.set_comm _ _ _ (fun e => hne e.symm)]

theorem freeBlock_setCount (m : Mem) {b c : Nat} (hne : b ≠ c) (blk' : Block) (n : Nat) :
    freeBlock (setCount m c blk' n) b = setCount (freeBlock m b) c blk' n := by
  simp only [setCount, freeBlock]
  rw [List.set_comm _ _ _ (fun e => hne e.symm)]

/-- Taking one more share of a block that an outside instance points to
commutes with the destruction of another instance. -/
theorem dtorWith_fuel_acquire (n : Nat) : ∀ (m : Mem) (x : Inst) (ext : List (Option Inst))
    (Y : Nat) (blkY : Block), (∀ b, x.m_control = some b → b < n) → Inv m (some x :: ext) →
    (∃ o ∈ ext, ctlOf o = some Y) → blockAt m Y = some blkY →
    dtorWith (releaseFuel n) (setCount m Y blkY (blkY.useCount + 1)) x
      = (dtorWith (releaseFuel n) m x).bind fun m' => acquire m' (some Y) := by
  induction n with
  | zero =>
    intro m x ext Y blkY hlt _ _ hY
    cases hxc : x.m_control with
    | none =>
      rw [dtorWith_eq, dtorWith_eq]
      simp [hxc, acquire, hY]
    | some b => exact absurd (hlt b hxc) (by omega)
  | succ k ih =>
    intro m x ext Y blkY hlt hinv hext hY
    have hYlive : blockAt m Y ≠ none := by simp [hY]
    cases hxc : x.m_control with
    | none =>
      rw [dtorWith_eq, dtorWith_eq]
      simp [hxc, acquire, hY]
    | some b =>
      obtain ⟨blk, hb, hcnt⟩ := hinv.own_block hxc
      rw [dtorWith_eq, dtorWith_eq]
      simp only [hxc]
      by_cases hbY : b = Y
      · -- the instance points to the shared block itself: it is not the last owner
        subst hbY
        rw [hY] at hb
        have hblk := Option.some.inj hb
        subst hblk
        have hge : 2 ≤ blkY.useCount := by
          have := extRefs_pos_iff.mpr hext
          omega
        have hb1 : blockAt (setCount m b blkY (blkY.useCount + 1)) b
            = some { blkY with useCount := blkY.useCount + 1 } := by
          rw [blockAt_setCount _ _ _ _ _ hYlive]; simp
        have h1 : ¬ blkY.useCount = 1 := by omega
        have h2 : ¬ blkY.useCount + 1 = 1 := by omega
        simp only [use_count_some hb1, use_count_some hY, h1, h2, and_false, if_false,
          Option.some_bind]
        rw [releaseFuel_succ k _ b _ hb1, releaseFuel_succ k _ b _ hY]
        simp only [h1, h2, if_false, Option.some_bind]
        have hb2 : blockAt (setCount m b blkY (blkY.useCount - 1)) b
            = some { blkY with useCount := blkY.useCount - 1 } := by
          rw [blockAt_setCount _ _ _ _ _ hYlive]; simp
        simp only [acquire, hb2]
        have : blkY.useCount - 1 + 1 = blkY.useCount := by omega
        simp only [setCount, List.set_set, this, Nat.add_sub_cancel]
      · have hb1 : blockAt (setCount m Y blkY (blkY.useCount + 1)) b = some blk := by
          rw [blockAt_setCount _ _ _ _ _ hYlive]; simp [hbY, hb]
        simp only [use_count_some hb1, use_count_some hb]
        by_cases h1 : blk.useCount = 1
        · let pre : List Call := if x.m_handle = 0 then [] else [callOf b blk.header x.m_handle]
          have hm0 : (if x.m_handle ≠ 0 ∧ blk.useCount = 1 then internalDestroy m x else some m)
              = some { m with log := m.log ++ pre } := by
            by_cases hz : x.m_handle = 0
            · simp [hz, pre]
            · simp [hz, h1, pre, internalDestroy_eq hxc hb]
          have hm0' : (if x.m_handle ≠ 0 ∧ blk.useCount = 1 then
                internalDestroy (setCount m Y blkY (blkY.useCount + 1)) x
              else some (setCount m Y blkY (blkY.useCount + 1)))
              = some (setCount { m with log := m.log ++ pre } Y blkY (blkY.useCount + 1)) := by
            by_cases hz : x.m_handle = 0
            · simp [hz, pre, setCount]
            · have : x.m_handle ≠ 0 ∧ blk.useCount = 1 := ⟨hz, h1⟩
              rw [if_pos this, internalDestroy_eq hxc hb1]
              simp [pre, hz, setCount]
          rw [hm0, hm0']
          simp only [Option.some_bind]
          have hb' : blockAt { m with log := m.log ++ pre } b = some blk := hb
          have hb1' : blockAt (setCount { m with log := m.log ++ pre } Y blkY
              (blkY.useCount + 1)) b = some blk := hb1
          rw [releaseFuel_succ k _ b blk hb', releaseFuel_succ k _ b blk hb1']
          simp only [h1, if_true]
          rw [freeBlock_setCount _ hbY]
          have hYf : blockAt (freeBlock { m with log := m.log ++ pre } b) Y = some blkY := by
            rw [blockAt_free_log]
            have : Y ≠ b := fun e => hbY e.symm
            simp [this, hY]
          have hinv1 := (hinv.with_log (m.log ++ pre)).free hxc hb' h1
          cases hp : blk.header.parent with
          | none =>
            simp [acquire, hYf]
          | some p =>
            simp only
            rw [hp] at hinv1
            have hplt : ∀ pb, p.m_control = some pb → pb < k := by
              intro pb hpb
              have := (hinv.parent_lt b blk pb hb (by simpa [hp, ctlOf] using hpb)).1
              have := hlt b hxc
              omega
            exact ih _ p ext Y blkY hplt hinv1 hext hYf
        · have hm0 : (if x.m_handle ≠ 0 ∧ blk.useCount = 1 then internalDestroy m x else some m)
              = some m := by simp [h1]
          have hm0' : (if x.m_handle ≠ 0 ∧ blk.useCount = 1 then
                internalDestroy (setCount m Y blkY (blkY.useCount + 1)) x
              else some (setCount m Y blkY (blkY.useCount + 1)))
              = some (setCount m Y blkY (blkY.useCount + 1)) := by simp [h1]
          rw [hm0, hm0']
          simp only [Option.some_bind]
          rw [releaseFuel_succ k _ b blk hb, releaseFuel_succ k _ b blk hb1]
          simp only [h1, if_false, Option.some_bind]
          have hY2 : blockAt (setCount m b blk (blk.useCount - 1)) Y = some blkY := by
            rw [blockAt_setCount _ _ _ _ _ (by simp [hb])]
            have : Y ≠ b := fun e => hbY e.symm
            simp [this, hY]
          simp only [acquire, hY2]
          rw [setCount_comm _ hbY]

theorem dtor_acquire {m : Mem} {x : Inst} {ext : List (Option Inst)} {Y : Nat} {blkY : Block}
    (hinv : Inv m (some x :: ext)) (hext : ∃ o ∈ ext, ctlOf o = some Y)
    (hY : blockAt m Y = some blkY) :
    dtorWith release (setCount m Y blkY (blkY.useCount + 1)) x
      = (dtorWith release m x).bind fun m' => acquire m' (some Y) := by
  rw [dtorWith_release, dtorWith_release]
  have hl : (setCount m Y blkY (blkY.useCount + 1)).blocks.length = m.blocks.length := by
    simp [setCount]
  rw [hl]
  apply dtorWith_fuel_acquire _ m x ext Y blkY _ hinv hext hY
  intro b hb
  have := hinv.ext_live (some x) (List.mem_cons_self _ _) b (by simpa [ctlOf] using hb)
  have := blockAt_lt this
  omega

/-- Copy assignment is the release of the target, by the destructor of its
value, followed by copy construction in its storage (left as `u`). -/
theorem copyAssign_eq_release {w : World} (hwf : WF w) {a o : Nat} {xa : Inst}
    (hx : w.var a = some xa) (hne : a ≠ o) (u : Option Inst) :
    copyAssign w a o =
      ((dtorWith release w.mem xa).bind fun m' => some ⟨m', w.vars.set a u⟩).bind
        fun w1 => copyCtorAt w1 a o := by
  have hlt := var_lt hx
  have hoa : o ≠ a := fun e => hne e.symm
  rw [copyAssign_eq o hx]
  unfold copyCtorAt
  have hvar : ∀ (m' : Mem) (u : Option Inst),
      (⟨m', w.vars.set a u⟩ : World).var o = w.var o := by
    intro m' u
    unfold World.var
    rw [List.getElem?_set_ne hne]
  by_cases h : xa.m_handle = 0
  · simp only [h, if_true]
    cases hxo : w.var o with
    | none =>
      cases dtorWith release w.mem xa with
      | none => rfl
      | some m' => simp [hvar, hxo]
    | some xo =>
      simp only [Option.some_bind]
      cases hc : xo.m_control with
      | none =>
        simp only [acquire, Option.some_bind]
        cases dtorWith release w.mem xa with
        | none => rfl
        | some m' => simp [hvar, hxo, hc, acquire, World.setVar, List.set_set]
      | some Y =>
        obtain ⟨blkY, hY⟩ := Option.ne_none_iff_exists'.mp (hwf.var_live hxo hc)
        have hmem : ∃ o' ∈ w.vars.set a (some Inst.empty), ctlOf o' = some Y := by
          refine ⟨some xo, ?_, by simpa [ctlOf] using hc⟩
          apply List.getElem?_mem (n := o)
          rw [List.getElem?_set_ne hne]
          exact var_eq_some.mp hxo
        have hcomm := dtor_acquire (hwf.inv.take_out (var_eq_some.mp hx)) hmem hY
        simp only [acquire, hY, Option.some_bind]
        rw [hcomm]
        cases dtorWith release w.mem xa with
        | none => rfl
        | some m' =>
          simp only [Option.some_bind, hvar, hxo, hc, World.setVar, List.set_set]
          rfl
  · simp only [h, if_false]
    cases dtorWith release w.mem xa with
    | none => rfl
    | some m' =>
      simp only [Option.some_bind, hvar, World.setVar, List.set_set]

/-- Move assignment is the release of the target, by the destructor of its
value, followed by move construction in its storage (left as `u`). -/
theorem moveAssign_eq_release {w : World} {a o : Nat} {xa : Inst}
    (hx : w.var a = some xa) (hne : a ≠ o) (u : Option Inst) :
    moveAssign w a o =
      ((dtorWith release w.mem xa).bind fun m' => some ⟨m', w.vars.set a u⟩).bind
        fun w1 => moveCtorAt w1 a o := by
  have hoa : o ≠ a := fun e => hne e.symm
  rw [moveAssign_eq o hx]
  unfold moveCtorAt
  have hvar : ∀ (m' : Mem) (u : Option Inst),
      (⟨m', w.vars.set a u⟩ : World).var o = w.var o := by
    intro m' u
    unfold World.var
    rw [List.getElem?_set_ne hne]
  simp only [hoa, if_false]
  cases hxo : w.var o with
  | none =>
    cases dtorWith release w.mem xa with
    | none => rfl
    | some m' => simp [hvar, hxo]
  | some xo =>
    cases dtorWith release w.mem xa with
    | none => rfl
    | some m' =>
      simp only [Option.some_bind, hvar, hxo, World.setVar, List.set_set, Inst.empty]

/-- Copy assignment between distinct live variables returns, with the value of
the source in both. -/
theorem copyAssign_result {w : World} (hwf : WF w) {a o : Nat} {xa xo : Inst}
    (hx : w.var a = some xa) (hxo : w.var o = some xo) (hne : a ≠ o) :
    ∃ w1, copyAssign w a o = some w1 ∧ w1.var a = some xo ∧ w1.var o = some xo := by
  have hlt := var_lt hx
  obtain ⟨m1, new, hrun, hinv1, _⟩ := cascade_var hwf hx
  have hvo : ∀ m' : Mem, (⟨m', w.vars.set a (some Inst.empty)⟩ : World).var o = some xo := by
    intro m'
    unfold World.var
    rw [List.getElem?_set_ne hne]
    exact hxo
  have hacq : ∃ m2, acquire m1 xo.m_control = some m2 := by
    cases hc : xo.m_control with
    | none => exact ⟨m1, rfl⟩
    | some Y =>
      have hmem : some xo ∈ w.vars.set a (some Inst.empty) := by
        apply List.getElem?_mem (n := o)
        rw [List.getElem?_set_ne hne]
        exact var_eq_some.mp hxo
      obtain ⟨blk, hb⟩ := Option.ne_none_iff_exists'.mp
        (hinv1.ext_live _ hmem Y (by simpa [ctlOf] using hc))
      exact ⟨setCount m1 Y blk (blk.useCount + 1), by simp [acquire, hb]⟩
  obtain ⟨m2, hm2⟩ := hacq
  refine ⟨⟨m2, w.vars.set a (some ⟨xo.m_control, xo.m_handle⟩)⟩, ?_, ?_, ?_⟩
  · rw [copyAssign_eq_release hwf hx hne (some Inst.empty), hrun]
    simp only [Option.some_bind, copyCtorAt, hvo, hm2, World.setVar, List.set_set]
  · unfold World.var
    simp [hlt]
  · unfold World.var
    simp only
    rw [List.getElem?_set_ne hne]
    exact hxo

/-- Move assignment between distinct live variables returns, with the value of
the source in the target and the source empty. -/
theorem moveAssign_result {w : World} (hwf : WF w) {a o : Nat} {xa xo : Inst}
    (hx : w.var a = some xa) (hxo : w.var o = some xo) (hne : a ≠ o) :
    ∃ w2, moveAssign w a o = some w2 ∧ w2.var a = some xo ∧ w2.var o = some ⟨none, 0⟩ := by
  have hlt := var_lt hx
  have hlo := var_lt hxo
  have hoa : o ≠ a := fun e => hne e.symm
  obtain ⟨m1, new, hrun, _, _⟩ := cascade_var hwf hx
  refine ⟨⟨m1, (w.vars.set a (some ⟨xo.m_control, xo.m_handle⟩)).set o (some Inst.empty)⟩,
    ?_, ?_, ?_⟩
  · rw [moveAssign_eq o hx]
    simp only [hoa, if_false, hxo, Option.some_bind, hrun]
  · unfold World.var
    simp only
    rw [List.getElem?_set_ne hoa]
    simp [hlt]
  · unfold World.var
    simp [hlo, Inst.empty]

/-! ### Shared owners and sole owners -/

/-- Two variables that point to the same block count for two external references. -/
theorem extRefs_two {vars : List (Option Inst)} {a b B : Nat} {xa xb : Inst}
    (ha : vars[a]? = some (some xa)) (hb : vars[b]? = some (some xb)) (hne : a ≠ b)
    (hca : xa.m_control = some B) (hcb : xb.m_control = some B) : 2 ≤ extRefs vars B := by
  have h1 := extRefs_set vars a (some xa) none B ha
  have h2 : 0 < extRefs (vars.set a none) B := by
    apply extRefs_pos_iff.mpr
    refine ⟨some xb, ?_, by simpa [ctlOf] using hcb⟩
    apply List.getElem?_mem (n := b)
    rw [List.getElem?_set_ne hne]
    exact hb
  simp only [ctlOf, hca, if_true] at h1
  simp at h1
  omega

/-- A block that two variables point to is alive with use count at least two. -/
theorem shared_not_sole {w : World} (hwf : WF w) {a b B : Nat} {xa xb : Inst}
    (ha : w.var a = some xa) (hb : w.var b = some xb) (hne : a ≠ b)
    (hca : xa.m_control = some B) (hcb : xb.m_control = some B) :
    ∃ blk, blockAt w.mem B = some blk ∧ 2 ≤ blk.useCount := by
  obtain ⟨blk, hB⟩ := Option.ne_none_iff_exists'.mp (hwf.var_live ha hca)
  refine ⟨blk, hB, ?_⟩
  have := hwf.inv.count_eq B blk hB
  have := extRefs_two (var_eq_some.mp ha) (var_eq_some.mp hb) hne hca hcb
  omega

/-- Destroying the value of a variable that is not the sole owner of its block
only lowers the use count. -/
theorem dtor_shared {w : World} (hwf : WF w) {a B : Nat} {xa : Inst} {blk : Block}
    (ha : w.var a = some xa) (hca : xa.m_control = some B) (hB : blockAt w.mem B = some blk)
    (hn : blk.useCount ≠ 1) :
    dtorWith release w.mem xa = some (setCount w.mem B blk (blk.useCount - 1)) := by
  obtain ⟨m1, new, hrun, _, hcas⟩ := cascade_var hwf ha
  rw [hrun, (hcas.quiet B blk hca hB hn).2]

/-- The call `reset()` by the sole owner of a non-null handle calls the
deleter of its block first, and only once. -/
theorem reset_sole {w : World} (hwf : WF w) {i b : Nat} {x : Inst} {blk : Block}
    (hx : w.var i = some x) (hh : x.m_handle ≠ 0) (hc : x.m_control = some b)
    (hb : blockAt w.mem b = some blk) (h1 : blk.useCount = 1) :
    ∃ w' rest, reset w i = some w' ∧ WF w' ∧
      w'.mem.log = w.mem.log ++ callOf b blk.header x.m_handle :: rest ∧
      callsOf w'.mem b = [callOf b blk.header x.m_handle] ∧
      w'.vars = w.vars.set i (some Inst.empty) := by
  obtain ⟨w', new, hr, hwf', hsf, _, hcase⟩ := reset_ok hwf hx
  obtain ⟨hvars, hcas⟩ := hcase hh
  have hold : callsOf w.mem b = [] := filter_block_eq_nil fun e he heb => by
    have := (hwf.log_ok e he).1
    rw [heb, hb] at this
    exact absurd this (by simp)
  have hcalls := cascade_calls_own (hwf.inv.take_out (var_eq_some.mp hx)) hcas hc hb
  obtain ⟨rest, hrest⟩ := hcas.first b blk hc hb hh h1
  refine ⟨w', rest, hr, hwf', by rw [hsf.log_eq, hrest], ?_, hvars⟩
  rw [callsOf_append w.mem w'.mem new b hsf.log_eq, hold, hcalls]
  simp [hh, h1]

/-- The destruction of the sole owner of a non-null handle calls the deleter of
its block first, and only once. -/
theorem destroy_sole {w : World} (hwf : WF w) {i b : Nat} {x : Inst} {blk : Block}
    (hx : w.var i = some x) (hh : x.m_handle ≠ 0) (hc : x.m_control = some b)
    (hb : blockAt w.mem b = some blk) (h1 : blk.useCount = 1) :
    ∃ w' rest, destroy w i = some w' ∧ WF w' ∧
      w'.mem.log = w.mem.log ++ callOf b blk.header x.m_handle :: rest ∧
      callsOf w'.mem b = [callOf b blk.header x.m_handle] ∧
      w'.vars = w.vars.set i none := by
  obtain ⟨w', new, hr, hwf', hsf, hvars, hcas⟩ := destroy_ok hwf hx
  have hold : callsOf w.mem b = [] := filter_block_eq_nil fun e he heb => by
    have := (hwf.log_ok e he).1
    rw [heb, hb] at this
    exact absurd this (by simp)
  have hcalls := cascade_calls_own (hwf.inv.take_out (var_eq_some.mp hx)) hcas hc hb
  obtain ⟨rest, hrest⟩ := hcas.first b blk hc hb hh h1
  refine ⟨w', rest, hr, hwf', by rw [hsf.log_eq, hrest], ?_, hvars⟩
  rw [callsOf_append w.mem w'.mem new b hsf.log_eq, hold, hcalls]
  simp [hh, h1]

/-- The call `put` by a variable that shares its block with another variable:
the result in full. -/
theorem put_shared {w : World} (hwf : WF w) {a b B : Nat} {xa xb : Inst}
    (ha : w.var a = some xa) (hb : w.var b = some xb) (hne : a ≠ b)
    (hca : xa.m_control = some B) (hcb : xb.m_control = some B) (hh : xa.m_handle ≠ 0)
    (parent : Option Nat) (d : Nat)
    (hpar : ∀ t, parent = some t → t ≠ a ∧ t ≠ b ∧ ∃ p, w.var t = some p) :
    ∃ blk w', blockAt w.mem B = some blk ∧ 2 ≤ blk.useCount ∧
      put w a parent d = some w' ∧ WF w' ∧
      w'.mem = (make_shared (setCount w.mem B blk (blk.useCount - 1))
        ⟨parent.bind w.var, d⟩).1 ∧
      w'.var a = some ⟨some w.mem.blocks.length, 0⟩ ∧ w'.var b = some xb := by
  obtain ⟨blk, hB, h2⟩ := shared_not_sole hwf ha hb hne hca hcb
  have hd := dtor_shared hwf ha hca hB (by omega)
  obtain ⟨w', new, hput, hwf', _, hva, _⟩ := put_ok hwf ha parent d
    (fun t ht => ⟨(hpar t ht).1, (hpar t ht).2.2⟩)
  refine ⟨blk, w', hB, h2, hput, hwf', ?_, hva, ?_⟩
  · rw [put_eq parent d ha] at hput
    cases parent with
    | none =>
      simp only [hh, if_false, hd, Option.some_bind, Option.some.injEq] at hput
      rw [← hput]
      rfl
    | some t =>
      obtain ⟨hta, _, p, hp⟩ := hpar t rfl
      simp only [hta, hh, if_false, hp, hd, Option.some_bind, Option.some.injEq] at hput
      rw [← hput]
      simp [hp]
  · rw [put_eq parent d ha] at hput
    have hba : b ≠ a := fun e => hne e.symm
    cases parent with
    | none =>
      simp only [hh, if_false, hd, Option.some_bind, Option.some.injEq] at hput
      rw [← hput, var_mk_set']
      simp only [hba, if_false]
      exact hb
    | some t =>
      obtain ⟨hta, htb, p, hp⟩ := hpar t rfl
      have hbt : b ≠ t := fun e => htb e.symm
      simp only [hta, hh, if_false, hp, hd, Option.some_bind, Option.some.injEq] at hput
      rw [← hput, var_mk_set']
      simp only [hba, if_false]
      rw [var_mk_set']
      simp only [hbt, if_false]
      exact hb

/-! ### Where the instances of a new world come from -/

theorem HdrSub.self_sub (m : Mem) : HdrSub m m := ⟨rfl, fun _ _ h => h⟩

theorem HdrSub.chain {m m1 m2 : Mem} (h1 : HdrSub m m1) (h2 : HdrSub m1 m2) : HdrSub m m2 :=
  ⟨h2.1.trans h1.1, fun c hdr h => h1.2 c hdr (h2.2 c hdr h)⟩

theorem HdrSub.of_blocks {m m1 : Mem} (h : m1.blocks = m.blocks) : HdrSub m m1 := by
  refine ⟨by rw [h], fun c hdr hc => ?_⟩
  simpa [headerAt, blockAt, h] using hc

theorem HdrSub.of_freeBlock (m : Mem) (b : Nat) : HdrSub m (freeBlock m b) := by
  refine ⟨by simp [freeBlock], fun c hdr hc => ?_⟩
  unfold headerAt at hc ⊢
  rw [blockAt_freeBlock] at hc
  by_cases h : c = b
  · simp [h] at hc
  · simpa [h] using hc

theorem HdrSub.of_setCount {m : Mem} {b : Nat} {blk : Block} (n : Nat)
    (hb : blockAt m b = some blk) : HdrSub m (setCount m b blk n) :=
  ⟨by simp [setCount], fun c hdr hc => by rwa [headerAt_setCount m b c blk n hb] at hc⟩

theorem HdrSub.of_acquire {m m1 : Mem} {c : Option Nat} (h : acquire m c = some m1) :
    HdrSub m m1 := by
  unfold acquire at h
  cases c with
  | none =>
    simp only [Option.some.injEq] at h
    rw [← h]
    exact HdrSub.self_sub m
  | some b =>
    simp only at h
    cases hb : blockAt m b with
    | none => simp [hb] at h
    | some blk =>
      simp only [hb, Option.some.injEq] at h
      rw [← h]
      exact HdrSub.of_setCount _ hb

theorem HdrSub.of_dtorWith {rel : Mem → Nat → Option Mem}
    (hrel : ∀ m b m', rel m b = some m' → HdrSub m m') {m m' : Mem} {x : Inst}
    (h : dtorWith rel m x = some m') : HdrSub m m' := by
  rw [dtorWith_eq] at h
  cases hc : x.m_control with
  | none =>
    simp only [hc, Option.some.injEq] at h
    rw [← h]
    exact HdrSub.self_sub m
  | some b =>
    simp only [hc] at h
    obtain ⟨m1, h1, h2⟩ := bind_eq_some_elim h
    have hs1 : HdrSub m m1 := by
      split at h1
      · exact HdrSub.of_blocks (internalDestroy_blocks h1)
      · simp only [Option.some.injEq] at h1
        rw [← h1]
        exact HdrSub.self_sub m
    exact hs1.chain (hrel m1 b m' h2)

theorem HdrSub.of_releaseFuel (k : Nat) :
    ∀ (m : Mem) (b : Nat) (m' : Mem), releaseFuel k m b = some m' → HdrSub m m' := by
  induction k with
  | zero => intro m b m' h; simp [releaseFuel] at h
  | succ k ih =>
    intro m b m' h
    cases hb : blockAt m b with
    | none => simp [releaseFuel, hb] at h
    | some blk =>
      rw [releaseFuel_succ k m b blk hb] at h
      split at h
      · cases hp : blk.header.parent with
        | none =>
          simp only [hp, Option.some.injEq] at h
          rw [← h]
          exact HdrSub.of_freeBlock m b
        | some p =>
          simp only [hp] at h
          exact (HdrSub.of_freeBlock m b).chain (HdrSub.of_dtorWith ih h)
      · simp only [Option.some.injEq] at h
        rw [← h]
        exact HdrSub.of_setCount _ hb

theorem HdrSub.of_dtor {m m' : Mem} {x : Inst} (h : dtorWith release m x = some m') :
    HdrSub m m' :=
  HdrSub.of_dtorWith (fun m b m' h => HdrSub.of_releaseFuel _ m b m' h) h

theorem headerAt_make_shared (m : Mem) (hdr : SharedHeader) (c : Nat) :
    headerAt (make_shared m hdr).1 c =
      if c = m.blocks.length then some hdr else headerAt m c := by
  unfold headerAt
  rw [blockAt_make_shared]
  by_cases h : c = m.blocks.length <;> simp [h]

theorem Prov.of_parts {w : World} {m' : Mem} {v : List (Option Inst)} {fresh : Option Nat}
    (hv : ∀ y, some y ∈ v → IsInst w y ∨ y = ⟨none, 0⟩ ∨
      ∃ hv, fresh = some hv ∧ y = ⟨some w.mem.blocks.length, hv⟩)
    (hh : ∀ c hdr, headerAt m' c = some hdr →
      headerAt w.mem c = some hdr ∨ ∀ y, hdr.parent = some y → some y ∈ w.vars) :
    Prov w ⟨m', v⟩ fresh := by
  intro y hy
  rcases hy with hy | ⟨c, hdr, hc, hp⟩
  · exact hv y hy
  · rcases hh c hdr hc with h | h
    · exact Or.inl (Or.inr ⟨c, hdr, h, hp⟩)
    · exact Or.inl (Or.inl (h y hp))

theorem Prov.same (w : World) (fresh : Option Nat) : Prov w w fresh := fun _ hy => Or.inl hy

/-- A value stored by `List.set` is the new one or was in the list. -/
theorem mem_set_elim {l : List (Option Inst)} {i : Nat} {o u : Option Inst}
    (h : o ∈ l.set i u) : o ∈ l ∨ o = u :=
  List.mem_or_eq_of_mem_set h

theorem hdr_of_make_shared {w : World} {m1 m3 : Mem} (hs : HdrSub w.mem m1) {H : SharedHeader}
    (hp : ∀ y, H.parent = some y → some y ∈ w.vars) (h3 : HdrSub (make_shared m1 H).1 m3) :
    ∀ c hdr, headerAt m3 c = some hdr →
      headerAt w.mem c = some hdr ∨ ∀ y, hdr.parent = some y → some y ∈ w.vars := by
  intro c hdr hc
  have := h3.2 c hdr hc
  rw [headerAt_make_shared] at this
  by_cases h : c = m1.blocks.length
  · simp only [h, if_true, Option.some.injEq] at this
    subst this
    exact Or.inr hp
  · simp only [h, if_false] at this
    exact Or.inl (hs.2 c hdr this)

theorem defaultCtor_prov {w w' : World} (h : defaultCtor w = some w') : Prov w w' none := by
  have he : w' = ⟨w.mem, w.vars ++ [some Inst.empty]⟩ := by
    simp only [defaultCtor, defaultCtorAt, World.setVar, World.alloc, set_append_length,
      Option.some.injEq] at h
    exact h.symm
  subst he
  refine Prov.of_parts (fun y hy => ?_) (fun c hdr hc => Or.inl hc)
  rcases List.mem_append.mp hy with h1 | h1
  · exact Or.inl (Or.inl h1)
  · exact Or.inr (Or.inl (Option.some.inj (List.mem_singleton.mp h1)))

theorem construct_prov {w w' : World} {hv : Nat} {parent : Option Nat} {d : Nat}
    (h : construct w hv parent d = some w') : Prov w w' (some hv) := by
  rw [construct_eq] at h
  cases parent with
  | none =>
    simp only [Option.some.injEq] at h
    subst h
    refine Prov.of_parts (fun y hy => ?_)
      (hdr_of_make_shared (HdrSub.self_sub _) (fun y hy => absurd hy (by simp)) (HdrSub.self_sub _))
    rcases List.mem_append.mp hy with h1 | h1
    · exact Or.inl (Or.inl h1)
    · exact Or.inr (Or.inr ⟨hv, rfl, Option.some.inj (List.mem_singleton.mp h1)⟩)
  | some t =>
    simp only at h
    obtain ⟨p, hp, he⟩ := bind_eq_some_elim h
    simp only [Option.some.injEq] at he
    subst he
    refine Prov.of_parts (fun y hy => ?_)
      (hdr_of_make_shared (HdrSub.self_sub _) (fun y hy => ?_) (HdrSub.self_sub _))
    · rcases List.mem_append.mp hy with h1 | h1
      · rcases mem_set_elim h1 with h2 | h2
        · exact Or.inl (Or.inl h2)
        · exact Or.inr (Or.inl (Option.some.inj h2))
      · exact Or.inr (Or.inr ⟨hv, rfl, Option.some.inj (List.mem_singleton.mp h1)⟩)
    · simp only [Option.some.injEq] at hy
      subst hy
      exact mem_vars_of_var hp

theorem copyCtor_prov {w w' : World} {o : Nat} (h : copyCtor w o = some w') :
    Prov w w' none := by
  rw [copyCtor_eq] at h
  obtain ⟨x, hx, h1⟩ := bind_eq_some_elim h
  obtain ⟨m1, hm1, he⟩ := bind_eq_some_elim h1
  simp only [Option.some.injEq] at he
  subst he
  refine Prov.of_parts (fun y hy => ?_) (fun c hdr hc => Or.inl ((HdrSub.of_acquire hm1).2 c hdr hc))
  rcases List.mem_append.mp hy with h1 | h1
  · exact Or.inl (Or.inl h1)
  · have := Option.some.inj (List.mem_singleton.mp h1)
    subst this
    exact Or.inl (Or.inl (mem_vars_of_var hx))

theorem moveCtor_prov {w w' : World} {o : Nat} (h : moveCtor w o = some w') :
    Prov w w' none := by
  rw [moveCtor_eq] at h
  obtain ⟨x, hx, he⟩ := bind_eq_some_elim h
  simp only [Option.some.injEq] at he
  subst he
  refine Prov.of_parts (fun y hy => ?_) (fun c hdr hc => Or.inl hc)
  rcases List.mem_append.mp hy with h1 | h1
  · rcases mem_set_elim h1 with h2 | h2
    · exact Or.inl (Or.inl h2)
    · exact Or.inr (Or.inl (Option.some.inj h2))
  · have := Option.some.inj (List.mem_singleton.mp h1)
    subst this
    exact Or.inl (Or.inl (mem_vars_of_var hx))

theorem reset_prov {w w' : World} {i : Nat} (h : reset w i = some w') : Prov w w' none := by
  obtain ⟨x, hx, _⟩ := bind_eq_some_elim (by unfold reset at h; exact h)
  rw [reset_eq hx] at h
  by_cases hz : x.m_handle = 0
  · simp only [hz, if_true, Option.some.injEq] at h
    subst h
    exact Prov.same w none
  · simp only [hz, if_false] at h
    obtain ⟨m', hd, he⟩ := bind_eq_some_elim h
    simp only [Option.some.injEq] at he
    subst he
    refine Prov.of_parts (fun y hy => ?_) (fun c hdr hc => Or.inl ((HdrSub.of_dtor hd).2 c hdr hc))
    rcases mem_set_elim hy with h2 | h2
    · exact Or.inl (Or.inl h2)
    · exact Or.inr (Or.inl (Option.some.inj h2))

theorem destroy_prov {w w' : World} {i : Nat} (h : destroy w i = some w') : Prov w w' none := by
  obtain ⟨w1, hr, _⟩ := bind_eq_some_elim (by unfold destroy at h; exact h)
  obtain ⟨x, hx, _⟩ := bind_eq_some_elim (by unfold reset at hr; exact hr)
  rw [destroy_eq hx] at h
  obtain ⟨m', hd, he⟩ := bind_eq_some_elim h
  simp only [Option.some.injEq] at he
  subst he
  refine Prov.of_parts (fun y hy => ?_) (fun c hdr hc => Or.inl ((HdrSub.of_dtor hd).2 c hdr hc))
  rcases mem_set_elim hy with h2 | h2
  · exact Or.inl (Or.inl h2)
  · exact absurd h2 (by simp)

theorem copyAssign_prov {w w' : World} {a o : Nat} (h : copyAssign w a o = some w') :
    Prov w w' none := by
  obtain ⟨w1, hr, _⟩ := bind_eq_some_elim (by unfold copyAssign at h; exact h)
  obtain ⟨xa, hxa, _⟩ := bind_eq_some_elim (by unfold reset at hr; exact hr)
  rw [copyAssign_eq o hxa] at h
  by_cases hz : xa.m_handle = 0
  · simp only [hz, if_true] at h
    obtain ⟨xo, hxo, h1⟩ := bind_eq_some_elim h
    obtain ⟨m2, hm2, h2⟩ := bind_eq_some_elim h1
    obtain ⟨m3, hm3, he⟩ := bind_eq_some_elim h2
    simp only [Option.some.injEq] at he
    subst he
    refine Prov.of_parts (fun y hy => ?_)
      (fun c hdr hc => Or.inl (((HdrSub.of_acquire hm2).chain (HdrSub.of_dtor hm3)).2 c hdr hc))
    rcases mem_set_elim hy with h2 | h2
    · exact Or.inl (Or.inl h2)
    · have := Option.some.inj h2
      subst this
      exact Or.inl (Or.inl (mem_vars_of_var hxo))
  · simp only [hz, if_false] at h
    obtain ⟨m1, hm1, h1⟩ := bind_eq_some_elim h
    obtain ⟨xo, hxo, h2⟩ := bind_eq_some_elim h1
    obtain ⟨m2, hm2, he⟩ := bind_eq_some_elim h2
    simp only [Option.some.injEq] at he
    subst he
    refine Prov.of_parts (fun y hy => ?_)
      (fun c hdr hc => Or.inl (((HdrSub.of_dtor hm1).chain (HdrSub.of_acquire hm2)).2 c hdr hc))
    rcases mem_set_elim hy with h2 | h2
    · exact Or.inl (Or.inl h2)
    · have := Option.some.inj h2
      subst this
      have hmem := mem_vars_of_var hxo
      rcases mem_set_elim hmem with h3 | h3
      · exact Or.inl (Or.inl h3)
      · exact Or.inr (Or.inl (Option.some.inj h3))

theorem moveAssign_prov {w w' : World} {a o : Nat} (h : moveAssign w a o = some w') :
    Prov w w' none := by
  obtain ⟨w1, hr, _⟩ := bind_eq_some_elim (by unfold moveAssign at h; exact h)
  obtain ⟨xa, hxa, _⟩ := bind_eq_some_elim (by unfold reset at hr; exact hr)
  rw [moveAssign_eq o hxa] at h
  by_cases hoa : o = a
  · simp only [hoa, if_true] at h
    exact reset_prov h
  · simp only [hoa, if_false] at h
    obtain ⟨xo, hxo, h1⟩ := bind_eq_some_elim h
    obtain ⟨m1, hm1, he⟩ := bind_eq_some_elim h1
    simp only [Option.some.injEq] at he
    subst he
    refine Prov.of_parts (fun y hy => ?_)
      (fun c hdr hc => Or.inl ((HdrSub.of_dtor hm1).2 c hdr hc))
    rcases mem_set_elim hy with h2 | h2
    · rcases mem_set_elim h2 with h3 | h3
      · exact Or.inl (Or.inl h3)
      · have := Option.some.inj h3
        subst this
        exact Or.inl (Or.inl (mem_vars_of_var hxo))
    · exact Or.inr (Or.inl (Option.some.inj h2))

theorem put_prov {w w' : World} {i : Nat} {parent : Option Nat} {d : Nat}
    (h : put w i parent d = some w') : Prov w w' (some 0) := by
  obtain ⟨w1, hr, _⟩ := bind_eq_some_elim (by unfold put at h; exact h)
  obtain ⟨x, hx, _⟩ := bind_eq_some_elim (by unfold reset at hr; exact hr)
  rw [put_eq parent d hx] at h
  cases parent with
  | none =>
    simp only at h
    by_cases hz : x.m_handle = 0
    · simp only [hz, if_true] at h
      obtain ⟨m3, hm3, he⟩ := bind_eq_some_elim h
      simp only [Option.some.injEq] at he
      subst he
      refine Prov.of_parts (fun y hy => ?_)
        (hdr_of_make_shared (HdrSub.self_sub _) (fun y hy => absurd hy (by simp))
          (HdrSub.of_dtor hm3))
      rcases mem_set_elim hy with h2 | h2
      · exact Or.inl (Or.inl h2)
      · exact Or.inr (Or.inr ⟨0, rfl, Option.some.inj h2⟩)
    · simp only [hz, if_false] at h
      obtain ⟨m1, hm1, he⟩ := bind_eq_some_elim h
      simp only [Option.some.injEq] at he
      subst he
      have hs := HdrSub.of_dtor hm1
      refine Prov.of_parts (fun y hy => ?_)
        (hdr_of_make_shared hs (fun y hy => absurd hy (by simp)) (HdrSub.self_sub _))
      rcases mem_set_elim hy with h2 | h2
      · exact Or.inl (Or.inl h2)
      · exact Or.inr (Or.inr ⟨0, rfl, by rw [← hs.1]; exact Option.some.inj h2⟩)
  | some t =>
    simp only at h
    by_cases hti : t = i
    · simp [hti] at h
    · simp only [hti, if_false] at h
      obtain ⟨p, hp, h1⟩ := bind_eq_some_elim h
      have hpm : ∀ y, (⟨some p, d⟩ : SharedHeader).parent = some y → some y ∈ w.vars := by
        intro y hy
        simp only [Option.some.injEq] at hy
        subst hy
        exact mem_vars_of_var hp
      by_cases hz : x.m_handle = 0
      · simp only [hz, if_true] at h1
        obtain ⟨m3, hm3, he⟩ := bind_eq_some_elim h1
        simp only [Option.some.injEq] at he
        subst he
        refine Prov.of_parts (fun y hy => ?_)
          (hdr_of_make_shared (HdrSub.self_sub _) hpm (HdrSub.of_dtor hm3))
        rcases mem_set_elim hy with h2 | h2
        · rcases mem_set_elim h2 with h3 | h3
          · exact Or.inl (Or.inl h3)
          · exact Or.inr (Or.inl (Option.some.inj h3))
        · exact Or.inr (Or.inr ⟨0, rfl, Option.some.inj h2⟩)
      · simp only [hz, if_false] at h1
        obtain ⟨m1, hm1, he⟩ := bind_eq_some_elim h1
        simp only [Option.some.injEq] at he
        subst he
        have hs := HdrSub.of_dtor hm1
        refine Prov.of_parts (fun y hy => ?_)
          (hdr_of_make_shared hs hpm (HdrSub.self_sub _))
        rcases mem_set_elim hy with h2 | h2
        · rcases mem_set_elim h2 with h3 | h3
          · exact Or.inl (Or.inl h3)
          · exact Or.inr (Or.inl (Option.some.inj h3))
        · exact Or.inr (Or.inr ⟨0, rfl, by rw [← hs.1]; exact Option.some.inj h2⟩)

theorem getParentHandle_prov {w w' : World} {i : Nat} (h : getParentHandle w i = some w') :
    Prov w w' none := by
  unfold getParentHandle at h
  obtain ⟨x, hx, h1⟩ := bind_eq_some_elim h
  obtain ⟨b, hb, h2⟩ := bind_eq_some_elim h1
  obtain ⟨blk, hblk, h3⟩ := bind_eq_some_elim h2
  obtain ⟨p, hp, h4⟩ := bind_eq_some_elim h3
  obtain ⟨m1, hm1, he⟩ := bind_eq_some_elim h4
  simp only [Option.some.injEq, World.setVar, World.alloc, set_append_length] at he
  subst he
  intro y hy
  rcases hy with hy | ⟨c, hdr, hc, hpc⟩
  · rcases List.mem_append.mp hy with h5 | h5
    · exact Or.inl (Or.inl h5)
    · have := Option.some.inj (List.mem_singleton.mp h5)
      subst this
      exact Or.inl (Or.inr ⟨b, blk.header, headerAt_eq_some.mpr ⟨blk, hblk, rfl⟩, hp⟩)
  · exact Or.inl (Or.inr ⟨c, hdr, (HdrSub.of_acquire hm1).2 c hdr hc, hpc⟩)

/-- Where the instances come from after one public operation. -/
theorem step_prov {w w' : World} {op : Op} (h : step w op = some w') :
    ∀ y, IsInst w' y → IsInst w y ∨ y = ⟨none, 0⟩ ∨
      (∃ hv, op.freshHandle = some hv ∧ y = ⟨some w.mem.blocks.length, hv⟩) ∨
      ∃ i v x, op.store = some (i, v) ∧ w.var i = some x ∧ y = ⟨x.m_control, v⟩ := by
  have key : ∀ fresh, op.freshHandle = fresh → Prov w w' fresh → ∀ y, IsInst w' y →
      IsInst w y ∨ y = ⟨none, 0⟩ ∨
      (∃ hv, op.freshHandle = some hv ∧ y = ⟨some w.mem.blocks.length, hv⟩) ∨
      ∃ i v x, op.store = some (i, v) ∧ w.var i = some x ∧ y = ⟨x.m_control, v⟩ := by
    intro fresh hf hp y hy
    rcases hp y hy with h1 | h1 | ⟨hv, h2, h3⟩
    · exact Or.inl h1
    · exact Or.inr (Or.inl h1)
    · exact Or.inr (Or.inr (Or.inl ⟨hv, by rw [hf, h2], h3⟩))
  have store : ∀ i v, op.store = some (i, v) → ∀ y, IsInst w' y →
      IsInst w y ∨ y = ⟨none, 0⟩ ∨
      (∃ hv, op.freshHandle = some hv ∧ y = ⟨some w.mem.blocks.length, hv⟩) ∨
      ∃ i v x, op.store = some (i, v) ∧ w.var i = some x ∧ y = ⟨x.m_control, v⟩ := by
    intro i v hs y hy
    obtain ⟨x, hx, he⟩ := store_mem hs h
    subst he
    rcases hy with hy | ⟨c, hdr, hcc, hpc⟩
    · rcases mem_set_elim hy with h2 | h2
      · exact Or.inl (Or.inl h2)
      · exact Or.inr (Or.inr (Or.inr ⟨i, v, x, hs, hx, Option.some.inj h2⟩))
    · exact Or.inl (Or.inr ⟨c, hdr, hcc, hpc⟩)
  cases op with
  | defaultCtor => exact key none rfl (defaultCtor_prov h)
  | construct hv p d => exact key (some hv) rfl (construct_prov h)
  | copyCtor o => exact key none rfl (copyCtor_prov h)
  | moveCtor o => exact key none rfl (moveCtor_prov h)
  | copyAssign a o => exact key none rfl (copyAssign_prov h)
  | moveAssign a o => exact key none rfl (moveAssign_prov h)
  | reset i => exact key none rfl (reset_prov h)
  | put i p d => exact key (some 0) rfl (put_prov h)
  | destroy i => exact key none rfl (destroy_prov h)
  | getParentHandle i => exact key none rfl (getParentHandle_prov h)
  | fill i v => exact store i v rfl
  | arrowStore i v => exact store i v rfl

/-- One public operation keeps: an instance with a non-null handle has a
control block, when a store writes the null handle or is made into a variable
that holds a control block. -/
theorem nonnull_ctl_step {w w' : World} {op : Op} (h : step w op = some w')
    (hst : ∀ i v, op.store = some (i, v) → ownedTarget w i v = true)
    (hw : ∀ y, IsInst w y → y.m_handle ≠ 0 → y.m_control ≠ none) :
    ∀ y, IsInst w' y → y.m_handle ≠ 0 → y.m_control ≠ none := by
  intro y hy hh
  rcases step_prov h y hy with h1 | h1 | ⟨hv, _, h1⟩ | ⟨i, v, x, hs, hx, h1⟩
  · exact hw y h1 hh
  · rw [h1] at hh
    exact absurd rfl hh
  · rw [h1]
    simp
  · have hok := hst i v hs
    rw [h1] at hh ⊢
    simp only [ownedTarget, hx, Option.some_bind, decide_eq_true_eq] at hok
    rcases hok with hz | hc
    · exact absurd hz hh
    · exact hc

theorem nonnull_ctl_run {ops : List Op} : ∀ {w w' : World}, run w ops = some w' →
    storesOK ownedTarget w ops = true →
    (∀ y, IsInst w y → y.m_handle ≠ 0 → y.m_control ≠ none) →
    ∀ y, IsInst w' y → y.m_handle ≠ 0 → y.m_control ≠ none := by
  induction ops with
  | nil =>
    intro w w' h _ hw
    simp only [run, Option.some.injEq] at h
    subst h
    exact hw
  | cons op ops ih =>
    intro w w' h hst hw
    obtain ⟨w1, h1, h2⟩ := bind_eq_some_elim (by unfold run at h; exact h)
    obtain ⟨hok, hst1⟩ := storesOK_cons hst h1
    exact ih h2 hst1 (nonnull_ctl_step h1 hok hw)

theorem IsInst.not_init (y : Inst) : ¬ IsInst World.init y := by
  rintro (h | ⟨c, hdr, hc, _⟩)
  · simp [World.init] at h
  · simp [World.init, headerAt, blockAt] at hc

/-! ### The conversion of a vector of handles -/

theorem transform_spec (w : World) : ∀ (hs : List Nat) (buf : List Nat) (pos : Nat),
    (∀ i ∈ hs, ∃ x, w.var i = some x) → pos + hs.length ≤ buf.length →
    ∃ raw, transform w hs buf pos = some (raw, w) ∧ raw.length = buf.length ∧
      (∀ k, k < pos → raw[k]? = buf[k]?) ∧
      (∀ k, k < hs.length → raw[pos + k]? = (hs[k]?).bind (get w)) := by
  intro hs
  induction hs with
  | nil =>
    intro buf pos _ _
    exact ⟨buf, rfl, rfl, fun _ _ => rfl, fun k hk => absurd hk (by simp)⟩
  | cons i rest ih =>
    intro buf pos hlive hlen
    obtain ⟨x, hx⟩ := hlive i (by simp)
    simp only [List.length_cons] at hlen
    obtain ⟨raw, hr, hl, hlow, hel⟩ := ih (buf.set pos x.m_handle) (pos + 1)
      (fun j hj => hlive j (by simp [hj])) (by simp; omega)
    refine ⟨raw, ?_, by simpa using hl, ?_, ?_⟩
    · simp only [transform, get, hx, Option.map_some', Option.some_bind]
      exact hr
    · intro k hk
      rw [hlow k (by omega), List.getElem?_set_ne (by omega)]
    · intro k hk
      cases k with
      | zero =>
        simp only [Nat.add_zero, List.getElem?_cons_zero, Option.some_bind]
        rw [hlow pos (by omega)]
        have : pos < buf.length := by omega
        simp [get, hx, List.getElem?_set, this]
      | succ k =>
        simp only [List.length_cons] at hk
        have := hel k (by omega)
        rw [show pos + (k + 1) = pos + 1 + k by omega, this]
        simp

/-! ### Parent accessors -/

/-- Along a run, the header of a block stays what it is until the block is
freed, and a freed block stays freed. -/
theorem run_header_mono {ops : List Op} : ∀ {w w' : World}, WF w → run w ops = some w' →
    ∀ b, b < w.mem.blocks.length →
      headerAt w'.mem b = none ∨ headerAt w'.mem b = headerAt w.mem b := by
  induction ops with
  | nil =>
    intro w w' _ h b _
    simp only [run, Option.some.injEq] at h
    subst h
    exact Or.inr rfl
  | cons op ops ih =>
    intro w w' hwf h b hb
    obtain ⟨w1, h1, h2⟩ := bind_eq_some_elim (by unfold run at h; exact h)
    have hwf1 := step_wf hwf h1
    obtain ⟨hle, hmono⟩ := step_header_mono hwf h1
    have hb1 : b < w1.mem.blocks.length := lt_of_lt_of_le hb hle
    rcases ih hwf1 h2 b hb1 with h3 | h3
    · exact Or.inl h3
    · rcases hmono b hb with h4 | h4
      · exact Or.inl (h3.trans h4)
      · exact Or.inr (h3.trans h4)

/-- Releasing a variable that is not the sole owner of a block calls no deleter. -/
theorem release_quiet {w : World} (hwf : WF w) {j : Nat} {y : Inst} (hy : w.var j = some y)
    (hq : ∀ P blkP, y.m_control = some P → blockAt w.mem P = some blkP → blkP.useCount ≠ 1) :
    (∃ w3, reset w j = some w3 ∧ w3.mem.log = w.mem.log) ∧
    (∃ w3, destroy w j = some w3 ∧ w3.mem.log = w.mem.log) := by
  have hnew : ∀ m' new, Cascade w.mem y m' new → new = [] := by
    intro m' new hcas
    cases hc : y.m_control with
    | none => exact (hcas.noctl hc).1
    | some P =>
      obtain ⟨blkP, hP⟩ := Option.ne_none_iff_exists'.mp (hwf.var_live hy hc)
      exact (hcas.quiet P blkP hc hP (hq P blkP hc hP)).1
  constructor
  · obtain ⟨w3, new, hr, _, hsf, h0, h1⟩ := reset_ok hwf hy
    refine ⟨w3, hr, ?_⟩
    by_cases hz : y.m_handle = 0
    · rw [(h0 hz).1]
    · rw [hsf.log_eq, hnew _ _ (h1 hz).2, List.append_nil]
  · obtain ⟨w3, new, hr, _, hsf, _, hcas⟩ := destroy_ok hwf hy
    exact ⟨w3, hr, by rw [hsf.log_eq, hnew _ _ hcas, List.append_nil]⟩

/-- A block whose header is the parent of a live block and that a variable
points to has at least two owners. -/
theorem parent_and_var_count {w : World} (hwf : WF w) {j c P : Nat} {y : Inst}
    {blk blkP : Block} (hy : w.var j = some y) (hyc : y.m_control = some P)
    (hc : blockAt w.mem c = some blk) (hp : ctlOf blk.header.parent = some P)
    (hP : blockAt w.mem P = some blkP) : 2 ≤ blkP.useCount := by
  have h1 := hwf.inv.count_eq P blkP hP
  have h2 : 0 < extRefs w.vars P :=
    extRefs_pos_iff.mpr ⟨some y, mem_vars_of_var hy, by simpa [ctlOf] using hyc⟩
  have h3 := heapRefs_pos hc hp
  omega

/-- The result of `getParentHandle()`. -/
theorem getParentHandle_eq {w : World} (hwf : WF w) {i b : Nat} {x p : Inst} {blk : Block}
    (hx : w.var i = some x) (hc : x.m_control = some b) (hb : blockAt w.mem b = some blk)
    (hp : blk.header.parent = some p) :
    ∃ m1, acquire w.mem p.m_control = some m1 ∧
      getParentHandle w i = some ⟨m1, w.vars ++ [some p]⟩ ∧ m1.log = w.mem.log ∧
      (p.m_control = none → m1 = w.mem) ∧
      (∀ P blkP, p.m_control = some P → blockAt w.mem P = some blkP →
        m1 = setCount w.mem P blkP (blkP.useCount + 1)) := by
  have hlive : ∀ P, p.m_control = some P → blockAt w.mem P ≠ none := fun P hP =>
    (hwf.inv.parent_lt b blk P hb (by simpa [hp, ctlOf] using hP)).2
  cases hpc : p.m_control with
  | none =>
    refine ⟨w.mem, by simp [acquire], ?_, rfl, fun _ => rfl, fun P blkP h => absurd h (by simp)⟩
    simp [getParentHandle, hx, hc, hb, hp, hpc, acquire, World.setVar, World.alloc,
      set_append_length]
    cases p
    simp_all
  | some P =>
    obtain ⟨blkP, hP⟩ := Option.ne_none_iff_exists'.mp (hlive P hpc)
    refine ⟨setCount w.mem P blkP (blkP.useCount + 1), by simp [acquire, hP], ?_, rfl,
      fun h => absurd h (by simp), ?_⟩
    · simp [getParentHandle, hx, hc, hb, hp, hpc, acquire, hP, World.setVar, World.alloc,
        set_append_length]
      cases p
      simp_all
    · intro P' blkP' h1 h2
      simp only [Option.some.injEq] at h1
      subst h1
      rw [hP] at h2
      simp only [Option.some.injEq] at h2
      subst h2
      rfl

/-! ### Agreement of the owners of a block -/

theorem Holds.isInst {w : World} {b : Nat} {y : Inst} (h : Holds w b y) : IsInst w y := h.2

/-- Operations other than a store into a handle keep the agreement of the
owners of every block. -/
theorem agree_step {w w' : World} {op : Op} (hwf : WF w) (ha : Agree w)
    (h : step w op = some w') (hop : op.store = none) : Agree w' := by
  have hold : ∀ y, IsInst w y → y.m_control ≠ some w.mem.blocks.length := by
    intro y hy hc
    have := headerAt_lt (Holds.live hwf (⟨hc, hy⟩ : Holds w _ y))
    omega
  have nostore : ∀ {i v : Nat}, op.store ≠ some (i, v) := by
    intro i v e
    rw [hop] at e
    exact absurd e (by simp)
  intro b y1 y2 h1 h2
  rcases step_prov h y1 h1.2 with p1 | p1 | ⟨hv1, hf1, p1⟩ | ⟨i, v, _, hfill, _⟩
  · rcases step_prov h y2 h2.2 with p2 | p2 | ⟨hv2, hf2, p2⟩ | ⟨i, v, _, hfill, _⟩
    · exact ha b y1 y2 ⟨h1.1, p1⟩ ⟨h2.1, p2⟩
    · have := h2.1
      rw [p2] at this
      exact absurd this (by simp)
    · have hb := h2.1
      rw [p2] at hb
      simp only [Option.some.injEq] at hb
      exact absurd (hb ▸ h1.1) (hold y1 p1)
    · exact absurd hfill nostore
  · have := h1.1
    rw [p1] at this
    exact absurd this (by simp)
  · have hb := h1.1
    rw [p1] at hb
    simp only [Option.some.injEq] at hb
    rcases step_prov h y2 h2.2 with p2 | p2 | ⟨hv2, hf2, p2⟩ | ⟨i, v, _, hfill, _⟩
    · exact absurd (hb ▸ h2.1) (hold y2 p2)
    · have := h2.1
      rw [p2] at this
      exact absurd this (by simp)
    · rw [hf1] at hf2
      simp only [Option.some.injEq] at hf2
      rw [p1, p2, hf2]
    · exact absurd hfill nostore
  · exact absurd hfill nostore

/-- A store into the handle of a variable that shares its block with no other
instance keeps the agreement. -/
theorem agree_store {w w' : World} {op : Op} {i v : Nat} (hwf : WF w) (ha : Agree w)
    (hs : op.store = some (i, v)) (h : step w op = some w')
    (hsole : soleTarget w i v = true) : Agree w' := by
  obtain ⟨x, hx, he⟩ := store_mem hs h
  subst he
  simp only [soleTarget, hx, Option.some_bind, decide_eq_true_eq] at hsole
  have hxi := var_eq_some.mp hx
  have key : ∀ b y, Holds ⟨w.mem, w.vars.set i (some ⟨x.m_control, v⟩)⟩ b y →
      (y = ⟨x.m_control, v⟩ ∧ x.m_control = some b) ∨ (Holds w b y ∧ x.m_control ≠ some b) := by
    intro b y hy
    have hsole' : x.m_control = some b → ∃ blk, blockAt w.mem b = some blk ∧
        extRefs w.vars b + heapRefs w.mem b ≤ 1 ∧ 0 < extRefs w.vars b := by
      intro hB
      obtain ⟨blk, hblk⟩ := Option.ne_none_iff_exists'.mp (hwf.var_live hx hB)
      rw [hB, use_count_some hblk] at hsole
      have := hwf.inv.count_eq b blk hblk
      exact ⟨blk, hblk, by omega,
        extRefs_pos_iff.mpr ⟨some x, mem_vars_of_var hx, by simpa [ctlOf] using hB⟩⟩
    rcases hy.2 with hv | ⟨c, hdr, hcc, hp⟩
    · obtain ⟨j, hj⟩ := List.getElem?_of_mem hv
      by_cases hji : j = i
      · subst hji
        have hlt := var_lt hx
        simp only [List.getElem?_set, hlt, if_true, Option.some.injEq] at hj
        left
        refine ⟨hj.symm, ?_⟩
        have := hy.1
        rw [← hj] at this
        exact this
      · rw [List.getElem?_set_ne (fun e => hji e.symm)] at hj
        right
        refine ⟨⟨hy.1, Or.inl (List.getElem?_mem hj)⟩, ?_⟩
        intro hB
        obtain ⟨_, _, hle, _⟩ := hsole' hB
        have := extRefs_two hxi hj (fun e => hji e.symm) hB hy.1
        omega
    · right
      refine ⟨⟨hy.1, Or.inr ⟨c, hdr, hcc, hp⟩⟩, ?_⟩
      intro hB
      obtain ⟨_, _, hle, hpos⟩ := hsole' hB
      obtain ⟨blkc, hbc, hhc⟩ := headerAt_eq_some.mp hcc
      have hpos2 : 0 < heapRefs w.mem b :=
        heapRefs_pos hbc (b := b) (by rw [hhc, hp]; simpa [ctlOf] using hy.1)
      omega
  intro b y1 y2 h1 h2
  rcases key b y1 h1 with ⟨e1, b1⟩ | ⟨o1, b1⟩
  · rcases key b y2 h2 with ⟨e2, _⟩ | ⟨_, b2⟩
    · rw [e1, e2]
    · exact absurd b1 b2
  · rcases key b y2 h2 with ⟨_, b2⟩ | ⟨o2, _⟩
    · exact absurd b2 b1
    · exact ha b y1 y2 o1 o2

theorem agree_run {ops : List Op} : ∀ {w w' : World}, WF w → Agree w →
    run w ops = some w' → storesOK soleTarget w ops = true → Agree w' := by
  induction ops with
  | nil =>
    intro w w' _ ha h _
    simp only [run, Option.some.injEq] at h
    subst h
    exact ha
  | cons op ops ih =>
    intro w w' hwf ha h hst
    obtain ⟨w1, h1, h2⟩ := bind_eq_some_elim (by unfold run at h; exact h)
    obtain ⟨hok, hst1⟩ := storesOK_cons hst h1
    refine ih (step_wf hwf h1) ?_ h2 hst1
    cases hs : op.store with
    | none => exact agree_step hwf ha h1 hs
    | some p => exact agree_store hwf ha hs h1 (hok p.1 p.2 hs)

theorem Agree.at_init : Agree World.init := by
  intro b y1 _ h1 _
  exact absurd h1.2 (IsInst.not_init y1)

/-! ### Totality and co-owners -/

/-- A use count of one belongs to a live block, whose header `internalDestroy`
can read. -/
theorem internalDestroy_of_sole (m : Mem) (y : Inst) (h : use_count m y.m_control = 1) :
    y.m_control ≠ none ∧ ∃ m', internalDestroy m y = some m' := by
  cases hc : y.m_control with
  | none => simp [hc, use_count] at h
  | some b =>
    cases hb : blockAt m b with
    | none => simp [hc, use_count, hb] at h
    | some blk => exact ⟨by simp, _, internalDestroy_eq hc hb⟩

/-- The call `reset()` on a variable without control block, whatever its handle. -/
theorem reset_noctl {w : World} {i : Nat} {x : Inst} (hx : w.var i = some x)
    (hc : x.m_control = none) :
    reset w i = some ⟨w.mem, w.vars.set i (some ⟨none, 0⟩)⟩ := by
  rw [reset_eq hx]
  by_cases hz : x.m_handle = 0
  · simp only [hz, if_true]
    have : (⟨none, 0⟩ : Inst) = x := by
      cases x with
      | mk c hv =>
        simp only at hz hc
        rw [hz, hc]
    rw [this, set_eq_self _ _ _ (var_eq_some.mp hx)]
  · simp only [hz, if_false, dtorWith_eq, hc, Option.some_bind, Inst.empty]

/-- Copy assignment between two variables that share a block for a non-null
handle changes nothing. -/
theorem copyAssign_coowner {w : World} (hwf : WF w) {a b B X : Nat} (hne : a ≠ b)
    (ha : w.var a = some ⟨some B, X⟩) (hb : w.var b = some ⟨some B, X⟩) (hX : X ≠ 0) :
    copyAssign w a b = some w := by
  obtain ⟨blk, hB, h2⟩ := shared_not_sole hwf ha hb hne rfl rfl
  have hd := dtor_shared hwf ha rfl hB (by omega)
  have hlive : blockAt w.mem B ≠ none := by simp [hB]
  have hba : b ≠ a := fun e => hne e.symm
  rw [copyAssign_eq b ha]
  simp only [hX, if_false, hd, Option.some_bind]
  rw [var_mk_set']
  simp only [hba, if_false, var_mk_vars, hb, Option.some_bind, acquire,
    blockAt_setCount _ _ _ _ _ hlive, if_true]
  have h1 : blk.useCount - 1 + 1 = blk.useCount := by omega
  have hblocks : ((w.mem.blocks.set B (some { blk with useCount := blk.useCount - 1 })).set B
      (some { blk with useCount := blk.useCount })) = w.mem.blocks := by
    rw [List.set_set]
    exact set_eq_self _ _ _ (by
      have := blockAt_eq_some.mp hB
      simpa using this)
  have hvars : w.vars.set a (some ⟨some B, X⟩) = w.vars := set_eq_self _ _ _ (var_eq_some.mp ha)
  simp only [setCount, h1, hblocks, hvars]

/-- Move assignment between two variables that share a block for a non-null
handle: the use count drops by one and the source is emptied. -/
theorem moveAssign_coowner {w : World} (hwf : WF w) {a b B X : Nat} (hne : a ≠ b)
    (ha : w.var a = some ⟨some B, X⟩) (hb : w.var b = some ⟨some B, X⟩) :
    ∃ blk, blockAt w.mem B = some blk ∧ 2 ≤ blk.useCount ∧
      moveAssign w a b = some ⟨setCount w.mem B blk (blk.useCount - 1),
        (w.vars.set a (some ⟨some B, X⟩)).set b (some ⟨none, 0⟩)⟩ := by
  obtain ⟨blk, hB, h2⟩ := shared_not_sole hwf ha hb hne rfl rfl
  have hd := dtor_shared hwf ha rfl hB (by omega)
  have hba : b ≠ a := fun e => hne e.symm
  refine ⟨blk, hB, h2, ?_⟩
  rw [moveAssign_eq b ha]
  simp only [hba, if_false, hb, Option.some_bind, hd, Inst.empty]

/-- When the variable holds a non-null handle or no control block, `reset()`
is the destructor of its value, leaving the variable empty. -/
theorem reset_eq_release {w : World} {a : Nat} {xa : Inst} (hx : w.var a = some xa)
    (hpair : xa.m_handle ≠ 0 ∨ xa.m_control = none) :
    reset w a = (dtorWith release w.mem xa).bind fun m' =>
      some ⟨m', w.vars.set a (some Inst.empty)⟩ := by
  rw [reset_eq hx]
  by_cases h : xa.m_handle = 0
  · have hc : xa.m_control = none := hpair.resolve_left (fun hn => hn h)
    have hz : (⟨none, 0⟩ : Inst) = xa := by
      cases xa with
      | mk c hv =>
        simp only at h hc
        rw [h, hc]
    simp only [h, if_true, dtorWith_eq, hc, Option.some_bind, Inst.empty]
    rw [hz, set_eq_self _ _ _ (var_eq_some.mp hx)]
  · simp only [h, if_false]

/-! ## The claims -/


/-- C1 (single destruction).  In a world reached by public operations a handle
is built for a non-null value `h`, which allocates control block
`w0.mem.blocks.length`.  After any further sequence of public operations, in
which a store into a handle from outside the class (there is none among the
constructions, assignments, `reset()` calls and destructions) is only made into
a null handle, the deleter stored in that block has received no call as long as
some instance (a variable, or the parent member of a live header) still points
to the block, and exactly one call, for `h`, once no instance points to it.
This holds after every prefix of the sequence, so the one call is made by the
operation that releases the last instance and not earlier. -/
theorem single_destruction (pre ops : List Op) (w0 w1 w' : World) (h : Nat)
    (parent : Option Nat) (d : Nat)
    (h0 : run World.init pre = some w0) (hh : h ≠ 0)
    (hc : construct w0 h parent d = some w1) (hr : run w1 ops = some w')
    (hst : storesOK nullTarget w1 ops = true) :
    ((∃ y, Holds w' w0.mem.blocks.length y) → callsOf w'.mem w0.mem.blocks.length = []) ∧
    ((¬ ∃ y, Holds w' w0.mem.blocks.length y) →
      callsOf w'.mem w0.mem.blocks.length =
        [⟨w0.mem.blocks.length, d, (parent.bind w0.var).map Inst.m_handle, h⟩]) := by
  obtain ⟨hwf1, hf1⟩ := Fam.init_construct (WF.run WF.init h0) hc
  obtain ⟨hwf', hf'⟩ := Fam.run_fam hh hwf1 hf1 hr hst
  constructor
  · rintro ⟨y, hy⟩
    rcases hf'.2 with ⟨_, _, hnone⟩ | ⟨hdead, _⟩
    · exact hnone
    · exact absurd hdead (hy.live hwf')
  · intro hno
    rcases hf'.2 with ⟨hlive, _, _⟩ | ⟨_, hone⟩
    · exact absurd (Holds.exists_of_live hwf' (by simp [hlive])) hno
    · exact hone

/-- Witness of C1: a handle for 42 is copied, moved and assigned; its deleter
is called once, by the last `reset()`. -/
theorem single_destruction_witness :
    run World.init [] = some World.init ∧ 42 ≠ 0 ∧
      construct World.init 42 none 100 = some exFamilyStart ∧
      run exFamilyStart exFamilyOps = some exFamilyEnd ∧
      storesOK nullTarget exFamilyStart exFamilyOps = true ∧
      callsOf exFamilyEnd.mem 0 = [⟨0, 100, none, 42⟩] :=
  ⟨rfl, by decide, by decide, by decide, by decide,
    (single_destruction [] exFamilyOps World.init exFamilyStart exFamilyEnd 42 none 100 rfl
      (by decide)
      (by decide) (by decide) (by decide)).2 (by
        rintro ⟨y, hy, hv | ⟨c, hdr, hc, hp⟩⟩
        · simp [exFamilyEnd] at hv
          subst hv
          simp at hy
        · match c with
          | 0 => simp [exFamilyEnd, headerAt, blockAt] at hc
          | n + 1 => simp [exFamilyEnd, headerAt, blockAt] at hc)⟩

/-- C3, the scenario with a null child handle (`p = 7`, `c = 0`): releasing
the parent variable makes no call; destroying the child afterwards frees both
blocks with the one call `parent.destroy( 7 )` and no call of the child
deleter; and `reset()` on the child changes nothing, so the log stays empty. -/
theorem cascade_null_child :
    run World.init (cascadeSetup 7 0 100 200) = some (cascadeWorld 7 0 100 200) ∧
    (run (cascadeWorld 7 0 100 200) [.destroy 0]).map (fun w => w.mem.log) = some [] ∧
    (run (cascadeWorld 7 0 100 200) [.destroy 0, .destroy 2]).map (fun w => w.mem.log)
      = some [⟨0, 100, none, 7⟩] ∧
    (run (cascadeWorld 7 0 100 200) [.reset 0, .reset 2]).map (fun w => w.mem.log) = some [] := by
  decide

/-- C3 (cascade scenario), for a non-null child handle.  With a parent of
non-null value `p` and a child of non-null value `c` built with that parent: releasing the variable `parent`
(by destruction or by `reset()`) while the child exists makes no deleter call;
releasing the child afterwards makes exactly the calls `child.destroy(p, c)`
and then `parent.destroy(p)`. -/
theorem cascade_scenario (p c dP dC : Nat) (hp : p ≠ 0) (hc : c ≠ 0) :
    run World.init (cascadeSetup p c dP dC) = some (cascadeWorld p c dP dC) ∧
    (∃ w1 w2, destroy (cascadeWorld p c dP dC) 0 = some w1 ∧ w1.mem.log = [] ∧
      destroy w1 2 = some w2 ∧ w2.mem.log = [⟨1, dC, some p, c⟩, ⟨0, dP, none, p⟩]) ∧
    (∃ w1 w2, reset (cascadeWorld p c dP dC) 0 = some w1 ∧ w1.mem.log = [] ∧
      reset w1 2 = some w2 ∧ w2.mem.log = [⟨1, dC, some p, c⟩, ⟨0, dP, none, p⟩]) := by
  obtain ⟨p', rfl⟩ := Nat.exists_eq_succ_of_ne_zero hp
  obtain ⟨c', rfl⟩ := Nat.exists_eq_succ_of_ne_zero hc
  exact ⟨rfl, ⟨_, _, rfl, rfl, rfl, rfl⟩, ⟨_, _, rfl, rfl, rfl, rfl⟩⟩

/-- Witness of C3 at `p = 7`, `c = 42`. -/
theorem cascade_scenario_witness :
    7 ≠ 0 ∧ 42 ≠ 0 ∧
    run World.init (cascadeSetup 7 42 100 200) = some (cascadeWorld 7 42 100 200) ∧
    (∃ w1 w2, destroy (cascadeWorld 7 42 100 200) 0 = some w1 ∧ w1.mem.log = [] ∧
      destroy w1 2 = some w2 ∧ w2.mem.log = [⟨1, 200, some 7, 42⟩, ⟨0, 100, none, 7⟩]) ∧
    (∃ w1 w2, reset (cascadeWorld 7 42 100 200) 0 = some w1 ∧ w1.mem.log = [] ∧
      reset w1 2 = some w2 ∧ w2.mem.log = [⟨1, 200, some 7, 42⟩, ⟨0, 100, none, 7⟩]) :=
  ⟨by decide, by decide, cascade_scenario 7 42 100 200 (by decide) (by decide)⟩

/-- C4 (self-assignment), the code at the failing input: variable 0 is the sole
owner of handle 42; both `a = a` and `a = std::move( a )` call the deleter and
leave `a` empty, with its control block freed. -/
theorem self_assign_sole_owner :
    run World.init [.construct 42 none 100] = some exFamilyStart ∧
    copyAssign exFamilyStart 0 0 = some ⟨⟨[none], [⟨0, 100, none, 42⟩]⟩, [some ⟨none, 0⟩]⟩ ∧
    moveAssign exFamilyStart 0 0 = some ⟨⟨[none], [⟨0, 100, none, 42⟩]⟩, [some ⟨none, 0⟩]⟩ := by
  decide

/-- C5 (`reset()` of a non-null handle).  In a world reached by public
operations variable `i` holds a non-null handle and points to control block `b`.
Then `reset()` returns; the deleter of `b` is called, once and first, if and
only if the use count of `b` was one; the call is `destroy( handle )` when the
header has no parent and `destroy( parent.get(), handle )` when it has one;
afterwards the variable is empty and the use count of `b` is one less. -/
theorem reset_nonnull (pre : List Op) (w : World) (i b : Nat) (x : Inst)
    (h0 : run World.init pre = some w) (hx : w.var i = some x) (hh : x.m_handle ≠ 0)
    (hc : x.m_control = some b) :
    ∃ blk w', blockAt w.mem b = some blk ∧ reset w i = some w' ∧
      w'.var i = some ⟨none, 0⟩ ∧
      use_count w'.mem (some b) + 1 = use_count w.mem (some b) ∧
      callsOf w.mem b = [] ∧
      (use_count w.mem (some b) = 1 →
        callsOf w'.mem b =
          [⟨b, blk.header.deleter, blk.header.parent.map Inst.m_handle, x.m_handle⟩] ∧
        ∃ rest, w'.mem.log = w.mem.log ++
          ⟨b, blk.header.deleter, blk.header.parent.map Inst.m_handle, x.m_handle⟩ :: rest) ∧
      (use_count w.mem (some b) ≠ 1 → w'.mem.log = w.mem.log) := by
  have hwf := WF.run WF.init h0
  obtain ⟨blk, hb, _⟩ := (hwf.inv.take_out (var_eq_some.mp hx)).own_block hc
  obtain ⟨w', new, hr, _, hsf, _, hcase⟩ := reset_ok hwf hx
  obtain ⟨hvars, hcas⟩ := hcase hh
  have hold : callsOf w.mem b = [] := filter_block_eq_nil fun e he heb => by
    have := (hwf.log_ok e he).1
    rw [heb, hb] at this
    exact absurd this (by simp)
  have hcalls := cascade_calls_own (hwf.inv.take_out (var_eq_some.mp hx)) hcas hc hb
  refine ⟨blk, w', hb, hr, ?_, hcas.own b hc, hold, ?_, ?_⟩
  · have : w' = ⟨w'.mem, w.vars.set i (some Inst.empty)⟩ := by rw [← hvars]
    rw [this, var_mk_set']
    simp [var_lt hx, Inst.empty]
  · intro h1
    rw [use_count_some hb] at h1
    constructor
    · rw [callsOf_append w.mem w'.mem new b hsf.log_eq, hold, hcalls]
      simp [hh, h1, callOf]
    · obtain ⟨rest, hrest⟩ := hcas.first b blk hc hb hh h1
      exact ⟨rest, by rw [hsf.log_eq, hrest]; rfl⟩
  · intro h1
    rw [use_count_some hb] at h1
    rw [hsf.log_eq, (hcas.quiet b blk hc hb h1).1, List.append_nil]

/-- Witness of C5: `reset()` of the sole owner of handle 42 calls
`destroy( 42 )` and leaves the variable empty. -/
theorem reset_nonnull_witness :
    ∃ w', reset exFamilyStart 0 = some w' ∧ w'.var 0 = some ⟨none, 0⟩ ∧
      use_count w'.mem (some 0) + 1 = 1 ∧
      callsOf w'.mem 0 = [⟨0, 100, none, 42⟩] := by
  obtain ⟨blk, w', hb, hr, hv, hu, _, h1, _⟩ :=
    reset_nonnull [.construct 42 none 100] exFamilyStart 0 0 ⟨some 0, 42⟩ (by decide) (by decide)
      (by decide) rfl
  have hblk : blk = ⟨1, ⟨none, 100⟩⟩ := by
    have h : blockAt exFamilyStart.mem 0 = some ⟨1, ⟨none, 100⟩⟩ := by decide
    rw [h] at hb
    exact (Option.some.inj hb).symm
  subst hblk
  exact ⟨w', hr, hv, hu, (h1 (by decide)).1⟩

/-- C6 (`reset()` of a null handle).  When the handle of variable `i` is null,
`reset()` changes nothing: no deleter call, the same variables (so the same
control-block reference) and the same heap (so the same use counts and parent
references). -/
theorem reset_null_noop (w : World) (i : Nat) (x : Inst) (hx : w.var i = some x)
    (h0 : x.m_handle = 0) : reset w i = some w :=
  reset_null_handle w i x hx h0

/-- Witness of C6: after `put( parent )` that was never filled the variable
still holds its block, and the block its parent, after `reset()`. -/
theorem reset_null_noop_witness :
    run World.init [.construct 7 none 100, .copyCtor 0, .defaultCtor, .put 2 (some 1) 200,
      .destroy 0] = some exUnfilled ∧
    exUnfilled.var 2 = some ⟨some 1, 0⟩ ∧ reset exUnfilled 2 = some exUnfilled :=
  ⟨by decide, by decide, reset_null_noop exUnfilled 2 ⟨some 1, 0⟩ (by decide) rfl⟩

/-- C7 (move empties the source).  Move-constructing a new variable from
variable `a`: the new variable gets the handle and the control-block reference
of `a`, `a` becomes empty, the heap (hence every use count) and the log are
unchanged; and in every world where `a` is empty, `reset()` and the destruction
of `a` make no deleter call and leave the heap unchanged. -/
theorem move_empties_source (w : World) (a : Nat) (x : Inst) (hx : w.var a = some x) :
    (∃ w', moveCtor w a = some w' ∧ w'.var w.vars.length = some x ∧
      w'.var a = some ⟨none, 0⟩ ∧ w'.mem = w.mem) ∧
    (∀ v : World, v.var a = some ⟨none, 0⟩ →
      reset v a = some v ∧ destroy v a = some { v with vars := v.vars.set a none }) := by
  constructor
  · obtain ⟨xc, xh⟩ := x
    have hlt := var_lt hx
    refine ⟨⟨w.mem, w.vars.set a (some Inst.empty) ++ [some ⟨xc, xh⟩]⟩, ?_, ?_, ?_, rfl⟩
    · rw [moveCtor_eq]; simp [hx]
    · unfold World.var
      have : (w.vars.set a (some Inst.empty)).length = w.vars.length := by simp
      rw [← this]
      simp
    · unfold World.var
      rw [List.getElem?_append_left (by simpa using hlt)]
      simp [hlt, Inst.empty]
  · intro v hv
    have hr := reset_null_handle v a _ hv rfl
    refine ⟨hr, ?_⟩
    rw [destroy_eq hv, dtorWith_null rfl]
    rfl

/-- Witness of C7: moving from the sole owner of handle 42; the source is
empty and its `reset()` and destruction change neither heap nor log. -/
theorem move_empties_source_witness :
    ∃ w', moveCtor exFamilyStart 0 = some w' ∧ w'.var 1 = some ⟨some 0, 42⟩ ∧
      w'.var 0 = some ⟨none, 0⟩ ∧ w'.mem = exFamilyStart.mem ∧
      reset w' 0 = some w' ∧ destroy w' 0 = some { w' with vars := w'.vars.set 0 none } := by
  obtain ⟨⟨w', h1, h2, h3, h4⟩, hall⟩ :=
    move_empties_source exFamilyStart 0 ⟨some 0, 42⟩ (by decide)
  exact ⟨w', h1, h2, h3, h4, (hall w' h3).1, (hall w' h3).2⟩

/-- C8 (copy construction).  Copy-constructing a new variable from variable
`a`: when `a` points to a live control block `b`, the new variable has the same
handle and the same block, the use count of `b` is one more, every other block,
the log and `a` itself are unchanged; when `a` holds no control block the heap
is unchanged and the new variable equals `a` (empty when `a` is empty). -/
theorem copy_shares_block (w : World) (a : Nat) (x : Inst) (hx : w.var a = some x) :
    (∀ b blk, x.m_control = some b → blockAt w.mem b = some blk →
      ∃ w', copyCtor w a = some w' ∧ w'.var w.vars.length = some x ∧ w'.var a = some x ∧
        blockAt w'.mem b = some { blk with useCount := blk.useCount + 1 } ∧
        (∀ c, c ≠ b → blockAt w'.mem c = blockAt w.mem c) ∧ w'.mem.log = w.mem.log) ∧
    (x.m_control = none →
      copyCtor w a = some ⟨w.mem, w.vars ++ [some x]⟩) := by
  obtain ⟨xc, xh⟩ := x
  have hlt := var_lt hx
  have hnew : ∀ m : Mem,
      (⟨m, w.vars ++ [some ⟨xc, xh⟩]⟩ : World).var w.vars.length = some ⟨xc, xh⟩ := by
    intro m; unfold World.var; simp
  have hold : ∀ m : Mem, (⟨m, w.vars ++ [some ⟨xc, xh⟩]⟩ : World).var a = some ⟨xc, xh⟩ := by
    intro m
    unfold World.var
    rw [List.getElem?_append_left hlt, var_eq_some.mp hx]
  constructor
  · intro b blk hc hb
    have hlive : blockAt w.mem b ≠ none := by simp [hb]
    simp only at hc
    subst hc
    refine ⟨⟨setCount w.mem b blk (blk.useCount + 1), w.vars ++ [some ⟨some b, xh⟩]⟩, ?_, hnew _,
      hold _, ?_, ?_, rfl⟩
    · rw [copyCtor_eq]; simp [hx, acquire, hb]
    · show blockAt (setCount w.mem b blk (blk.useCount + 1)) b = _
      rw [blockAt_setCount _ _ _ _ _ hlive]; simp
    · intro c hcb
      show blockAt (setCount w.mem b blk (blk.useCount + 1)) c = _
      rw [blockAt_setCount _ _ _ _ _ hlive]; simp [hcb]
  · intro hc
    simp only at hc
    subst hc
    rw [copyCtor_eq]; simp [hx, acquire]

/-- Witness of C8: copying the sole owner of handle 42 gives use count 2;
copying an empty variable gives an empty variable. -/
theorem copy_shares_block_witness :
    (∃ w', copyCtor exFamilyStart 0 = some w' ∧ w'.var 1 = some ⟨some 0, 42⟩ ∧
      w'.var 0 = some ⟨some 0, 42⟩ ∧ blockAt w'.mem 0 = some ⟨2, ⟨none, 100⟩⟩ ∧
      w'.mem.log = []) ∧
    copyCtor exNullTarget 0 = some ⟨exNullTarget.mem, exNullTarget.vars ++ [some ⟨none, 0⟩]⟩ := by
  obtain ⟨w', h1, h2, h3, h4, _, h6⟩ :=
    (copy_shares_block exFamilyStart 0 ⟨some 0, 42⟩ (by decide)).1 0 ⟨1, ⟨none, 100⟩⟩ rfl
      (by decide)
  exact ⟨⟨w', h1, h2, h3, h4, h6⟩,
    (copy_shares_block exNullTarget 0 ⟨none, 0⟩ (by decide)).2 rfl⟩

/-- C9, the failing input: the target `a` (variable 2 of `exNullTarget`) holds
a control block with a null handle.  The assignments `a = b` and
`a = std::move( b )` free that block and its parent block and call the parent
deleter; `reset()` followed by construction from `b` frees nothing and calls no
deleter. -/
theorem assign_null_target_differs :
    run World.init exNullTargetOps = some exNullTarget ∧
    (copyAssign exNullTarget 2 3).map (fun w => w.mem.log) = some [⟨0, 100, none, 5⟩] ∧
    (specCopyAssign exNullTarget 2 3).map (fun w => w.mem.log) = some [] ∧
    (moveAssign exNullTarget 2 3).map (fun w => w.mem.log) = some [⟨0, 100, none, 5⟩] ∧
    (specMoveAssign exNullTarget 2 3).map (fun w => w.mem.log) = some [] ∧
    copyAssign exNullTarget 2 3 ≠ specCopyAssign exNullTarget 2 3 ∧
    moveAssign exNullTarget 2 3 ≠ specMoveAssign exNullTarget 2 3 := by
  decide

/-- C9 (assignment is release-then-adopt).  In a world reached by public
operations, for distinct live variables `a` and `o`: `a = o` returns, with the
result (heap, log and variables) of destroying the value of `a` and
copy-constructing `a` from `o` in its storage; `a = std::move( o )` returns,
with the result of destroying the value of `a` and move-constructing `a` from
`o`, and `o` ends empty; and when `a` holds a non-null handle or no control
block, both are `reset()` on `a` followed by that construction. -/
theorem assign_release_then_adopt (pre : List Op) (w : World) (a o : Nat) (xa xo : Inst)
    (h0 : run World.init pre = some w) (hx : w.var a = some xa) (hxo : w.var o = some xo)
    (hne : a ≠ o) :
    (∃ w1, copyAssign w a o = some w1 ∧
      (destroy w a).bind (fun u => copyCtorAt u a o) = some w1 ∧
      w1.var a = some xo ∧ w1.var o = some xo) ∧
    (∃ w2, moveAssign w a o = some w2 ∧
      (destroy w a).bind (fun u => moveCtorAt u a o) = some w2 ∧
      w2.var a = some xo ∧ w2.var o = some ⟨none, 0⟩) ∧
    (xa.m_handle ≠ 0 ∨ xa.m_control = none →
      copyAssign w a o = specCopyAssign w a o ∧ moveAssign w a o = specMoveAssign w a o) := by
  have hwf := WF.run WF.init h0
  refine ⟨?_, ?_, ?_⟩
  · obtain ⟨w1, h1, hva, hvo⟩ := copyAssign_result hwf hx hxo hne
    refine ⟨w1, h1, ?_, hva, hvo⟩
    rw [destroy_eq hx, ← copyAssign_eq_release hwf hx hne _, h1]
  · obtain ⟨w2, h2, hva, hvo⟩ := moveAssign_result hwf hx hxo hne
    refine ⟨w2, h2, ?_, hva, hvo⟩
    rw [destroy_eq hx, ← moveAssign_eq_release hx hne _, h2]
  · intro hpair
    unfold specCopyAssign specMoveAssign
    rw [reset_eq_release hx hpair]
    exact ⟨copyAssign_eq_release hwf hx hne _, moveAssign_eq_release hx hne _⟩

/-- Witness of C9: in `exNullTarget`, copy assignment to variable 2, which
holds a control block with a null handle, and assignment to variable 3, which
holds handle 7 and for which the release is `reset()`. -/
theorem assign_release_then_adopt_witness :
    run World.init exNullTargetOps = some exNullTarget ∧
    (∃ w1, copyAssign exNullTarget 2 3 = some w1 ∧
      (destroy exNullTarget 2).bind (fun u => copyCtorAt u 2 3) = some w1 ∧
      w1.var 2 = some ⟨some 3, 7⟩ ∧ w1.var 3 = some ⟨some 3, 7⟩) ∧
    (∃ w2, moveAssign exNullTarget 3 2 = some w2 ∧
      (destroy exNullTarget 3).bind (fun u => moveCtorAt u 3 2) = some w2 ∧
      w2.var 3 = some ⟨some 2, 0⟩ ∧ w2.var 2 = some ⟨none, 0⟩) ∧
    copyAssign exNullTarget 3 2 = specCopyAssign exNullTarget 3 2 ∧
    moveAssign exNullTarget 3 2 = specMoveAssign exNullTarget 3 2 :=
  ⟨by decide,
    (assign_release_then_adopt exNullTargetOps exNullTarget 2 3 ⟨some 2, 0⟩ ⟨some 3, 7⟩
      (by decide) (by decide) (by decide) (by decide)).1,
    (assign_release_then_adopt exNullTargetOps exNullTarget 3 2 ⟨some 3, 7⟩ ⟨some 2, 0⟩
      (by decide) (by decide) (by decide) (by decide)).2.1,
    (assign_release_then_adopt exNullTargetOps exNullTarget 3 2 ⟨some 3, 7⟩ ⟨some 2, 0⟩
      (by decide) (by decide) (by decide) (by decide)).2.2 (Or.inl (by decide))⟩

/-- C10 (`put` postcondition).  In a world reached by public operations, `put`
on variable `i` (with the by-value parent parameter, if any, in another live
variable) returns; afterwards the handle of `i` is null and `i` points to block
`w.mem.blocks.length`, which did not exist before, is built from the arguments,
has use count one and is pointed to by one variable and by no header; the block
that `i` held before has lost one owner, and its deleter was called, once, if
and only if the handle of `i` was non-null and `i` was its sole owner. -/
theorem put_postcondition (pre : List Op) (w : World) (i : Nat) (x : Inst)
    (parent : Option Nat) (d : Nat)
    (h0 : run World.init pre = some w) (hx : w.var i = some x)
    (hpar : ∀ t, parent = some t → t ≠ i ∧ ∃ p, w.var t = some p) :
    ∃ w', put w i parent d = some w' ∧
      w'.var i = some ⟨some w.mem.blocks.length, 0⟩ ∧
      blockAt w.mem w.mem.blocks.length = none ∧
      blockAt w'.mem w.mem.blocks.length = some ⟨1, ⟨parent.bind w.var, d⟩⟩ ∧
      extRefs w'.vars w.mem.blocks.length = 1 ∧ heapRefs w'.mem w.mem.blocks.length = 0 ∧
      (∀ b blk, x.m_control = some b → blockAt w.mem b = some blk →
        use_count w'.mem (some b) + 1 = use_count w.mem (some b) ∧
        callsOf w.mem b = [] ∧
        callsOf w'.mem b =
          if x.m_handle ≠ 0 ∧ blk.useCount = 1 then
            [⟨b, blk.header.deleter, blk.header.parent.map Inst.m_handle, x.m_handle⟩]
          else []) ∧
      (x.m_control = none → w'.mem.log = w.mem.log) := by
  have hwf := WF.run WF.init h0
  obtain ⟨w', new, hr, hwf', hsf, hvar, hb', hown, hnoctl⟩ := put_ok hwf hx parent d hpar
  have hnone : blockAt w.mem w.mem.blocks.length = none := by
    cases hn : blockAt w.mem w.mem.blocks.length with
    | none => rfl
    | some blk =>
      exact absurd (blockAt_lt (m := w.mem) (b := w.mem.blocks.length) (by simp [hn])) (by omega)
  have hcnt := hwf'.inv.count_eq _ _ hb'
  have hext : 0 < extRefs w'.vars w.mem.blocks.length :=
    extRefs_pos_iff.mpr ⟨_, mem_vars_of_var hvar, rfl⟩
  simp only at hcnt
  refine ⟨w', hr, hvar, hnone, hb', by omega, by omega, ?_, ?_⟩
  · intro b blk hxb hb
    obtain ⟨hcount, hfilter⟩ := hown b blk hxb hb
    have hold : callsOf w.mem b = [] := filter_block_eq_nil fun e he heb => by
      have := (hwf.log_ok e he).1
      rw [heb, hb] at this
      exact absurd this (by simp)
    refine ⟨hcount, hold, ?_⟩
    rw [callsOf_append w.mem w'.mem new b hsf.log_eq, hold, hfilter]
    rfl
  · intro hc
    rw [hsf.log_eq, hnoctl hc, List.append_nil]

/-- Witness of C10: `put( parent )` on variable 2, the sole owner of handle
42: `destroy( 7, 42 )` is called and the variable holds the new block 2. -/
theorem put_postcondition_witness :
    ∃ w', put exPutWorld 2 (some 3) 300 = some w' ∧
      w'.var 2 = some ⟨some 2, 0⟩ ∧
      blockAt w'.mem 2 = some ⟨1, ⟨some ⟨some 0, 7⟩, 300⟩⟩ ∧
      extRefs w'.vars 2 = 1 ∧ heapRefs w'.mem 2 = 0 ∧
      use_count w'.mem (some 1) + 1 = 1 ∧
      callsOf w'.mem 1 = [⟨1, 200, some 7, 42⟩] := by
  obtain ⟨w', hp, hv, _, hb, he, hh, hold, _⟩ :=
    put_postcondition [.construct 7 none 100, .copyCtor 0, .construct 42 (some 1) 200,
        .copyCtor 0]
      exPutWorld 2 ⟨some 1, 42⟩ (some 3) 300 (by decide) (by decide)
      (fun t ht => by
        have := Option.some.inj ht
        subst this
        exact ⟨by decide, ⟨some 0, 7⟩, by decide⟩)
  obtain ⟨hc, _, hcalls⟩ := hold 1 ⟨1, ⟨some ⟨some 0, 7⟩, 200⟩⟩ rfl (by decide)
  exact ⟨w', hp, hv, hb, he, hh, hc, hcalls⟩

/-- C11 (`put` with a live second owner).  In a world reached by public
operations the distinct variables `a` and `b` share block `B` for the non-null
handle `X`.  Then `put` on `a` (the by-value parent parameter, if any, being a
third live variable) returns without any deleter call; `b` still holds `X` and
`B`; `a` holds the new block `w.mem.blocks.length`, which differs from `B`, did
not exist before and has use count one; `B` has lost one owner; and when `a` and
`b` were the only owners, the release of `b` that follows (by `reset()` or by
destruction) calls the deleter of `B` for `X`, first and exactly once. -/
theorem put_with_second_owner (pre : List Op) (w : World) (a b B X : Nat)
    (parent : Option Nat) (d : Nat)
    (h0 : run World.init pre = some w) (hne : a ≠ b)
    (ha : w.var a = some ⟨some B, X⟩) (hb : w.var b = some ⟨some B, X⟩) (hX : X ≠ 0)
    (hpar : ∀ t, parent = some t → t ≠ a ∧ t ≠ b ∧ ∃ p, w.var t = some p) :
    ∃ blk w', blockAt w.mem B = some blk ∧ put w a parent d = some w' ∧
      w'.mem.log = w.mem.log ∧ w'.var b = some ⟨some B, X⟩ ∧
      w'.var a = some ⟨some w.mem.blocks.length, 0⟩ ∧ w.mem.blocks.length ≠ B ∧
      blockAt w.mem w.mem.blocks.length = none ∧
      blockAt w'.mem w.mem.blocks.length = some ⟨1, ⟨parent.bind w.var, d⟩⟩ ∧
      blockAt w'.mem B = some { blk with useCount := blk.useCount - 1 } ∧
      2 ≤ blk.useCount ∧
      (blk.useCount = 2 →
        (∃ w2 rest, reset w' b = some w2 ∧
          w2.mem.log = w.mem.log ++
            ⟨B, blk.header.deleter, blk.header.parent.map Inst.m_handle, X⟩ :: rest ∧
          callsOf w2.mem B = [⟨B, blk.header.deleter, blk.header.parent.map Inst.m_handle, X⟩]) ∧
        (∃ w2 rest, destroy w' b = some w2 ∧
          w2.mem.log = w.mem.log ++
            ⟨B, blk.header.deleter, blk.header.parent.map Inst.m_handle, X⟩ :: rest ∧
          callsOf w2.mem B =
            [⟨B, blk.header.deleter, blk.header.parent.map Inst.m_handle, X⟩])) := by
  have hwf := WF.run WF.init h0
  obtain ⟨blk, w', hB, h2, hput, hwf', hmem, hva, hvb⟩ :=
    put_shared hwf ha hb hne rfl rfl hX parent d hpar
  have hlive : blockAt w.mem B ≠ none := by simp [hB]
  have hlt := blockAt_lt hlive
  have hlen : (setCount w.mem B blk (blk.useCount - 1)).blocks.length = w.mem.blocks.length := by
    simp [setCount]
  have hlog : w'.mem.log = w.mem.log := by rw [hmem]; rfl
  have hnone : blockAt w.mem w.mem.blocks.length = none := by
    cases hn : blockAt w.mem w.mem.blocks.length with
    | none => rfl
    | some blk0 =>
      exact absurd (blockAt_lt (m := w.mem) (b := w.mem.blocks.length) (by simp [hn])) (by omega)
  have hnew : blockAt w'.mem w.mem.blocks.length = some ⟨1, ⟨parent.bind w.var, d⟩⟩ := by
    rw [hmem, blockAt_make_shared, hlen]
    simp
  have hB' : blockAt w'.mem B = some { blk with useCount := blk.useCount - 1 } := by
    rw [hmem, blockAt_make_shared, hlen, if_neg (by omega), blockAt_setCount _ _ _ _ _ hlive]
    simp
  refine ⟨blk, w', hB, hput, hlog, hvb, hva, by omega, hnone, hnew, hB', h2, ?_⟩
  intro hc2
  have h1 : ({ blk with useCount := blk.useCount - 1 } : Block).useCount = 1 := by
    simp only
    omega
  constructor
  · obtain ⟨w2, rest, hr, _, hl, hcalls, _⟩ := reset_sole hwf' hvb hX rfl hB' h1
    exact ⟨w2, rest, hr, by rw [hl, hlog]; rfl, hcalls⟩
  · obtain ⟨w2, rest, hr, _, hl, hcalls, _⟩ := destroy_sole hwf' hvb hX rfl hB' h1
    exact ⟨w2, rest, hr, by rw [hl, hlog]; rfl, hcalls⟩

/-- Witness of C11: variables 0 and 1 share block 0 for handle 42; after
`put( deleter )` on variable 0 no deleter was called, and `reset()` on variable 1
calls `destroy( 42 )`. -/
theorem put_with_second_owner_witness :
    run World.init [.construct 42 none 100, .copyCtor 0] = some exSharedWorld ∧
    ∃ w', put exSharedWorld 0 none 100 = some w' ∧ w'.mem.log = [] ∧
      w'.var 1 = some ⟨some 0, 42⟩ ∧ w'.var 0 = some ⟨some 1, 0⟩ ∧
      ∃ w2, reset w' 1 = some w2 ∧ callsOf w2.mem 0 = [⟨0, 100, none, 42⟩] := by
  obtain ⟨blk, w', hB, hput, hlog, hvb, hva, _, _, _, _, _, hrel⟩ :=
    put_with_second_owner [.construct 42 none 100, .copyCtor 0] exSharedWorld 0 1 0 42 none 100
      (by decide) (by decide) (by decide) (by decide) (by decide)
      (fun t ht => absurd ht (by simp))
  have hblk : blk = ⟨2, ⟨none, 100⟩⟩ := by
    have h : blockAt exSharedWorld.mem 0 = some ⟨2, ⟨none, 100⟩⟩ := by decide
    rw [h] at hB
    exact (Option.some.inj hB).symm
  subst hblk
  obtain ⟨⟨w2, rest, hr, _, hc⟩, _⟩ := hrel rfl
  exact ⟨by decide, w', hput, hlog, hvb, hva, w2, hr, hc⟩

/-- C12, the failing states: after `put( deleter )` on a default-constructed
handle, and after construction with a null handle, variable 0 holds a control
block and a null handle, so "non-null handle if and only if non-null control
block" is false for it.  And when the handle that was `put` is moved
from before 42 is stored through the reference that `put` returned, variable 0
holds 42 and no control block. -/
theorem pairing_fails_after_put :
    (∃ w, run World.init [.defaultCtor, .put 0 none 100] = some w ∧
      w.var 0 = some ⟨some 0, 0⟩) ∧
    (∃ w, run World.init [.construct 0 none 100] = some w ∧ w.var 0 = some ⟨some 0, 0⟩) ∧
    ¬ ((⟨some 0, 0⟩ : Inst).m_handle ≠ 0 ↔ (⟨some 0, 0⟩ : Inst).m_control ≠ none) ∧
    (∃ w, run World.init [.defaultCtor, .put 0 none 100, .moveCtor 0, .fill 0 42] = some w ∧
      w.var 0 = some ⟨none, 42⟩) :=
  ⟨⟨⟨⟨[some ⟨1, ⟨none, 100⟩⟩], []⟩, [some ⟨some 0, 0⟩]⟩, by decide, by decide⟩,
    ⟨⟨⟨[some ⟨1, ⟨none, 100⟩⟩], []⟩, [some ⟨some 0, 0⟩]⟩, by decide, by decide⟩, by decide,
    ⟨⟨⟨[some ⟨1, ⟨none, 100⟩⟩], []⟩, [some ⟨none, 42⟩, some ⟨some 0, 0⟩]⟩, by decide, by decide⟩⟩

/-- C12 (pairing), the direction that holds.  In every world reached by public
operations in which the handle of a variable is written from outside the class
only while the variable holds a control block (or with the null handle), every
instance (the value of a variable or the parent member of a live header) with a
non-null handle has a control block. -/
theorem nonnull_handle_has_block (pre : List Op) (w : World) (y : Inst)
    (h0 : run World.init pre = some w) (hst : storesOK ownedTarget World.init pre = true)
    (hy : IsInst w y) (hh : y.m_handle ≠ 0) :
    y.m_control ≠ none :=
  nonnull_ctl_run h0 hst (fun y hy => absurd hy (IsInst.not_init y)) y hy hh

/-- Witness of C12: a handle is `put` and 42 is stored through the returned
reference; variable 0 holds 42 and block 0. -/
theorem nonnull_handle_has_block_witness :
    run World.init [.defaultCtor, .put 0 none 100, .fill 0 42] = some exFamilyStart ∧
    storesOK ownedTarget World.init [.defaultCtor, .put 0 none 100, .fill 0 42] = true ∧
    IsInst exFamilyStart ⟨some 0, 42⟩ ∧ (⟨some 0, 42⟩ : Inst).m_handle ≠ 0 ∧
    (⟨some 0, 42⟩ : Inst).m_control ≠ none :=
  ⟨by decide, by decide, Or.inl (by decide), by decide,
    nonnull_handle_has_block [.defaultCtor, .put 0 none 100, .fill 0 42]
      exFamilyStart ⟨some 0, 42⟩ (by decide) (by decide) (Or.inl (by decide)) (by decide)⟩

/-- C13 (order preservation of `sharedToRaw`).  For every sequence `hs` of live
variables (of any length, the empty one included), the call returns, in the
unchanged world (same variables, control blocks, use counts and log), a
sequence of the length of `hs` whose `k`-th element is `get()` of the `k`-th
variable; it is `sharedToRaw` of the values of the variables. -/
theorem sharedToRaw_order (w : World) (hs : List Nat)
    (hlive : ∀ i ∈ hs, ∃ x, w.var i = some x) :
    ∃ raw, sharedToRawOn w hs = some (raw, w) ∧ raw.length = hs.length ∧
      (∀ (k : Nat) (hk : k < hs.length), raw[k]? = get w (hs.get ⟨k, hk⟩)) ∧
      (∀ xs : List Inst, hs.map w.var = xs.map some → raw = sharedToRaw xs) := by
  obtain ⟨raw, hr, hl, _, hel⟩ := transform_spec w hs (List.replicate hs.length 0) 0 hlive
    (by simp)
  have hlen : raw.length = hs.length := by simpa using hl
  refine ⟨raw, hr, hlen, ?_, ?_⟩
  · intro k hk
    have := hel k hk
    simp only [Nat.zero_add] at this
    rw [this, List.getElem?_eq_getElem hk]
    rfl
  · intro xs hxs
    have hxl : xs.length = hs.length := by
      have := congrArg List.length hxs
      simpa using this.symm
    apply List.ext_getElem?
    intro k
    by_cases hk : k < hs.length
    · have h1 := hel k hk
      simp only [Nat.zero_add] at h1
      have h2 := congrArg (fun l => l[k]?) hxs
      simp only [List.getElem?_map] at h2
      rw [h1, List.getElem?_eq_getElem hk] at *
      rw [List.getElem?_eq_getElem (by omega : k < xs.length)] at h2
      simp only [Option.map_some', Option.some.injEq] at h2
      simp only [Option.some_bind, get, h2, sharedToRaw, List.getElem?_map]
      rw [List.getElem?_eq_getElem (by omega : k < xs.length)]
    · rw [List.getElem?_eq_none (by omega), List.getElem?_eq_none]
      simp [sharedToRaw]
      omega

/-- Witness of C13: in `exNullTarget` the vector of the variables 3 and 2 gives
the handles 7 and null, in this order; the empty vector gives the empty one. -/
theorem sharedToRaw_order_witness :
    (∃ raw, sharedToRawOn exNullTarget [3, 2] = some (raw, exNullTarget) ∧ raw.length = 2 ∧
      raw[0]? = some 7 ∧ raw[1]? = some 0 ∧ raw = sharedToRaw [⟨some 3, 7⟩, ⟨some 2, 0⟩]) ∧
    (∃ raw, sharedToRawOn exNullTarget [] = some (raw, exNullTarget) ∧ raw.length = 0) := by
  obtain ⟨raw, h, hl, hk, hv⟩ := sharedToRaw_order exNullTarget [3, 2] (by
    intro i hi
    simp only [List.mem_cons, List.mem_singleton, List.not_mem_nil, or_false] at hi
    rcases hi with rfl | rfl
    · exact ⟨⟨some 3, 7⟩, rfl⟩
    · exact ⟨⟨some 2, 0⟩, rfl⟩)
  obtain ⟨raw0, h0, hl0, _, _⟩ := sharedToRaw_order exNullTarget []
    (fun i hi => absurd hi (by simp))
  exact ⟨⟨raw, h, hl, hk 0 (by decide), hk 1 (by decide), hv _ rfl⟩, ⟨raw0, h0, hl0⟩⟩

/-- C14 (parent accessors).  In a world reached by public operations variable
`i` holds control block `b`, whose header was built with the parent handle `p`.
Then `getParent()` returns the handle of `p`; `getParentHandle()` returns, as a
new variable, a handle with the handle value and the control block of `p`, the
use count of that block is one more, every other block and the log are
unchanged; and in every later world in which block `b` is still alive,
releasing a variable that holds the control block of `p` (by `reset()` or by
destruction) calls no deleter. -/
theorem parent_accessors (pre : List Op) (w : World) (i b : Nat) (x p : Inst) (blk : Block)
    (h0 : run World.init pre = some w) (hx : w.var i = some x) (hc : x.m_control = some b)
    (hb : blockAt w.mem b = some blk) (hp : blk.header.parent = some p) :
    getParent w i = some p.m_handle ∧
    ∃ w', getParentHandle w i = some w' ∧ w'.var w.vars.length = some p ∧
      w'.vars = w.vars ++ [some p] ∧ w'.mem.log = w.mem.log ∧
      (∀ P blkP, p.m_control = some P → blockAt w.mem P = some blkP →
        blockAt w'.mem P = some { blkP with useCount := blkP.useCount + 1 } ∧
        ∀ c, c ≠ P → blockAt w'.mem c = blockAt w.mem c) ∧
      (p.m_control = none → w'.mem = w.mem) ∧
      (∀ ops w2 j y, run w' ops = some w2 → w2.var j = some y →
        y.m_control = p.m_control → blockAt w2.mem b ≠ none →
        (∃ w3, reset w2 j = some w3 ∧ w3.mem.log = w2.mem.log) ∧
        (∃ w3, destroy w2 j = some w3 ∧ w3.mem.log = w2.mem.log)) := by
  have hwf := WF.run WF.init h0
  obtain ⟨m1, _, hg, hlog, hnone, hsome⟩ := getParentHandle_eq hwf hx hc hb hp
  refine ⟨by simp [getParent, hx, hc, hb, hp], ⟨m1, w.vars ++ [some p]⟩, hg, ?_, rfl, hlog,
    ?_, hnone, ?_⟩
  · unfold World.var
    simp
  · intro P blkP hP hbP
    have hlive : blockAt w.mem P ≠ none := by simp [hbP]
    rw [hsome P blkP hP hbP]
    constructor
    · rw [blockAt_setCount _ _ _ _ _ hlive]
      simp
    · intro c hcP
      rw [blockAt_setCount _ _ _ _ _ hlive]
      simp [hcP]
  · intro ops w2 j y hrun hy hyc hb2
    have hwf' : WF ⟨m1, w.vars ++ [some p]⟩ := (getParentHandle_facts hwf hg).1
    have hwf2 := WF.run hwf' hrun
    apply release_quiet hwf2 hy
    intro P blkP hyP hP
    have hlt : b < w.mem.blocks.length := blockAt_lt (by simp [hb])
    have hhdr : headerAt w2.mem b = some blk.header := by
      have hb1 : headerAt (⟨m1, w.vars ++ [some p]⟩ : World).mem b = some blk.header := by
        rcases (getParentHandle_facts hwf hg).2 with ⟨new, hsf⟩
        have hkeep : ∀ c, headerAt m1 c = headerAt w.mem c := by
          intro c
          cases hpc : p.m_control with
          | none => rw [hnone hpc]
          | some P' =>
            obtain ⟨blkP', hP'⟩ := Option.ne_none_iff_exists'.mp
              ((hwf.inv.parent_lt b blk P' hb (by simpa [hp, ctlOf] using hpc)).2)
            rw [hsome P' blkP' hpc hP', headerAt_setCount _ _ _ _ _ hP']
        show headerAt m1 b = some blk.header
        rw [hkeep b]
        exact headerAt_eq_some.mpr ⟨blk, hb, rfl⟩
      have hlt1 : b < (⟨m1, w.vars ++ [some p]⟩ : World).mem.blocks.length :=
        headerAt_lt (by rw [hb1]; simp)
      rcases run_header_mono hwf' hrun b hlt1 with h | h
      · exact absurd (headerAt_eq_none.mp h) hb2
      · rw [h, hb1]
    obtain ⟨blk2, hblk2, hh2⟩ := headerAt_eq_some.mp hhdr
    have := parent_and_var_count hwf2 hy hyP hblk2
      (by rw [hh2, hp]; simpa [ctlOf] using hyc.symm.trans hyP) hP
    omega

/-- Witness of C14: the child 42 in variable 2 of `exChildWorld` was built with
the parent 7; `getParent()` is 7, `getParentHandle()` shares block 0, and
destroying the returned handle calls no deleter. -/
theorem parent_accessors_witness :
    run World.init [.construct 7 none 100, .copyCtor 0, .construct 42 (some 1) 200]
      = some exChildWorld ∧
    getParent exChildWorld 2 = some 7 ∧
    ∃ w', getParentHandle exChildWorld 2 = some w' ∧ w'.var 3 = some ⟨some 0, 7⟩ ∧
      w'.mem.log = [] ∧ blockAt w'.mem 0 = some ⟨3, ⟨none, 100⟩⟩ ∧
      (∃ w3, reset w' 3 = some w3 ∧ w3.mem.log = w'.mem.log) ∧
      (∃ w3, destroy w' 3 = some w3 ∧ w3.mem.log = w'.mem.log) := by
  obtain ⟨hgp, w', hg, hv, _, hlog, hcount, _, hrel⟩ :=
    parent_accessors [.construct 7 none 100, .copyCtor 0, .construct 42 (some 1) 200]
      exChildWorld 2 1 ⟨some 1, 42⟩ ⟨some 0, 7⟩ ⟨1, ⟨some ⟨some 0, 7⟩, 200⟩⟩
      (by decide) (by decide) rfl (by decide) rfl
  obtain ⟨hc0, hother⟩ := hcount 0 ⟨2, ⟨none, 100⟩⟩ rfl (by decide)
  have hb1 : blockAt w'.mem 1 ≠ none := by
    rw [hother 1 (by decide)]
    decide
  exact ⟨by decide, hgp, w', hg, hv, hlog, hc0, hrel [] w' 3 ⟨some 0, 7⟩ rfl hv rfl hb1⟩

/-- C15, the failing traces.  First: variable 0 is `put`, copied to variable 1,
and then 42 is stored through the reference that `put` returned; both
variables point to block 0, variable 0 holds 42 and variable 1 the null handle;
when both are destroyed the block is freed and the deleter was never called
for 42.  Second, without `put`: a handle for 42 is copied and 9 is stored into
the first through `operator->()`; the two owners of block 0 hold 9 and 42. -/
theorem sharers_disagree_after_fill :
    (∃ w w2, run World.init [.defaultCtor, .put 0 none 100, .copyCtor 0, .fill 0 42] = some w ∧
      w.var 0 = some ⟨some 0, 42⟩ ∧ w.var 1 = some ⟨some 0, 0⟩ ∧
      Holds w 0 ⟨some 0, 42⟩ ∧ Holds w 0 ⟨some 0, 0⟩ ∧
      run w [.destroy 0, .destroy 1] = some w2 ∧ blockAt w2.mem 0 = none ∧ w2.mem.log = []) ∧
    (∃ w, run World.init [.construct 42 none 100, .copyCtor 0, .arrowStore 0 9] = some w ∧
      w.var 0 = some ⟨some 0, 9⟩ ∧ w.var 1 = some ⟨some 0, 42⟩ ∧
      Holds w 0 ⟨some 0, 9⟩ ∧ Holds w 0 ⟨some 0, 42⟩) :=
  ⟨⟨⟨⟨[some ⟨2, ⟨none, 100⟩⟩], []⟩, [some ⟨some 0, 42⟩, some ⟨some 0, 0⟩]⟩,
    ⟨⟨[none], []⟩, [none, none]⟩, by decide, by decide, by decide,
    ⟨rfl, Or.inl (by decide)⟩, ⟨rfl, Or.inl (by decide)⟩, by decide, by decide, by decide⟩,
   ⟨⟨⟨[some ⟨2, ⟨none, 100⟩⟩], []⟩, [some ⟨some 0, 9⟩, some ⟨some 0, 42⟩]⟩,
    by decide, by decide, by decide, ⟨rfl, Or.inl (by decide)⟩, ⟨rfl, Or.inl (by decide)⟩⟩⟩

/-- C15 (agreement of sharers), for runs in which every store into a handle
from outside the class (through the reference returned by `put` or through
`operator->()`) is made while the variable shares its control block with no
other instance: in the world reached, all instances that point to the same
control block hold the same handle, and every deleter call that the next
operation makes for a block receives the handle that the instances pointing to
that block hold. -/
theorem sharers_agree (ops : List Op) (w : World) (h0 : run World.init ops = some w)
    (hs : storesOK soleTarget World.init ops = true) :
    (∀ b y1 y2, Holds w b y1 → Holds w b y2 → y1.m_handle = y2.m_handle) ∧
    (∀ op w', step w op = some w' → ∀ e ∈ w'.mem.log.drop w.mem.log.length,
      ∀ y, Holds w e.block y → y.m_handle = e.handle) := by
  have hwf := WF.run WF.init h0
  have ha : Agree w := agree_run WF.init Agree.at_init h0 hs
  refine ⟨ha, ?_⟩
  intro op w' hstep e he y hy
  cases hst : op.store with
  | some p =>
    obtain ⟨x, _, hw'⟩ := store_mem (i := p.1) (v := p.2) hst hstep
    rw [hw'] at he
    simp at he
  | none =>
    obtain ⟨_, new, hsf⟩ := step_facts hwf hstep
      (fun i v e => by rw [hst] at e; exact absurd e (by simp))
    rw [hsf.log_eq, List.drop_left] at he
    obtain ⟨_, _, _, _, _, y0, hy0, hy0h⟩ := hsf.entry e he
    rw [← hy0h]
    exact ha e.block y y0 hy hy0

/-- Witness of C15: 41 and then 42 are stored before the copy is made; every
instance that points to block 0 of `exSharedWorld` holds 42. -/
theorem sharers_agree_witness :
    run World.init [.defaultCtor, .put 0 none 100, .fill 0 41, .fill 0 42, .copyCtor 0]
      = some exSharedWorld ∧
    storesOK soleTarget World.init
      [.defaultCtor, .put 0 none 100, .fill 0 41, .fill 0 42, .copyCtor 0] = true ∧
    Holds exSharedWorld 0 ⟨some 0, 42⟩ ∧
    (∀ y, Holds exSharedWorld 0 y → y.m_handle = 42) := by
  have h := sharers_agree [.defaultCtor, .put 0 none 100, .fill 0 41, .fill 0 42, .copyCtor 0]
    exSharedWorld (by decide) (by decide)
  have hh : Holds exSharedWorld 0 ⟨some 0, 42⟩ := ⟨rfl, Or.inl (by decide)⟩
  exact ⟨by decide, by decide, hh, fun y hy => h.1 0 y ⟨some 0, 42⟩ hy hh⟩

/-- C16 (no deleter call for a null handle).  In every world reached by public
operations (construction with a null handle and `put` without a later write
included), every call in the log of deleter calls, whichever operation made it,
has a non-null handle as its resource argument. -/
theorem deleter_handle_nonnull (ops : List Op) (w : World)
    (h0 : run World.init ops = some w) : ∀ e ∈ w.mem.log, e.handle ≠ 0 :=
  fun e he => ((WF.run WF.init h0).log_ok e he).2.2

/-- Witness of C16: a handle constructed with a null handle, a handle that was
`put` and never filled and a handle for 42 are destroyed; the only deleter call
is the one for 42. -/
theorem deleter_handle_nonnull_witness :
    run World.init [.construct 0 none 100, .defaultCtor, .put 1 none 100,
      .construct 42 none 100, .destroy 0, .destroy 1, .destroy 2] = some exNullEnd ∧
    exNullEnd.mem.log = [⟨2, 100, none, 42⟩] ∧ ∀ e ∈ exNullEnd.mem.log, e.handle ≠ 0 :=
  ⟨by decide, rfl,
    deleter_handle_nonnull [.construct 0 none 100, .defaultCtor, .put 1 none 100,
      .construct 42 none 100, .destroy 0, .destroy 1, .destroy 2] exNullEnd (by decide)⟩

/-- C17 (`reset()` is total).  The variable `i` of a world reached by public
operations is given any handle value `hv`, so that it is in any of the states
(handle null or not, control block present or not).  An absent control block
has use count zero; a use count of one belongs to a present control block, for
which the deleter call of `reset()` does not fault; `reset()`, destruction, both
assignments to `i` and `put` on `i` return; and without control block `reset()`
only clears the handle. -/
theorem reset_total (pre : List Op) (w : World) (i : Nat) (x : Inst) (hv : Nat)
    (h0 : run World.init pre = some w) (hx : w.var i = some x) :
    (∀ m, use_count m none = 0) ∧
    (∀ m y, use_count m y.m_control = 1 →
      y.m_control ≠ none ∧ ∃ m', internalDestroy m y = some m') ∧
    (∃ w', reset (w.setVar i ⟨x.m_control, hv⟩) i = some w') ∧
    (∃ w', destroy (w.setVar i ⟨x.m_control, hv⟩) i = some w') ∧
    (∀ o xo, (w.setVar i ⟨x.m_control, hv⟩).var o = some xo →
      (∃ w', copyAssign (w.setVar i ⟨x.m_control, hv⟩) i o = some w') ∧
      (∃ w', moveAssign (w.setVar i ⟨x.m_control, hv⟩) i o = some w')) ∧
    (∀ parent d, (∀ t, parent = some t →
        t ≠ i ∧ ∃ p, (w.setVar i ⟨x.m_control, hv⟩).var t = some p) →
      ∃ w', put (w.setVar i ⟨x.m_control, hv⟩) i parent d = some w') ∧
    (x.m_control = none →
      reset (w.setVar i ⟨x.m_control, hv⟩) i = some ⟨w.mem, w.vars.set i (some ⟨none, 0⟩)⟩) := by
  have hwf := (WF.run WF.init h0).set_handle hx hv
  have hx1 : (w.setVar i ⟨x.m_control, hv⟩).var i = some ⟨x.m_control, hv⟩ := by
    rw [var_setVar w i i _ (var_lt hx)]
    simp
  refine ⟨fun _ => rfl, internalDestroy_of_sole, ?_, ?_, ?_, ?_, ?_⟩
  · obtain ⟨w', _, hr, _⟩ := reset_ok hwf hx1
    exact ⟨w', hr⟩
  · obtain ⟨w', _, hr, _⟩ := destroy_ok hwf hx1
    exact ⟨w', hr⟩
  · intro o xo hxo
    obtain ⟨w1, _, hr1, _⟩ := copyAssign_ok hwf hx1 hxo
    obtain ⟨w2, _, hr2, _⟩ := moveAssign_ok hwf hx1 hxo
    exact ⟨⟨w1, hr1⟩, ⟨w2, hr2⟩⟩
  · intro parent d hpar
    obtain ⟨w', _, hr, _⟩ := put_ok hwf hx1 parent d hpar
    exact ⟨w', hr⟩
  · intro hc
    rw [reset_noctl hx1 hc]
    simp [World.setVar, List.set_set]

/-- Witness of C17: the default-constructed variable of `exEmptyVar` is given
the handle 9, a non-null handle without control block; `reset()` clears it,
and destruction, self-assignment and `put` return. -/
theorem reset_total_witness :
    run World.init [.defaultCtor] = some exEmptyVar ∧
    (exEmptyVar.setVar 0 ⟨none, 9⟩).var 0 = some ⟨none, 9⟩ ∧
    reset (exEmptyVar.setVar 0 ⟨none, 9⟩) 0 = some exEmptyVar ∧
    (∃ w', destroy (exEmptyVar.setVar 0 ⟨none, 9⟩) 0 = some w') ∧
    (∃ w', copyAssign (exEmptyVar.setVar 0 ⟨none, 9⟩) 0 0 = some w') ∧
    (∃ w', put (exEmptyVar.setVar 0 ⟨none, 9⟩) 0 none 100 = some w') := by
  obtain ⟨_, _, _, hd, ha, hp, hr⟩ :=
    reset_total [.defaultCtor] exEmptyVar 0 ⟨none, 0⟩ 9 (by decide) (by decide)
  exact ⟨by decide, by decide, hr rfl, hd, (ha 0 ⟨none, 9⟩ (by decide)).1,
    hp none 100 (fun t ht => absurd ht (by simp))⟩

/-- C18 (assignment between co-owners).  In a world reached by public
operations the distinct variables `a` and `b` share block `B` for the non-null
handle `X`.  Then `a = b` returns the same world: no deleter call, both
variables still hold `X` and `B`, the use count is what it was.  And
`a = std::move( b )` returns without deleter call, `a` holds `X` and `B`, `b` is
empty, the use count of `B` is one less and every other block is unchanged. -/
theorem assign_between_coowners (pre : List Op) (w : World) (a b B X : Nat)
    (h0 : run World.init pre = some w) (hne : a ≠ b)
    (ha : w.var a = some ⟨some B, X⟩) (hb : w.var b = some ⟨some B, X⟩) (hX : X ≠ 0) :
    copyAssign w a b = some w ∧
    ∃ blk w2, blockAt w.mem B = some blk ∧ 2 ≤ blk.useCount ∧
      moveAssign w a b = some w2 ∧ w2.mem.log = w.mem.log ∧
      w2.var a = some ⟨some B, X⟩ ∧ w2.var b = some ⟨none, 0⟩ ∧
      blockAt w2.mem B = some { blk with useCount := blk.useCount - 1 } ∧
      ∀ c, c ≠ B → blockAt w2.mem c = blockAt w.mem c := by
  have hwf := WF.run WF.init h0
  obtain ⟨blk, hB, h2, hm⟩ := moveAssign_coowner hwf hne ha hb
  have hlive : blockAt w.mem B ≠ none := by simp [hB]
  have hba : b ≠ a := fun e => hne e.symm
  refine ⟨copyAssign_coowner hwf hne ha hb hX, blk, _, hB, h2, hm, rfl, ?_, ?_, ?_, ?_⟩
  · rw [var_mk_set']
    simp only [hne, if_false]
    rw [var_mk_set']
    simp [var_lt ha]
  · rw [var_mk_set']
    simp [var_lt hb]
  · show blockAt (setCount w.mem B blk (blk.useCount - 1)) B = _
    rw [blockAt_setCount _ _ _ _ _ hlive]
    simp
  · intro c hc
    show blockAt (setCount w.mem B blk (blk.useCount - 1)) c = _
    rw [blockAt_setCount _ _ _ _ _ hlive]
    simp [hc]

/-- Witness of C18: variables 0 and 1 of `exSharedWorld` share block 0 for the
handle 42. -/
theorem assign_between_coowners_witness :
    run World.init [.construct 42 none 100, .copyCtor 0] = some exSharedWorld ∧
    copyAssign exSharedWorld 0 1 = some exSharedWorld ∧
    ∃ w2, moveAssign exSharedWorld 0 1 = some w2 ∧ w2.mem.log = [] ∧
      w2.var 0 = some ⟨some 0, 42⟩ ∧ w2.var 1 = some ⟨none, 0⟩ ∧
      blockAt w2.mem 0 = some ⟨1, ⟨none, 100⟩⟩ := by
  obtain ⟨hcopy, blk, w2, hB, _, hm, hlog, hva, hvb, hcnt, _⟩ :=
    assign_between_coowners [.construct 42 none 100, .copyCtor 0] exSharedWorld 0 1 0 42
      (by decide) (by decide) (by decide) (by decide) (by decide)
  have hblk : blk = ⟨2, ⟨none, 100⟩⟩ := by
    have h : blockAt exSharedWorld.mem 0 = some ⟨2, ⟨none, 100⟩⟩ := by decide
    rw [h] at hB
    exact (Option.some.inj hB).symm
  subst hblk
  exact ⟨by decide, hcopy, w2, hm, hlog, hva, hvb, hcnt⟩

end SharedHandle
